import Mathlib

/-!
# Hexen renderer, `r_bsp.c`: the solid-segment clipper and the BSP walk

A shallow embedding of the clip list (`solidsegs`, `newend`) of
`src/hexen/r_bsp.c` and of the functions that read and write it
(`R_ClearClipSegs`, the two clippers, `R_AddLine`, `R_CheckBBox`,
`R_Subsector`, `R_RenderBSPNode`), followed by theorems about them.

Conventions of the embedding

* a C `int` is an `Int`; every C expression that can leave the 32-bit range is
  wrapped with `int32` (two's complement);
* the array `solidsegs[MAXSEGS]` is a `List cliprange` of length `MAXSEGS`,
  a pointer into it is a `Nat` index; `MAXSEGS` comes from the constant
  `MAXWIDTH`, which is declared in another file, so the length of the list is
  a parameter of every statement;
* a read or a write outside the array makes the function return `none`;
* `R_StoreWallRange(start, stop)` belongs to another file: a call is recorded
  as the pair `(start, stop)`, and every function returns the list of the calls
  it made, in call order;
* an `angle_t` is a `Nat` below `2^32`, every operation on it is wrapped with
  `u32`;
* constants, tables and functions of other files (`ANG90`, `viewangletox`,
  `R_PointToAngleCrispy`, `R_PointOnSide`, `NF_SUBSECTOR`, the `BOX...`
  positions) are fields of `View`, `Tree` and `BoxIndex`;
* the recursion of `R_RenderBSPNode` is bounded by a `fuel` argument, and the
  function also returns the arguments of its `R_Subsector` calls, in call
  order.
-/

namespace RBsp

/-! ## Machine integers -/

/-- Two's-complement value of a mathematical integer stored in a C `int`. -/
def int32 (x : Int) : Int := (x + 2147483648) % 4294967296 - 2147483648

/-- Largest C `int`, written `0x7fffffff` in the source. -/
def INT_MAX : Int := 0x7fffffff

/-! ## Data model -/

/-- Source: `typedef struct { int first, last; } cliprange_t;` -/
structure cliprange where
  first : Int
  last : Int
  deriving DecidableEq, Repr

/-- The two globals `cliprange_t solidsegs[MAXSEGS], *newend;`.
`newend` is kept as an index into `solidsegs`. -/
structure ClipState where
  solidsegs : List cliprange
  newend : Nat
  deriving DecidableEq, Repr

/-- A recorded call `R_StoreWallRange(start, stop)`. -/
abbrev WallRange := Int × Int

/-- Store through a pointer into the array; `none` when the pointer is outside. -/
def writeSeg (segs : List cliprange) (i : Nat) (v : cliprange) : Option (List cliprange) :=
  if i < segs.length then some (segs.set i v) else none

/-! ## `R_ClearClipSegs` -/

/-- Source: `R_ClearClipSegs`, lines 193-200. `viewwidth` is a global of
another file and is passed in. -/
def R_ClearClipSegs (viewwidth : Int) (s : ClipState) : Option ClipState :=
  match writeSeg s.solidsegs 0 ⟨-0x7fffffff, -1⟩ with
  | none => none
  | some segs0 =>
    match writeSeg segs0 1 ⟨viewwidth, 0x7fffffff⟩ with
    | none => none
    | some segs1 => some ⟨segs1, 2⟩

/-! ## The loops of the two clippers -/

/-- The start-locating loop `start = solidsegs; while (start->last < bound) start++;`
run on the array from `*start` on, where `start` is the index of its head.
Result: the final `start`. -/
def findStart : List cliprange → Int → Nat → Option Nat
  | [], _, _ => none
  | e :: rest, bound, start =>
    if e.last < bound then findStart rest bound (start + 1) else some start

/-- The insertion loop of `R_ClipSolidWallSegment`, lines 90-94:
`while (next != start) { *next = *(next - 1); next--; }`. The last argument
is `next`. -/
def shiftUp (start : Nat) : List cliprange → Nat → Option (List cliprange)
  | segs, 0 => if 0 = start then some segs else none
  | segs, next + 1 =>
    if next + 1 = start then some segs
    else
      match segs[next]? with
      | none => none
      | some v =>
        match writeSeg segs (next + 1) v with
        | none => none
        | some segs1 => shiftUp start segs1 next

/-- Exit of the forward walk of `R_ClipSolidWallSegment`: the final `next`,
the value assigned to `start->last`, and the recorded calls. -/
structure WalkResult where
  next : Nat
  newLast : Int
  stored : List WallRange
  deriving DecidableEq, Repr

/-- The forward walk of `R_ClipSolidWallSegment`, lines 108-123, run on the
array from `*next` on (`next` is the index of its head):
`while (last >= (next + 1)->first - 1) { store; next++; if (last <= next->last) goto crunch; }`
followed by the fragment after `*next`. -/
def solidWalk (last : Int) : List cliprange → Nat → Option WalkResult
  | [], _ => none
  | [_], _ => none
  | cur :: nxt :: rest, next =>
    if last ≥ int32 (nxt.first - 1) then
      if last ≤ nxt.last then
        some ⟨next + 1, nxt.last, [(int32 (cur.last + 1), int32 (nxt.first - 1))]⟩
      else
        match solidWalk last (nxt :: rest) (next + 1) with
        | none => none
        | some r =>
          some ⟨r.next, r.newLast, (int32 (cur.last + 1), int32 (nxt.first - 1)) :: r.stored⟩
    else
      some ⟨next, last, [(int32 (cur.last + 1), last)]⟩

/-- The crunch loop of `R_ClipSolidWallSegment`, lines 132-133:
`while (next++ != newend) *++start = *next;`. The first argument bounds the
number of iterations; the result is the array and the final `start`. -/
def crunchLoop (newend : Nat) : Nat → List cliprange → Nat → Nat → Option (List cliprange × Nat)
  | 0, _, _, _ => none
  | fuel + 1, segs, start, next =>
    if next ≠ newend then
      match segs[next + 1]? with
      | none => none
      | some v =>
        match writeSeg segs (start + 1) v with
        | none => none
        | some segs1 => crunchLoop newend fuel segs1 (start + 1) (next + 1)
    else some (segs, start)

/-- The forward walk of `R_ClipPassWallSegment`, lines 170-180, run on the
array from `*start` on. -/
def passWalk (last : Int) : List cliprange → Option (List WallRange)
  | [] => none
  | [_] => none
  | cur :: nxt :: rest =>
    if last ≥ int32 (nxt.first - 1) then
      if last ≤ nxt.last then
        some [(int32 (cur.last + 1), int32 (nxt.first - 1))]
      else
        match passWalk last (nxt :: rest) with
        | none => none
        | some out => some ((int32 (cur.last + 1), int32 (nxt.first - 1)) :: out)
    else
      some [(int32 (cur.last + 1), last)]

/-! ## `R_ClipSolidWallSegment` -/

/-- Lines 105-134 of `R_ClipSolidWallSegment`: everything after the
`if (first < start->first)` block. `pre` holds the calls recorded so far. -/
def solidTail (s : ClipState) (start : Nat) (last : Int) (pre : List WallRange) :
    Option (ClipState × List WallRange) :=
  match s.solidsegs[start]? with
  | none => none
  | some st =>
    if last ≤ st.last then some (s, pre)
    else
      match solidWalk last (s.solidsegs.drop start) start with
      | none => none
      | some r =>
        match writeSeg s.solidsegs start ⟨st.first, r.newLast⟩ with
        | none => none
        | some segs1 =>
          if r.next = start then some (⟨segs1, s.newend⟩, pre ++ r.stored)
          else
            match crunchLoop s.newend (segs1.length + 1) segs1 start r.next with
            | none => none
            | some (segs2, start2) => some (⟨segs2, start2 + 1⟩, pre ++ r.stored)

/-- Source: `R_ClipSolidWallSegment`, lines 74-135. Result: the new clip list
and the calls of `R_StoreWallRange`, in order. -/
def R_ClipSolidWallSegment (s : ClipState) (first last : Int) :
    Option (ClipState × List WallRange) :=
  match findStart s.solidsegs (int32 (first - 1)) 0 with
  | none => none
  | some start =>
    match s.solidsegs[start]? with
    | none => none
    | some st =>
      if first < st.first then
        if last < int32 (st.first - 1) then
          match shiftUp start s.solidsegs s.newend with
          | none => none
          | some segs1 =>
            match writeSeg segs1 start ⟨first, last⟩ with
            | none => none
            | some segs2 => some (⟨segs2, s.newend + 1⟩, [(first, last)])
        else
          match writeSeg s.solidsegs start ⟨first, st.last⟩ with
          | none => none
          | some segs1 =>
            solidTail ⟨segs1, s.newend⟩ start last [(first, int32 (st.first - 1))]
      else solidTail s start last []

/-! ## `R_ClipPassWallSegment` -/

/-- Source: `R_ClipPassWallSegment`, lines 146-181. The function has no
assignment to `solidsegs` or `newend`; the state is returned as it came in. -/
def R_ClipPassWallSegment (s : ClipState) (first last : Int) :
    Option (ClipState × List WallRange) :=
  match findStart s.solidsegs (int32 (first - 1)) 0 with
  | none => none
  | some start =>
    match s.solidsegs[start]? with
    | none => none
    | some st =>
      if first < st.first then
        if last < int32 (st.first - 1) then some (s, [(first, last)])
        else
          if last ≤ st.last then some (s, [(first, int32 (st.first - 1))])
          else
            match passWalk last (s.solidsegs.drop start) with
            | none => none
            | some out => some (s, (first, int32 (st.first - 1)) :: out)
      else
        if last ≤ st.last then some (s, [])
        else
          match passWalk last (s.solidsegs.drop start) with
          | none => none
          | some out => some (s, out)

/-! ## Segments, sectors and the view -/

/-- Value of a mathematical integer stored in an `angle_t` (`unsigned int`). -/
def u32 (x : Int) : Nat := (x % 4294967296).toNat

/-- The fields of `vertex_t` read by `R_AddLine`. -/
structure vertex where
  r_x : Int
  r_y : Int
  deriving DecidableEq, Repr

/-- The fields of `sector_t` read or written in `r_bsp.c`. `specialdata` is
`true` when the pointer is not `NULL`. -/
structure sector where
  floorheight : Int
  ceilingheight : Int
  floorpic : Int
  ceilingpic : Int
  rlightlevel : Int
  special : Int
  oldfloorheight : Int
  oldceilingheight : Int
  oldgametic : Int
  specialdata : Bool
  interpfloorheight : Int
  interpceilingheight : Int
  deriving DecidableEq, Repr

/-- The fields of `seg_t` read by `R_AddLine`: the two vertices, the
`midtexture` of `sidedef`, and `backsector` as an index into the sector array
(`none` for `NULL`). -/
structure seg where
  v1 : vertex
  v2 : vertex
  midtexture : Int
  backsector : Option Nat
  deriving DecidableEq, Repr

/-- Globals, tables, constants and functions of other files that `r_bsp.c`
reads: they do not change while a frame is rendered. `ANG90`, `ANG180` and
`ANGLETOFINESHIFT` are constants of `tables.h`. -/
structure View where
  viewx : Int
  viewy : Int
  viewz : Int
  viewangle : Nat
  clipangle : Nat
  viewangletox : Nat → Int
  R_PointToAngleCrispy : Int → Int → Nat
  ANG90 : Nat
  ANG180 : Nat
  ANGLETOFINESHIFT : Nat
  uncapped : Bool
  gametic : Int
  LerpFixed : Int → Int → Int
  skyflatnum : Int
  R_FindPlane : Int → Int → Int → Int → Nat

/-- The globals that `r_bsp.c` writes while a frame is rendered. `sectors` is
the sector array, `frontsector` and `backsector` index it; `sprites` records
the calls of `R_AddSprites`. -/
structure RenderState where
  clip : ClipState
  sectors : List sector
  frontsector : Nat
  backsector : Option Nat
  curline : Option seg
  rw_angle1 : Nat
  floorplane : Option Nat
  ceilingplane : Option Nat
  sscount : Nat
  sprites : List Nat
  deriving DecidableEq, Repr

/-! ## `R_CheckInterpolateSector` -/

/-- Source: `R_CheckInterpolateSector`, lines 203-228, as a function on the
sector record it is given. -/
def R_CheckInterpolateSector (v : View) (sec : sector) : sector :=
  if v.uncapped ∧ sec.oldgametic = int32 (v.gametic - 1) ∧ sec.specialdata then
    { sec with
      interpfloorheight :=
        if sec.floorheight ≠ sec.oldfloorheight then
          v.LerpFixed sec.oldfloorheight sec.floorheight
        else sec.floorheight
      interpceilingheight :=
        if sec.ceilingheight ≠ sec.oldceilingheight then
          v.LerpFixed sec.oldceilingheight sec.ceilingheight
        else sec.ceilingheight }
  else
    { sec with
      interpfloorheight := sec.floorheight
      interpceilingheight := sec.ceilingheight }

/-! ## `R_AddLine` -/

/-- Lines 266-273 of `R_AddLine`: the clip of `angle1` against the left view
edge. `none` stands for the `return`. -/
def clipAngle1 (v : View) (angle1 span : Nat) : Option Nat :=
  let tspan := u32 (angle1 + v.clipangle)
  if tspan > u32 (2 * v.clipangle) then
    let tspan := u32 (tspan - u32 (2 * v.clipangle))
    if tspan ≥ span then none else some v.clipangle
  else some angle1

/-- Lines 274-281 of `R_AddLine`: the clip of `angle2` against the right view
edge. `none` stands for the `return`. -/
def clipAngle2 (v : View) (angle2 span : Nat) : Option Nat :=
  let tspan := u32 (v.clipangle - angle2)
  if tspan > u32 (2 * v.clipangle) then
    let tspan := u32 (tspan - u32 (2 * v.clipangle))
    if tspan ≥ span then none else some (u32 (-(v.clipangle : Int)))
  else some angle2

/-- What `R_AddLine` does with a segment that crosses a pixel, lines 293-324. -/
inductive LineKind where
  | clipsolid
  | clippass
  | reject
  deriving DecidableEq, Repr

/-- Lines 303-317 of `R_AddLine`: the tests on the two sectors, `back` being
the back sector after `R_CheckInterpolateSector`. -/
def classify (front back : sector) (midtexture : Int) : LineKind :=
  if back.interpceilingheight ≤ front.interpfloorheight
      ∨ back.interpfloorheight ≥ front.interpceilingheight then LineKind.clipsolid
  else if back.interpceilingheight ≠ front.interpceilingheight
      ∨ back.interpfloorheight ≠ front.interpfloorheight then LineKind.clippass
  else if back.ceilingpic = front.ceilingpic ∧ back.floorpic = front.floorpic
      ∧ back.rlightlevel = front.rlightlevel ∧ back.special = front.special
      ∧ midtexture = 0 then LineKind.reject
  else LineKind.clippass

/-- Lines 293-324 of `R_AddLine`, from `backsector = line->backsector` on. -/
def addLineClip (v : View) (rs : RenderState) (line : seg) (x1 x2 : Int) :
    Option (RenderState × List WallRange) :=
  let rs1 := { rs with backsector := line.backsector }
  match line.backsector with
  | none =>
    match R_ClipSolidWallSegment rs1.clip x1 (int32 (x2 - 1)) with
    | none => none
    | some (c, out) => some ({ rs1 with clip := c }, out)
  | some b =>
    match rs1.sectors[b]? with
    | none => none
    | some back0 =>
      let back := R_CheckInterpolateSector v back0
      let rs2 := { rs1 with sectors := rs1.sectors.set b back }
      match rs2.sectors[rs2.frontsector]? with
      | none => none
      | some front =>
        match classify front back line.midtexture with
        | LineKind.clipsolid =>
          match R_ClipSolidWallSegment rs2.clip x1 (int32 (x2 - 1)) with
          | none => none
          | some (c, out) => some ({ rs2 with clip := c }, out)
        | LineKind.clippass =>
          match R_ClipPassWallSegment rs2.clip x1 (int32 (x2 - 1)) with
          | none => none
          | some (c, out) => some ({ rs2 with clip := c }, out)
        | LineKind.reject => some (rs2, [])

/-- Source: `R_AddLine`, lines 242-325. -/
def R_AddLine (v : View) (rs : RenderState) (line : seg) :
    Option (RenderState × List WallRange) :=
  let rs0 := { rs with curline := some line }
  let angle1 := u32 (v.R_PointToAngleCrispy line.v1.r_x line.v1.r_y)
  let angle2 := u32 (v.R_PointToAngleCrispy line.v2.r_x line.v2.r_y)
  let span := u32 (angle1 - angle2)
  if span ≥ v.ANG180 then some (rs0, [])
  else
    let rs1 := { rs0 with rw_angle1 := angle1 }
    let angle1 := u32 (angle1 - v.viewangle)
    let angle2 := u32 (angle2 - v.viewangle)
    match clipAngle1 v angle1 span with
    | none => some (rs1, [])
    | some angle1 =>
      match clipAngle2 v angle2 span with
      | none => some (rs1, [])
      | some angle2 =>
        let angle1 := u32 (angle1 + v.ANG90) >>> v.ANGLETOFINESHIFT
        let angle2 := u32 (angle2 + v.ANG90) >>> v.ANGLETOFINESHIFT
        let x1 := v.viewangletox angle1
        let x2 := v.viewangletox angle2
        if x1 = x2 then some (rs1, [])
        else addLineClip v rs1 line x1 x2

/-- A loop that calls `R_AddLine` on each segment of a list, in order. -/
def addLines (v : View) : RenderState → List seg → Option (RenderState × List WallRange)
  | rs, [] => some (rs, [])
  | rs, line :: rest =>
    match R_AddLine v rs line with
    | none => none
    | some (rs1, out) =>
      match addLines v rs1 rest with
      | none => none
      | some (rs2, outs) => some (rs2, out ++ outs)

/-! ## `R_Subsector` -/

/-- The fields of `polyobj_t` read by `R_Subsector`: `numsegs` and the array
`segs` of segment pointers. -/
structure polyobj where
  numsegs : Nat
  segs : List seg
  deriving DecidableEq, Repr

/-- The fields of `subsector_t` read by `R_Subsector`; `sector` indexes the
sector array, `poly` is `none` for `NULL`. -/
structure subsector where
  sector : Nat
  numlines : Nat
  firstline : Nat
  poly : Option polyobj
  deriving DecidableEq, Repr

/-- The level data of other files that `R_Subsector` reads, and whether the
file is compiled with `RANGECHECK`. -/
structure Level where
  segs : List seg
  subsectors : List subsector
  numsubsectors : Int
  RANGECHECK : Bool

/-- How a call ends: it returns, it stops the program through `I_Error`, or it
reads or writes outside an array. -/
inductive Outcome (α : Type) where
  | done (a : α)
  | I_Error (msg : String)
  | fault
  deriving DecidableEq, Repr

/-- The `count` entries of an array from index `first` on, `none` when one of
them is outside the array. -/
def readRun (xs : List seg) (first : Nat) : Nat → Option (List seg)
  | 0 => some []
  | count + 1 =>
    match xs[first]?, readRun xs (first + 1) count with
    | some x, some rest => some (x :: rest)
    | _, _ => none

/-- The test of line 508: `newend > &solidsegs[32] && false`. -/
def overflowTest (c : ClipState) : Bool := decide (c.newend > 32) && false

/-- Source: `R_Subsector`, lines 443-510. -/
def R_Subsector (v : View) (lv : Level) (rs : RenderState) (num : Int) :
    Outcome (RenderState × List WallRange) :=
  if lv.RANGECHECK ∧ num ≥ lv.numsubsectors then
    Outcome.I_Error "R_Subsector: ss %i with numss = %i"
  else if num < 0 then Outcome.fault
  else
    match lv.subsectors[num.toNat]? with
    | none => Outcome.fault
    | some sub =>
      match rs.sectors[sub.sector]? with
      | none => Outcome.fault
      | some front0 =>
        let front := R_CheckInterpolateSector v front0
        let floorplane :=
          if front.interpfloorheight < v.viewz then
            some (v.R_FindPlane front.interpfloorheight front.floorpic front.rlightlevel
              front.special)
          else none
        let ceilingplane :=
          if front.interpceilingheight > v.viewz ∨ front.ceilingpic = v.skyflatnum then
            some (v.R_FindPlane front.interpceilingheight front.ceilingpic front.rlightlevel 0)
          else none
        let rs1 : RenderState :=
          { rs with
            sscount := rs.sscount + 1
            frontsector := sub.sector
            sectors := rs.sectors.set sub.sector front
            floorplane := floorplane
            ceilingplane := ceilingplane
            sprites := rs.sprites ++ [sub.sector] }
        let polyRun : Option (List seg) :=
          match sub.poly with
          | none => some []
          | some p => readRun p.segs 0 p.numsegs
        match polyRun, readRun lv.segs sub.firstline sub.numlines with
        | some polySegs, some lines =>
          match addLines v rs1 (polySegs ++ lines) with
          | none => Outcome.fault
          | some (rs2, out) =>
            if overflowTest rs2.clip then
              Outcome.I_Error "R_Subsector: solidsegs overflow (vanilla may crash here)\n"
            else Outcome.done (rs2, out)
        | _, _ => Outcome.fault

/-! ## The interval sequence and its invariant -/

/-- The interval sequence of the clip list: `solidsegs[0]` through the right
sentinel, the first entry whose `last` is `0x7fffffff`. -/
def intervals : List cliprange → List cliprange
  | [] => []
  | e :: rest => if e.last = INT_MAX then [e] else e :: intervals rest

/-- Column `c` lies in one of the intervals. -/
def covered (ivs : List cliprange) (c : Int) : Prop :=
  ∃ e ∈ ivs, e.first ≤ c ∧ c ≤ e.last

instance (ivs : List cliprange) (c : Int) : Decidable (covered ivs c) :=
  inferInstanceAs (Decidable (∃ e ∈ ivs, e.first ≤ c ∧ c ≤ e.last))

/-- Column `c` lies in one of the recorded wall ranges. -/
def emitted (out : List WallRange) (c : Int) : Prop :=
  ∃ r ∈ out, r.1 ≤ c ∧ c ≤ r.2

instance (out : List WallRange) (c : Int) : Decidable (emitted out c) :=
  inferInstanceAs (Decidable (∃ r ∈ out, r.1 ≤ c ∧ c ≤ r.2))

/-- Consecutive intervals do not touch: `prev.last + 1 < next.first`. -/
def apart (a b : cliprange) : Prop := a.last + 1 < b.first

instance (a b : cliprange) : Decidable (apart a b) :=
  inferInstanceAs (Decidable (a.last + 1 < b.first))

/-- The sorted / non-touching invariant of an interval sequence: every
interval is non-empty, consecutive intervals are apart, the first one starts
at `-0x7fffffff` and the final one ends at `0x7fffffff`. -/
def SegsInv (ivs : List cliprange) : Prop :=
  (∀ e ∈ ivs, e.first ≤ e.last) ∧ ivs.Chain' apart ∧
  ivs.head?.map (fun e => e.first) = some (-0x7fffffff) ∧
  ivs.getLast?.map (fun e => e.last) = some 0x7fffffff

instance (ivs : List cliprange) : Decidable (SegsInv ivs) :=
  inferInstanceAs (Decidable ((∀ e ∈ ivs, e.first ≤ e.last) ∧ ivs.Chain' apart ∧
    ivs.head?.map (fun e => e.first) = some (-0x7fffffff) ∧
    ivs.getLast?.map (fun e => e.last) = some 0x7fffffff))

/-- The invariant of the clip list: its interval sequence satisfies `SegsInv`
and lies below `newend`, which is inside the array or one past its end. -/
def ClipInv (s : ClipState) : Prop :=
  SegsInv (intervals s.solidsegs) ∧ (intervals s.solidsegs).length ≤ s.newend ∧
  s.newend ≤ s.solidsegs.length

instance (s : ClipState) : Decidable (ClipInv s) :=
  inferInstanceAs (Decidable (SegsInv (intervals s.solidsegs) ∧
    (intervals s.solidsegs).length ≤ s.newend ∧ s.newend ≤ s.solidsegs.length))

/-! ## The clippers on the interval sequence

The same control flow as the two C functions, written over the interval
sequence alone (no array, no wrap-around). The theorems below show that the
embedded functions compute exactly these on every clip list that satisfies
the invariant. -/

/-- The merged post and what follows it: the walk of lines 105-134 on the
sequence. `st` is `*start`, the list is what follows it. -/
def absorb (last : Int) : cliprange → List cliprange → List cliprange
  | st, [] => if last ≤ st.last then [st] else [⟨st.first, last⟩]
  | st, nxt :: rest =>
    if last ≤ st.last then st :: nxt :: rest
    else if last ≥ nxt.first - 1 then absorb last ⟨st.first, nxt.last⟩ rest
    else ⟨st.first, last⟩ :: nxt :: rest

/-- The interval sequence after `R_ClipSolidWallSegment(first, last)`. -/
def mergeSolid (first last : Int) : List cliprange → List cliprange
  | [] => []
  | e :: rest =>
    if e.last < first - 1 then e :: mergeSolid first last rest
    else if first < e.first then
      if last < e.first - 1 then ⟨first, last⟩ :: e :: rest
      else absorb last ⟨first, e.last⟩ rest
    else absorb last e rest

/-- The fragments after `cur`: the wall ranges of the forward walk. -/
def gapsAfter (last : Int) : cliprange → List cliprange → List WallRange
  | cur, [] => if last ≤ cur.last then [] else [(cur.last + 1, last)]
  | cur, nxt :: rest =>
    if last ≤ cur.last then []
    else if last ≥ nxt.first - 1 then (cur.last + 1, nxt.first - 1) :: gapsAfter last nxt rest
    else [(cur.last + 1, last)]

/-- The wall ranges of a clipper call on the interval sequence. -/
def openRanges (first last : Int) : List cliprange → List WallRange
  | [] => []
  | e :: rest =>
    if e.last < first - 1 then openRanges first last rest
    else if first < e.first then
      if last < e.first - 1 then [(first, last)]
      else (first, e.first - 1) :: gapsAfter last e rest
    else gapsAfter last e rest

/-- A sequence of `R_ClipSolidWallSegment` calls; the result is the final clip
list and the wall ranges of each call. -/
def runSolid : ClipState → List (Int × Int) → Option (ClipState × List (List WallRange))
  | s, [] => some (s, [])
  | s, (first, last) :: calls =>
    match R_ClipSolidWallSegment s first last with
    | none => none
    | some (s1, out) =>
      match runSolid s1 calls with
      | none => none
      | some (s2, outs) => some (s2, out :: outs)

/-! ## Auxiliary predicates of the proofs -/

/-- Every endpoint of the interval is a C `int` other than `INT_MIN`. -/
def Bounded (e : cliprange) : Prop :=
  -2147483647 ≤ e.first ∧ e.first ≤ 2147483647 ∧ -2147483647 ≤ e.last ∧ e.last ≤ 2147483647

/-- The invariant without the condition on the first interval. -/
def Good (ivs : List cliprange) : Prop :=
  (∀ e ∈ ivs, e.first ≤ e.last) ∧ ivs.Chain' apart ∧
  ivs.getLast?.map (fun e => e.last) = some 2147483647

/-- Open columns in excess of one, summed over the gaps, the first gap
measured from `b`. -/
def slackFrom (b : Int) : List cliprange → Int
  | [] => 0
  | e :: rest => (e.first - b) + slackFrom (e.last + 2) rest

/-- The clip list is reachable from a reset of width `W` as far as counting
goes: the invariant holds and `2 * newend` plus the slack of the gaps is at
most `W + 3`. -/
def Reach (W : Int) (s : ClipState) : Prop :=
  ClipInv s ∧ 2 * (s.newend : Int) + slackFrom (-2147483647) (intervals s.solidsegs) ≤ W + 3

/-- The wall ranges `out` are the maximal runs of columns of `[first, last]`
that no interval of `ivs` covers, in ascending order: every range is non-empty
and inside `[first, last]`, a later range starts after an earlier one ends,
no column of a range is covered, a range stops only at `first`, at `last` or
next to a covered column, and a column of `[first, last]` lies in exactly one
range when it is not covered and in none when it is. -/
def OpenPartition (ivs : List cliprange) (first last : Int) (out : List WallRange) : Prop :=
  (∀ r ∈ out, first ≤ r.1 ∧ r.1 ≤ r.2 ∧ r.2 ≤ last) ∧
  out.Pairwise (fun p q => p.2 < q.1) ∧
  (∀ r ∈ out, (∀ c, r.1 ≤ c → c ≤ r.2 → ¬ covered ivs c) ∧
    (r.1 = first ∨ covered ivs (r.1 - 1)) ∧ (r.2 = last ∨ covered ivs (r.2 + 1))) ∧
  (∀ c, first ≤ c → c ≤ last →
    (out.filter (fun r => decide (r.1 ≤ c ∧ c ≤ r.2))).length = if covered ivs c then 0 else 1)

/-! ## A level of one subsector with one one-sided segment

The segment spans the view angles `+0x10000000` to `-0x10000000`; the
angle-to-column table puts the first on column 1 and the second on column 2,
so `R_AddLine` marks the range `[1, 1]` solid. -/

/-- A view at the origin looking along angle 0 with a clip angle of 45 degrees. -/
def exView : View where
  viewx := 0
  viewy := 0
  viewz := 0
  viewangle := 0
  clipangle := 0x20000000
  viewangletox := fun i => if i ≥ 2048 then 1 else 2
  R_PointToAngleCrispy := fun x _ => if x = 0 then 0x10000000 else 0xF0000000
  ANG90 := 0x40000000
  ANG180 := 0x80000000
  ANGLETOFINESHIFT := 19
  uncapped := false
  gametic := 0
  LerpFixed := fun a _ => a
  skyflatnum := 0
  R_FindPlane := fun _ _ _ _ => 0

/-- A sector with its floor at 0 and its ceiling at 128. -/
def exSector : sector :=
  { floorheight := 0, ceilingheight := 128, floorpic := 1, ceilingpic := 2,
    rlightlevel := 160, special := 0, oldfloorheight := 0, oldceilingheight := 128,
    oldgametic := 0, specialdata := false, interpfloorheight := 0, interpceilingheight := 128 }

/-- A one-sided segment. -/
def exLine : seg :=
  { v1 := ⟨0, 0⟩, v2 := ⟨1, 0⟩, midtexture := 0, backsector := none }

/-- One subsector that owns `exLine`; `rangecheck` says whether `RANGECHECK`
is defined. -/
def exLevel (rangecheck : Bool) : Level :=
  { segs := [exLine], subsectors := [⟨0, 1, 0, none⟩], numsubsectors := 1,
    RANGECHECK := rangecheck }

/-- The globals at the start of a frame, around a clip list. -/
def exRender (c : ClipState) : RenderState :=
  { clip := c, sectors := [exSector], frontsector := 0, backsector := none, curline := none,
    rw_angle1 := 0, floorplane := none, ceilingplane := none, sscount := 0, sprites := [] }

/-! ## `R_CheckBBox` -/

/-- The enumeration `BOXTOP`, `BOXBOTTOM`, `BOXLEFT`, `BOXRIGHT` of another
file: the positions of the four coordinates in a bounding box `fixed_t[4]`. -/
structure BoxIndex where
  BOXTOP : Nat
  BOXBOTTOM : Nat
  BOXLEFT : Nat
  BOXRIGHT : Nat
  deriving DecidableEq, Repr

/-- Source: `int checkcoord[12][4]`, lines 340-352. The rows written `{0}` and
the twelfth row, which has no initialiser, are filled with zeros. -/
def checkcoord : List (List Nat) :=
  [[3, 0, 2, 1], [3, 0, 2, 0], [3, 1, 2, 0], [0, 0, 0, 0],
   [2, 0, 2, 1], [0, 0, 0, 0], [3, 1, 3, 0], [0, 0, 0, 0],
   [2, 0, 3, 1], [2, 1, 3, 1], [2, 1, 3, 0], [0, 0, 0, 0]]

/-- Lines 364-378 of `R_CheckBBox`: `boxpos = (boxy << 2) + boxx`. -/
def boxPos (v : View) (bx : BoxIndex) (bspcoord : List Int) : Option Nat :=
  match bspcoord[bx.BOXLEFT]?, bspcoord[bx.BOXRIGHT]?, bspcoord[bx.BOXTOP]?,
      bspcoord[bx.BOXBOTTOM]? with
  | some left, some right, some top, some bottom =>
    let boxx := if v.viewx ≤ left then 0 else if v.viewx < right then 1 else 2
    let boxy := if v.viewy ≥ top then 0 else if v.viewy > bottom then 1 else 2
    some ((boxy <<< 2) + boxx)
  | _, _, _, _ => none

/-- Lines 382-385 of `R_CheckBBox`: the corners `(x1, y1)` and `(x2, y2)` read
through row `boxpos` of `checkcoord`. -/
def boxCorners (boxpos : Nat) (bspcoord : List Int) : Option ((Int × Int) × (Int × Int)) :=
  match checkcoord[boxpos]? with
  | some [i0, i1, i2, i3] =>
    match bspcoord[i0]?, bspcoord[i1]?, bspcoord[i2]?, bspcoord[i3]? with
    | some x1, some y1, some x2, some y2 => some ((x1, y1), (x2, y2))
    | _, _, _, _ => none
  | _ => none

/-- What lines 391-421 of `R_CheckBBox` find for the two corners: a `return
true`, a `return false`, or the columns `sx1`, `sx2` handed to the final test. -/
inductive BoxView where
  | visible
  | hidden
  | columns (sx1 sx2 : Int)
  deriving DecidableEq, Repr

/-- Lines 391-421 of `R_CheckBBox`. The two clip checks of lines 397-412 are
the statements of lines 266-281 of `R_AddLine` with `return false` for
`return`, so `clipAngle1` and `clipAngle2` serve both. -/
def boxProject (v : View) (c1 c2 : Int × Int) : BoxView :=
  let angle1 := u32 (u32 (v.R_PointToAngleCrispy c1.1 c1.2) - v.viewangle)
  let angle2 := u32 (u32 (v.R_PointToAngleCrispy c2.1 c2.2) - v.viewangle)
  let span := u32 (angle1 - angle2)
  if span ≥ v.ANG180 then BoxView.visible
  else
    match clipAngle1 v angle1 span with
    | none => BoxView.hidden
    | some angle1 =>
      match clipAngle2 v angle2 span with
      | none => BoxView.hidden
      | some angle2 =>
        let angle1 := u32 (angle1 + v.ANG90) >>> v.ANGLETOFINESHIFT
        let angle2 := u32 (angle2 + v.ANG90) >>> v.ANGLETOFINESHIFT
        let sx1 := v.viewangletox angle1
        let sx2 := v.viewangletox angle2
        if sx1 = sx2 then BoxView.hidden else BoxView.columns sx1 sx2

/-- Lines 422-430 of `R_CheckBBox`: `sx2--`, the scan for the first post that
ends at or after `sx2`, and the containment test. -/
def checkBBoxFinal (c : ClipState) (sx1 sx2 : Int) : Option Bool :=
  let sx2 := int32 (sx2 - 1)
  match findStart c.solidsegs sx2 0 with
  | none => none
  | some start =>
    match c.solidsegs[start]? with
    | none => none
    | some st => if sx1 ≥ st.first ∧ sx2 ≤ st.last then some false else some true

/-- Source: `R_CheckBBox`, lines 355-431. -/
def R_CheckBBox (v : View) (bx : BoxIndex) (c : ClipState) (bspcoord : List Int) :
    Option Bool :=
  match boxPos v bx bspcoord with
  | none => none
  | some boxpos =>
    if boxpos = 5 then some true
    else
      match boxCorners boxpos bspcoord with
      | none => none
      | some (c1, c2) =>
        match boxProject v c1 c2 with
        | BoxView.visible => some true
        | BoxView.hidden => some false
        | BoxView.columns sx1 sx2 => checkBBoxFinal c sx1 sx2

/-! ## `R_RenderBSPNode` -/

/-- The fields of `node_t`: the partition line, which only `R_PointOnSide`
reads, and the arrays `bbox[2][4]` and `children[2]`. -/
structure node where
  x : Int
  y : Int
  dx : Int
  dy : Int
  bbox : List Int × List Int
  children : Int × Int
  deriving DecidableEq, Repr

/-- The node array, the constant `NF_SUBSECTOR` and the function
`R_PointOnSide` of other files. -/
structure Tree where
  nodes : List node
  NF_SUBSECTOR : Int
  R_PointOnSide : Int → Int → node → Nat

/-- Entry `side` of a two-element array. -/
def pick {α : Type} (p : α × α) (side : Nat) : Option α :=
  match side with
  | 0 => some p.1
  | 1 => some p.2
  | _ => none

/-- The C expression `a & b` on two `int`s. -/
def landInt (a b : Int) : Int := int32 (Nat.land (u32 a) (u32 b))

/-- What a call of `R_RenderBSPNode` leaves: the globals, the recorded calls of
`R_StoreWallRange` and the arguments of the calls of `R_Subsector`, both in
call order. -/
abbrev Rendered := RenderState × List WallRange × List Int

/-- Lines 526-533 of `R_RenderBSPNode`: the call of `R_Subsector` for a leaf. -/
def renderLeaf (v : View) (lv : Level) (rs : RenderState) (num : Int) :
    Option (Outcome Rendered) :=
  match R_Subsector v lv rs num with
  | Outcome.done (rs1, out) => some (Outcome.done (rs1, out, [num]))
  | Outcome.I_Error msg => some (Outcome.I_Error msg)
  | Outcome.fault => some Outcome.fault

/-- Line 545 of `R_RenderBSPNode`, after the call for the back child returned
`r`: what the front child recorded comes first. -/
def afterBack (out1 : List WallRange) (seen1 : List Int) (r : Option (Outcome Rendered)) :
    Option (Outcome Rendered) :=
  match r with
  | none => none
  | some (Outcome.I_Error msg) => some (Outcome.I_Error msg)
  | some Outcome.fault => some Outcome.fault
  | some (Outcome.done (rs2, out2, seen2)) =>
    some (Outcome.done (rs2, out1 ++ out2, seen1 ++ seen2))

/-- Lines 544-545 of `R_RenderBSPNode`: the test of the far bounding box on
the clip list that the front child left, and the call for the back child. -/
def renderBack (v : View) (bx : BoxIndex) (self : RenderState → Int → Option (Outcome Rendered))
    (bsp : node) (side : Nat) (r1 : Rendered) : Option (Outcome Rendered) :=
  match pick bsp.bbox (side ^^^ 1) with
  | none => some Outcome.fault
  | some box =>
    match R_CheckBBox v bx r1.1.clip box with
    | none => some Outcome.fault
    | some false => some (Outcome.done r1)
    | some true =>
      match pick bsp.children (side ^^^ 1) with
      | none => some Outcome.fault
      | some back => afterBack r1.2.1 r1.2.2 (self r1.1 back)

/-- Lines 542-545 of `R_RenderBSPNode`, after the call for the front child
returned `r`. -/
def afterFront (v : View) (bx : BoxIndex) (self : RenderState → Int → Option (Outcome Rendered))
    (bsp : node) (side : Nat) (r : Option (Outcome Rendered)) : Option (Outcome Rendered) :=
  match r with
  | none => none
  | some (Outcome.I_Error msg) => some (Outcome.I_Error msg)
  | some Outcome.fault => some Outcome.fault
  | some (Outcome.done r1) => renderBack v bx self bsp side r1

/-- Lines 535-545 of `R_RenderBSPNode`: an internal node. -/
def renderNode (v : View) (bx : BoxIndex) (t : Tree)
    (self : RenderState → Int → Option (Outcome Rendered)) (rs : RenderState) (bspnum : Int) :
    Option (Outcome Rendered) :=
  if bspnum < 0 then some Outcome.fault
  else
    match t.nodes[bspnum.toNat]? with
    | none => some Outcome.fault
    | some bsp =>
      match pick bsp.children (t.R_PointOnSide v.viewx v.viewy bsp) with
      | none => some Outcome.fault
      | some front =>
        afterFront v bx self bsp (t.R_PointOnSide v.viewx v.viewy bsp) (self rs front)

/-- Line 531 or 533 of `R_RenderBSPNode`: the argument given to `R_Subsector`. -/
def leafArg (t : Tree) (bspnum : Int) : Int :=
  if bspnum = -1 then 0 else landInt bspnum (-1 - t.NF_SUBSECTOR)

/-- Source: the body of `R_RenderBSPNode`, lines 521-546, with the function
called at lines 542 and 545 as the parameter `self`. -/
def renderBody (v : View) (bx : BoxIndex) (lv : Level) (t : Tree)
    (self : RenderState → Int → Option (Outcome Rendered)) (rs : RenderState) (bspnum : Int) :
    Option (Outcome Rendered) :=
  if landInt bspnum t.NF_SUBSECTOR ≠ 0 then renderLeaf v lv rs (leafArg t bspnum)
  else renderNode v bx t self rs bspnum

/-- Source: `R_RenderBSPNode`, lines 521-546. The depth of the recursion is
bounded by `fuel`; `none` says that the bound was reached. -/
def R_RenderBSPNode (v : View) (bx : BoxIndex) (lv : Level) (t : Tree) :
    Nat → RenderState → Int → Option (Outcome Rendered)
  | 0 => fun _ _ => none
  | fuel + 1 => renderBody v bx lv t (R_RenderBSPNode v bx lv t fuel)

/-- The leaf that the viewpoint lies in: from `bspnum` down the child
`children[side]` of every node, `side = R_PointOnSide(viewx, viewy, node)`;
the result is the argument that `R_RenderBSPNode` gives to `R_Subsector`. -/
def viewLeaf (v : View) (t : Tree) : Nat → Int → Option Int
  | 0, _ => none
  | fuel + 1, bspnum =>
    if landInt bspnum t.NF_SUBSECTOR ≠ 0 then some (leafArg t bspnum)
    else if bspnum < 0 then none
    else
      match t.nodes[bspnum.toNat]? with
      | none => none
      | some bsp =>
        match pick bsp.children (t.R_PointOnSide v.viewx v.viewy bsp) with
        | none => none
        | some front => viewLeaf v t fuel front

/-- The leaves below `bspnum`, as the arguments that `R_RenderBSPNode` gives to
`R_Subsector`: those below `children[0]`, then those below `children[1]`.
`none` when the depth exceeds `fuel` or a child is not in the node array. -/
def leaves (t : Tree) : Nat → Int → Option (List Int)
  | 0, _ => none
  | fuel + 1, bspnum =>
    if landInt bspnum t.NF_SUBSECTOR ≠ 0 then some [leafArg t bspnum]
    else if bspnum < 0 then none
    else
      match t.nodes[bspnum.toNat]? with
      | none => none
      | some bsp =>
        match leaves t fuel bsp.children.1, leaves t fuel bsp.children.2 with
        | some l0, some l1 => some (l0 ++ l1)
        | _, _ => none

/-! ## Names for the intermediate values of `R_AddLine` -/

/-- Line 252 of `R_AddLine`: `angle1 = R_PointToAngleCrispy(line->v1->r_x, line->v1->r_y)`. -/
def lineAngle1 (v : View) (line : seg) : Nat :=
  u32 (v.R_PointToAngleCrispy line.v1.r_x line.v1.r_y)

/-- Line 253 of `R_AddLine`: `angle2 = R_PointToAngleCrispy(line->v2->r_x, line->v2->r_y)`. -/
def lineAngle2 (v : View) (line : seg) : Nat :=
  u32 (v.R_PointToAngleCrispy line.v2.r_x line.v2.r_y)

/-- Line 258 of `R_AddLine`: `span = angle1 - angle2`. -/
def lineSpan (v : View) (line : seg) : Nat :=
  u32 (lineAngle1 v line - lineAngle2 v line)

/-- Lines 287-290 of `R_AddLine`: the table index
`(angle + ANG90) >> ANGLETOFINESHIFT` of a clipped angle. -/
def angleIndex (v : View) (angle : Nat) : Nat :=
  u32 (angle + v.ANG90) >>> v.ANGLETOFINESHIFT

/-- Lines 287-290 of `R_AddLine`: the column `viewangletox[...]` of a clipped angle. -/
def angleColumn (v : View) (angle : Nat) : Int :=
  v.viewangletox (angleIndex v angle)

/-! ## A tree of one node and two leaves -/

/-- The positions `BOXTOP = 0`, `BOXBOTTOM = 1`, `BOXLEFT = 2`, `BOXRIGHT = 3`. -/
def exBox : BoxIndex := ⟨0, 1, 2, 3⟩

/-- One node above the two leaves 0 and 1 (`NF_SUBSECTOR = 0x8000`);
`R_PointOnSide` puts the viewpoint on side 1, so leaf 1 is the near one; both
bounding boxes contain the viewpoint of `exView`. -/
def exTree : Tree :=
  { nodes := [⟨0, 0, 1, 0, ([10, -10, -10, 10], [10, -10, -10, 10]), (0x8000, 0x8001)⟩],
    NF_SUBSECTOR := 0x8000, R_PointOnSide := fun _ _ _ => 1 }

/-- Two subsectors of sector 0: the first owns `exLine`, the second no segment. -/
def exLevel2 : Level :=
  { segs := [exLine], subsectors := [⟨0, 1, 0, none⟩, ⟨0, 0, 0, none⟩], numsubsectors := 2,
    RANGECHECK := true }

/-- The clip list after `R_ClearClipSegs` with `viewwidth = 320`, in an array of four. -/
def exClip : ClipState := ⟨[⟨-0x7fffffff, -1⟩, ⟨320, 0x7fffffff⟩, ⟨0, 0⟩, ⟨0, 0⟩], 2⟩

/-- What `R_RenderBSPNode(0)` leaves on `exTree`: leaf 1 first, then leaf 0,
whose segment marks column 1 solid. -/
def exRendered : Rendered :=
  ({ exRender ⟨[⟨-0x7fffffff, -1⟩, ⟨1, 1⟩, ⟨320, 0x7fffffff⟩, ⟨0, 0⟩], 3⟩ with
      curline := some exLine, rw_angle1 := 0x10000000, ceilingplane := some 0,
      sscount := 2, sprites := [0, 0] },
   [(1, 1)], [1, 0])

/-- The globals after `R_Subsector(0)` on `exLevel`, started on `exClip`: the
segment `exLine` marked column 1 solid. -/
def exAfterLeaf : RenderState :=
  { exRender ⟨[⟨-0x7fffffff, -1⟩, ⟨1, 1⟩, ⟨320, 0x7fffffff⟩, ⟨0, 0⟩], 3⟩ with
      curline := some exLine, rw_angle1 := 0x10000000, ceilingplane := some 0,
      sscount := 1, sprites := [0] }

/-- The level `exLevel` with a polyobject of one segment, seen from behind, in
its subsector. -/
def exLevelPoly : Level :=
  { segs := [exLine],
    subsectors := [⟨0, 1, 0, some ⟨1, [⟨⟨1, 0⟩, ⟨0, 0⟩, 0, none⟩]⟩⟩],
    numsubsectors := 1, RANGECHECK := true }

/-! ## Plane geometry of the statements -/

/-- The cross product `a.x * b.y - a.y * b.x` of two plane vectors; it is
non-negative exactly when `b` is at most a half turn counter-clockwise of `a`. -/
def cross (a b : Int × Int) : Int := a.1 * b.2 - a.2 * b.1

/-! # Theorems -/

/-! ## Helper lemmas: machine integers and array accesses -/

theorem int32_eq (x : Int) (h1 : -2147483648 ≤ x) (h2 : x ≤ 2147483647) : int32 x = x := by
  unfold int32; omega

theorem writeSeg_append (A : List cliprange) (x v : cliprange) (B : List cliprange) :
    writeSeg (A ++ x :: B) A.length v = some (A ++ v :: B) := by
  unfold writeSeg
  simp

theorem getElem?_mid (A : List cliprange) (x : cliprange) (B : List cliprange) :
    (A ++ x :: B)[A.length]? = some x := by
  rw [List.getElem?_append_right (le_refl _)]; simp

theorem getElem?_at (A : List cliprange) (x : cliprange) (B : List cliprange) (n : Nat)
    (h : n = A.length) : (A ++ x :: B)[n]? = some x := by
  subst h; exact getElem?_mid A x B

theorem writeSeg_at (A : List cliprange) (x v : cliprange) (B : List cliprange) (n : Nat)
    (h : n = A.length) : writeSeg (A ++ x :: B) n v = some (A ++ v :: B) := by
  subst h; exact writeSeg_append A x v B

theorem findStart_append (A : List cliprange) (x : cliprange) (B : List cliprange)
    (bound : Int) (i : Nat) (hA : ∀ e ∈ A, e.last < bound) (hx : ¬ x.last < bound) :
    findStart (A ++ x :: B) bound i = some (i + A.length) := by
  induction A generalizing i with
  | nil => simp [findStart, hx]
  | cons a A ih =>
    have ha : a.last < bound := hA a (by simp)
    have := ih (i + 1) (fun e he => hA e (by simp [he]))
    simp [findStart, ha, this]; omega

theorem shiftUp_spec (P : List cliprange) (Q : List cliprange) (x : cliprange)
    (T : List cliprange) :
    ∃ j, shiftUp P.length (P ++ Q ++ x :: T) (P.length + Q.length) = some (P ++ j :: Q ++ T) := by
  induction Q using List.reverseRecOn generalizing x T with
  | nil =>
    cases hP : P.length with
    | zero => simp [shiftUp, hP]
    | succ n => simp [shiftUp, hP]
  | append_singleton Q q ih =>
    obtain ⟨j, hj⟩ := ih q (q :: T)
    refine ⟨j, ?_⟩
    have h1 : P.length + (Q ++ [q]).length = (P.length + Q.length) + 1 := by simp; omega
    rw [h1, shiftUp]
    have h2 : ¬ (P.length + Q.length + 1 = P.length) := by omega
    have h3 : (P ++ (Q ++ [q]) ++ x :: T)[P.length + Q.length]? = some q := by
      have : P ++ (Q ++ [q]) ++ x :: T = (P ++ Q) ++ q :: (x :: T) := by simp
      rw [this]
      have := getElem?_mid (P ++ Q) q (x :: T)
      simpa using this
    have h4 : writeSeg (P ++ (Q ++ [q]) ++ x :: T) (P.length + Q.length + 1) q
        = some (P ++ Q ++ q :: q :: T) := by
      have e : P ++ (Q ++ [q]) ++ x :: T = (P ++ Q ++ [q]) ++ x :: T := by simp
      rw [e]
      have := writeSeg_append (P ++ Q ++ [q]) x q T
      simpa using this
    simp only [h2, if_false, h3, h4]
    rw [hj]; simp

theorem crunchLoop_spec (W : List cliprange) : ∀ (P : List cliprange) (p : cliprange)
    (X T : List cliprange) (fuel : Nat), X ≠ [] → W.length < fuel →
    ∃ X1, X1.length = X.length ∧
      crunchLoop (P.length + X.length + W.length) fuel (P ++ p :: X ++ W ++ T) P.length
        (P.length + X.length) = some (P ++ p :: W ++ X1 ++ T, P.length + W.length) := by
  induction W with
  | nil =>
    intro P p X T fuel _ hf
    obtain ⟨k, rfl⟩ : ∃ k, fuel = k + 1 := ⟨fuel - 1, by simp at hf; omega⟩
    exact ⟨X, rfl, by simp [crunchLoop]⟩
  | cons w W ih =>
    intro P p X T fuel hX hf
    obtain ⟨k, rfl⟩ : ∃ k, fuel = k + 1 := ⟨fuel - 1, by simp at hf; omega⟩
    obtain ⟨x0, X0, rfl⟩ : ∃ x0 X0, X = x0 :: X0 := by
      cases X with
      | nil => exact absurd rfl hX
      | cons a b => exact ⟨a, b, rfl⟩
    obtain ⟨X1, hX1, hrec⟩ := ih (P ++ [p]) w (X0 ++ [w]) T k (by simp)
      (by simp at hf ⊢; omega)
    refine ⟨X1, by simpa using hX1, ?_⟩
    rw [crunchLoop]
    have h1 : P.length + (x0 :: X0).length ≠ P.length + (x0 :: X0).length + (w :: W).length := by
      simp
    have h3 : (P ++ p :: (x0 :: X0) ++ (w :: W) ++ T)[P.length + (x0 :: X0).length + 1]?
        = some w := by
      have e : P ++ p :: (x0 :: X0) ++ (w :: W) ++ T = (P ++ p :: x0 :: X0) ++ w :: (W ++ T) := by
        simp
      rw [e]
      exact getElem?_at _ _ _ _ (by simp; omega)
    have h4 : writeSeg (P ++ p :: (x0 :: X0) ++ (w :: W) ++ T) (P.length + 1) w
        = some ((P ++ [p]) ++ w :: (X0 ++ [w]) ++ W ++ T) := by
      have e : P ++ p :: (x0 :: X0) ++ (w :: W) ++ T = (P ++ [p]) ++ x0 :: (X0 ++ w :: W ++ T) := by
        simp
      rw [e]
      have := writeSeg_append (P ++ [p]) x0 w (X0 ++ w :: W ++ T)
      simpa using this
    simp only [h1, ne_eq, not_false_eq_true, if_true, h3, h4]
    have e1 : (P ++ [p]).length + (X0 ++ [w]).length + W.length
        = P.length + (x0 :: X0).length + (w :: W).length := by simp; omega
    have e2 : (P ++ [p]).length = P.length + 1 := by simp
    have e3 : P.length + 1 + (X0 ++ [w]).length = P.length + (x0 :: X0).length + 1 := by
      simp; omega
    rw [e1, e2, e3] at hrec
    rw [hrec]
    simp; omega

theorem absorb_of_le (l : Int) (st : cliprange) (V : List cliprange) (h : l ≤ st.last) :
    absorb l st V = st :: V := by
  cases V <;> simp [absorb, h]

theorem gapsAfter_of_le (l : Int) (st : cliprange) (V : List cliprange) (h : l ≤ st.last) :
    gapsAfter l st V = [] := by
  cases V <;> simp [gapsAfter, h]

theorem solidWalk_spec (l : Int) (hl : l ≤ 2147483647) (G : List cliprange) :
    ∀ (V : List cliprange) (cur : cliprange) (start : Nat),
      ¬ l ≤ cur.last → Bounded cur → (∀ e ∈ V, Bounded e) → (∃ e ∈ V, l ≤ e.last) →
      ∃ r C D, solidWalk l (cur :: (V ++ G)) start = some r ∧ V = C ++ D ∧
        r.next = start + C.length ∧
        (∀ f0, absorb l ⟨f0, cur.last⟩ V = ⟨f0, r.newLast⟩ :: D) ∧
        r.stored = gapsAfter l cur V ∧
        passWalk l (cur :: (V ++ G)) = some (gapsAfter l cur V) := by
  intro V
  induction V with
  | nil => intro cur start _ _ _ hex; obtain ⟨e, he, _⟩ := hex; simp at he
  | cons nxt V ih =>
    intro cur start hcur hbc hbV hex
    have hbn : Bounded nxt := hbV nxt (by simp)
    obtain ⟨hc1, hc2, hc3, hc4⟩ := hbc
    obtain ⟨hn1, hn2, hn3, hn4⟩ := hbn
    have e1 : int32 (nxt.first - 1) = nxt.first - 1 := int32_eq _ (by omega) (by omega)
    have e2 : int32 (cur.last + 1) = cur.last + 1 := int32_eq _ (by omega) (by omega)
    by_cases h1 : l ≥ nxt.first - 1
    · by_cases h2 : l ≤ nxt.last
      · refine ⟨⟨start + 1, nxt.last, [(cur.last + 1, nxt.first - 1)]⟩, [nxt], V, ?_, rfl, rfl, ?_, ?_, ?_⟩
        · simp [solidWalk, e1, e2, h1, h2]
        · intro f0
          simp [absorb, hcur, h1, absorb_of_le l ⟨f0, nxt.last⟩ V h2]
        · simp [gapsAfter, hcur, h1, gapsAfter_of_le _ _ _ h2]
        · simp [passWalk, gapsAfter, hcur, e1, e2, h1, h2, gapsAfter_of_le _ _ _ h2]
      · have hex' : ∃ e ∈ V, l ≤ e.last := by
          obtain ⟨e, he, hle⟩ := hex
          rcases List.mem_cons.1 he with rfl | he'
          · exact absurd hle h2
          · exact ⟨e, he', hle⟩
        obtain ⟨r, C, D, hw, hV, hnext, habs, hst, hpw⟩ :=
          ih nxt (start + 1) h2 ⟨hn1, hn2, hn3, hn4⟩ (fun e he => hbV e (by simp [he])) hex'
        refine ⟨⟨r.next, r.newLast, (cur.last + 1, nxt.first - 1) :: r.stored⟩, nxt :: C, D,
          ?_, by simp [hV], by simp [hnext]; omega, ?_, ?_, ?_⟩
        · simp [solidWalk, e1, e2, h1, h2, hw]
        · intro f0
          have := habs f0
          simp [absorb, hcur, h1, this]
        · simp [gapsAfter, hcur, h1, hst]
        · simp [passWalk, e1, e2, h1, h2, hpw, gapsAfter, hcur]
    · refine ⟨⟨start, l, [(cur.last + 1, l)]⟩, [], nxt :: V, ?_, rfl, rfl, ?_, ?_, ?_⟩
      · simp [solidWalk, e1, e2, h1]
      · intro f0; simp [absorb, hcur, h1]
      · simp [gapsAfter, hcur, h1]
      · simp [passWalk, gapsAfter, hcur, e1, e2, h1]


theorem solidTail_spec (l : Int) (hl : l ≤ 2147483647) (A : List cliprange) (st : cliprange)
    (V G1 : List cliprange) (x : cliprange) (T : List cliprange) (pre : List WallRange)
    (newend : Nat) (hb : Bounded st) (hbV : ∀ e ∈ V, Bounded e)
    (hex : l ≤ st.last ∨ ∃ e ∈ V, l ≤ e.last)
    (hne : newend = A.length + 1 + V.length + G1.length) :
    ∃ G2 ne2, solidTail ⟨A ++ st :: V ++ G1 ++ x :: T, newend⟩ A.length l pre
        = some (⟨A ++ absorb l st V ++ G2, ne2⟩, pre ++ gapsAfter l st V) ∧
      (A ++ absorb l st V ++ G2).length = (A ++ st :: V ++ G1 ++ x :: T).length ∧
      ne2 + (1 + V.length)
        = newend + (absorb l st V).length
          + (if (absorb l st V).length < 1 + V.length then 1 else 0) := by
  have eseg : A ++ st :: V ++ G1 ++ x :: T = A ++ st :: (V ++ (G1 ++ x :: T)) := by simp
  have hget : (A ++ st :: V ++ G1 ++ x :: T)[A.length]? = some st := by
    rw [eseg]; exact getElem?_mid _ _ _
  unfold solidTail
  simp only [hget]
  by_cases h1 : l ≤ st.last
  · refine ⟨G1 ++ x :: T, newend, ?_, ?_, ?_⟩
    · simp [h1, absorb_of_le _ _ _ h1, gapsAfter_of_le _ _ _ h1]
    · simp [absorb_of_le _ _ _ h1]
    · have hlt : ¬ (V.length + 1 < 1 + V.length) := by omega
      simp [absorb_of_le _ _ _ h1, hlt]; omega
  · have hex' : ∃ e ∈ V, l ≤ e.last := by
      rcases hex with h | h
      · exact absurd h h1
      · exact h
    obtain ⟨r, C, D, hw, hV, hnext, habs, hst, -⟩ :=
      solidWalk_spec l hl (G1 ++ x :: T) V st A.length h1 hb hbV hex'
    have habs' : absorb l st V = ⟨st.first, r.newLast⟩ :: D := habs st.first
    have hdrop : List.drop A.length (A ++ st :: V ++ G1 ++ x :: T)
        = st :: (V ++ (G1 ++ x :: T)) := by
      rw [eseg]; simp
    have hwr : writeSeg (A ++ st :: V ++ G1 ++ x :: T) A.length ⟨st.first, r.newLast⟩
        = some (A ++ ⟨st.first, r.newLast⟩ :: (V ++ (G1 ++ x :: T))) := by
      rw [eseg]; exact writeSeg_append _ _ _ _
    simp only [h1, if_false, hdrop, hw, hwr]
    by_cases h2 : r.next = A.length
    · have hC : C = [] := by
        have : C.length = 0 := by omega
        exact List.length_eq_zero.1 this
      subst hC
      simp only [List.nil_append] at hV
      subst hV
      refine ⟨G1 ++ x :: T, newend, ?_, ?_, ?_⟩
      · simp [h2, habs', hst]
      · simp [habs']
      · have hlt : ¬ (V.length + 1 < 1 + V.length) := by omega
        simp [habs', hlt]; omega
    · have hC : C ≠ [] := by
        intro h; apply h2; rw [hnext, h]; simp
      obtain ⟨X1, hX1, hcr⟩ := crunchLoop_spec (D ++ G1 ++ [x]) A ⟨st.first, r.newLast⟩ C T
        ((A ++ ⟨st.first, r.newLast⟩ :: (V ++ (G1 ++ x :: T))).length + 1) hC
        (by subst hV; simp; omega)
      have e1 : A ++ ({ first := st.first, last := r.newLast } : cliprange) :: C
          ++ (D ++ G1 ++ [x]) ++ T
          = A ++ ⟨st.first, r.newLast⟩ :: (V ++ (G1 ++ x :: T)) := by
        subst hV; simp
      have e2 : A.length + C.length + (D ++ G1 ++ [x]).length = newend := by
        subst hV; simp at hne ⊢; omega
      rw [e1, e2, ← hnext] at hcr
      refine ⟨G1 ++ [x] ++ X1 ++ T, A.length + (D ++ G1 ++ [x]).length + 1, ?_, ?_, ?_⟩
      · simp only [h2, if_false, hcr]
        simp [habs', hst]
      · subst hV; simp [habs', hX1]; omega
      · subst hV; simp [habs'] at hne ⊢
        have : C.length ≠ 0 := fun h => hC (List.length_eq_zero.1 h)
        have hlt : D.length + 1 < 1 + (C.length + D.length) := by omega
        simp [hlt]; omega


/-! ## Facts about the invariant -/

theorem SegsInv.good {ivs : List cliprange} (h : SegsInv ivs) : Good ivs :=
  ⟨h.1, h.2.1, h.2.2.2⟩

theorem pairwise_apart : ∀ (ivs : List cliprange), (∀ e ∈ ivs, e.first ≤ e.last) →
    ivs.Chain' apart → ivs.Pairwise apart
  | [], _, _ => List.Pairwise.nil
  | [a], _, _ => by simp
  | a :: b :: rest, hwf, hch => by
    rw [List.chain'_cons] at hch
    have ih := pairwise_apart (b :: rest) (fun e he => hwf e (by simp [he])) hch.2
    refine List.pairwise_cons.2 ⟨?_, ih⟩
    intro e he
    rcases List.mem_cons.1 he with rfl | he'
    · exact hch.1
    · have h1 := (List.pairwise_cons.1 ih).1 e he'
      have h2 := hch.1
      have h3 := hwf b (by simp)
      unfold apart at *
      omega

theorem Good.tail {e : cliprange} {rest : List cliprange} (h : Good (e :: rest))
    (hne : rest ≠ []) : Good rest := by
  obtain ⟨hwf, hch, hlast⟩ := h
  refine ⟨fun x hx => hwf x (by simp [hx]), ?_, ?_⟩
  · exact (List.chain'_cons'.1 hch).2
  · cases rest with
    | nil => exact absurd rfl hne
    | cons b r => simpa using hlast

theorem Good.le_max {ivs : List cliprange} (h : Good ivs) : ∀ e ∈ ivs, e.last ≤ 2147483647 := by
  obtain ⟨hwf, hch, hlast⟩ := h
  have hp := pairwise_apart ivs hwf hch
  intro e he
  cases hgl : ivs.getLast? with
  | none => simp [hgl] at hlast
  | some R =>
    simp [hgl] at hlast
    obtain ⟨P, rfl⟩ := List.getLast?_eq_some_iff.1 hgl
    rcases List.mem_append.1 he with h1 | h1
    · have := (List.pairwise_append.1 hp).2.2 e h1 R (by simp)
      have := hwf R (by simp)
      unfold apart at *
      omega
    · simp at h1; subst h1; omega

theorem Good.apart_head {e : cliprange} {rest : List cliprange} (h : Good (e :: rest)) :
    ∀ x ∈ rest, e.last + 1 < x.first := by
  have hp := pairwise_apart _ h.1 h.2.1
  exact (List.pairwise_cons.1 hp).1

theorem Good.not_last {e : cliprange} {rest : List cliprange} (h : Good (e :: rest))
    (hne : rest ≠ []) : e.last < 2147483646 := by
  cases rest with
  | nil => exact absurd rfl hne
  | cons b r =>
    have h1 := h.apart_head b (by simp)
    have h2 := h.le_max b (by simp)
    have h3 := h.1 b (by simp)
    omega

theorem Good.last_of_single {e : cliprange} (h : Good [e]) : e.last = 2147483647 := by
  simpa using h.2.2

theorem SegsInv.bounded {ivs : List cliprange} (h : SegsInv ivs) : ∀ e ∈ ivs, Bounded e := by
  have hg := h.good
  obtain ⟨hwf, hch, hhead, hlast⟩ := h
  cases ivs with
  | nil => simp
  | cons a rest =>
    simp at hhead
    intro e he
    have hmax := hg.le_max e he
    have hw := hwf e he
    have hlo : -2147483647 ≤ e.first := by
      rcases List.mem_cons.1 he with rfl | he'
      · omega
      · have := hg.apart_head e he'
        have := hwf a (by simp)
        omega
    unfold Bounded; omega

theorem intervals_append (G : List cliprange) : ∀ (ivs : List cliprange), Good ivs →
    intervals (ivs ++ G) = ivs
  | [], h => by simp [Good] at h
  | [e], h => by
    have := h.last_of_single
    simp [intervals, INT_MAX, this]
  | e :: b :: rest, h => by
    have h1 := h.not_last (by simp)
    have ih := intervals_append G (b :: rest) (h.tail (by simp))
    have hne : ¬ e.last = INT_MAX := by unfold INT_MAX; omega
    simp only [List.cons_append] at ih ⊢
    rw [intervals, if_neg hne, ih]

theorem intervals_prefix : ∀ (segs : List cliprange), ∃ G, segs = intervals segs ++ G
  | [] => ⟨[], rfl⟩
  | e :: rest => by
    by_cases h : e.last = INT_MAX
    · exact ⟨rest, by simp [intervals, h]⟩
    · obtain ⟨G, hG⟩ := intervals_prefix rest
      refine ⟨G, ?_⟩
      simp only [intervals, if_neg h, List.cons_append]
      rw [← hG]

theorem exists_start (bound : Int) : ∀ (ivs : List cliprange), (∃ e ∈ ivs, ¬ e.last < bound) →
    ∃ A st V, ivs = A ++ st :: V ∧ (∀ a ∈ A, a.last < bound) ∧ ¬ st.last < bound
  | [], h => by obtain ⟨e, he, _⟩ := h; simp at he
  | e :: rest, h => by
    by_cases h1 : e.last < bound
    · have h' : ∃ x ∈ rest, ¬ x.last < bound := by
        obtain ⟨x, hx, hxb⟩ := h
        rcases List.mem_cons.1 hx with rfl | hx'
        · exact absurd h1 hxb
        · exact ⟨x, hx', hxb⟩
      obtain ⟨A, st, V, hrest, hA, hst⟩ := exists_start bound rest h'
      refine ⟨e :: A, st, V, by simp [hrest], ?_, hst⟩
      intro a ha
      rcases List.mem_cons.1 ha with rfl | ha'
      · exact h1
      · exact hA a ha'
    · exact ⟨[], e, rest, rfl, by simp, h1⟩

theorem Good.exists_ge {ivs : List cliprange} (h : Good ivs) (b : Int) (hb : b ≤ 2147483647) :
    ∃ e ∈ ivs, ¬ e.last < b := by
  obtain ⟨_, _, hlast⟩ := h
  cases hgl : ivs.getLast? with
  | none => simp [hgl] at hlast
  | some R =>
    simp [hgl] at hlast
    exact ⟨R, List.mem_of_getLast?_eq_some hgl, by omega⟩


/-! ## The embedded clippers compute the functions on the interval sequence -/

theorem mergeSolid_append (f l : Int) (rest : List cliprange) : ∀ (A : List cliprange),
    (∀ a ∈ A, a.last < f - 1) → mergeSolid f l (A ++ rest) = A ++ mergeSolid f l rest
  | [], _ => rfl
  | a :: A, h => by
    have ha : a.last < f - 1 := h a (by simp)
    have ih := mergeSolid_append f l rest A (fun x hx => h x (by simp [hx]))
    simp [mergeSolid, ha, ih]

theorem openRanges_append (f l : Int) (rest : List cliprange) : ∀ (A : List cliprange),
    (∀ a ∈ A, a.last < f - 1) → openRanges f l (A ++ rest) = openRanges f l rest
  | [], _ => rfl
  | a :: A, h => by
    have ha : a.last < f - 1 := h a (by simp)
    have ih := openRanges_append f l rest A (fun x hx => h x (by simp [hx]))
    simp [openRanges, ha, ih]

theorem gapsAfter_congr (l : Int) (a b : cliprange) (V : List cliprange)
    (h : a.last = b.last) : gapsAfter l a V = gapsAfter l b V := by
  cases V <;> simp [gapsAfter, h]

theorem solid_refines (f l : Int) (hf : -2147483647 ≤ f) (hfl : f ≤ l) (hl : l ≤ 2147483647)
    (ivs G1 : List cliprange) (x : cliprange) (T : List cliprange) (hinv : SegsInv ivs)
    (newend : Nat) (hne : newend = ivs.length + G1.length) :
    ∃ G2 ne2, R_ClipSolidWallSegment ⟨ivs ++ G1 ++ x :: T, newend⟩ f l
        = some (⟨mergeSolid f l ivs ++ G2, ne2⟩, openRanges f l ivs) ∧
      (mergeSolid f l ivs ++ G2).length = (ivs ++ G1 ++ x :: T).length ∧
      ne2 + ivs.length = newend + (mergeSolid f l ivs).length
        + (if (mergeSolid f l ivs).length < ivs.length then 1 else 0) := by
  have hg := hinv.good
  have hbd := hinv.bounded
  obtain ⟨A, st, V, rfl, hA, hst⟩ := exists_start (f - 1) ivs (hg.exists_ge (f - 1) (by omega))
  have hbst : Bounded st := hbd st (by simp)
  have hbV : ∀ e ∈ V, Bounded e := fun e he => hbd e (by simp [he])
  obtain ⟨hs1, hs2, hs3, hs4⟩ := hbst
  have e1 : int32 (f - 1) = f - 1 := int32_eq _ (by omega) (by omega)
  have e2 : int32 (st.first - 1) = st.first - 1 := int32_eq _ (by omega) (by omega)
  have eseg : A ++ st :: V ++ G1 ++ x :: T = A ++ st :: (V ++ G1 ++ x :: T) := by simp
  have hfs : findStart (A ++ st :: V ++ G1 ++ x :: T) (f - 1) 0 = some A.length := by
    rw [eseg]
    have := findStart_append A st (V ++ G1 ++ x :: T) (f - 1) 0 hA hst
    simpa using this
  have hget : (A ++ st :: V ++ G1 ++ x :: T)[A.length]? = some st := by
    rw [eseg]; exact getElem?_mid _ _ _
  have hex : l ≤ st.last ∨ ∃ e ∈ V, l ≤ e.last := by
    obtain ⟨e, he, hel⟩ := hg.exists_ge l hl
    rcases List.mem_append.1 he with h | h
    · have := hA e h; omega
    · rcases List.mem_cons.1 h with rfl | h'
      · left; omega
      · right; exact ⟨e, h', by omega⟩
  rw [mergeSolid_append f l _ A hA, openRanges_append f l _ A hA]
  unfold R_ClipSolidWallSegment
  simp only [e1, hfs, hget, e2]
  by_cases h1 : f < st.first
  · by_cases h2 : l < st.first - 1
    · obtain ⟨j, hj⟩ := shiftUp_spec A (st :: V ++ G1) x T
      have e3 : A ++ (st :: V ++ G1) ++ x :: T = A ++ st :: V ++ G1 ++ x :: T := by simp
      have e4 : A.length + (st :: V ++ G1).length = newend := by
        simp at hne ⊢; omega
      rw [e3, e4] at hj
      have hwr : writeSeg (A ++ j :: (st :: V ++ G1) ++ T) A.length ⟨f, l⟩
          = some (A ++ ⟨f, l⟩ :: ((st :: V ++ G1) ++ T)) := by
        have e5 : A ++ j :: (st :: V ++ G1) ++ T = A ++ j :: ((st :: V ++ G1) ++ T) := by simp
        rw [e5]; exact writeSeg_append _ _ _ _
      refine ⟨G1 ++ T, newend + 1, ?_, ?_, ?_⟩
      · simp only [h1, h2, if_true, hj, hwr]
        simp [mergeSolid, openRanges, hst, h1, h2]
      · simp [mergeSolid, hst, h1, h2]; omega
      · have hlt : ¬ (A.length + (V.length + 1 + 1) < A.length + (V.length + 1)) := by omega
        simp [mergeSolid, hst, h1, h2, hlt]; omega
    · have hwr : writeSeg (A ++ st :: V ++ G1 ++ x :: T) A.length ⟨f, st.last⟩
          = some (A ++ ⟨f, st.last⟩ :: V ++ G1 ++ x :: T) := by
        rw [eseg]
        have := writeSeg_append A st ⟨f, st.last⟩ (V ++ G1 ++ x :: T)
        simpa using this
      obtain ⟨G2, ne2, hts, hlen, hcnt⟩ := solidTail_spec l hl A ⟨f, st.last⟩ V G1 x T
        [(f, st.first - 1)] newend ⟨by simpa using hf, by simp; omega, hs3, hs4⟩ hbV hex
        (by simp at hne; omega)
      refine ⟨G2, ne2, ?_, ?_, ?_⟩
      · simp only [h1, h2, if_true, if_false, hwr, hts]
        simp [mergeSolid, openRanges, hst, h1, h2]
        exact gapsAfter_congr l _ _ V rfl
      · simp [mergeSolid, hst, h1, h2] at hlen ⊢; omega
      · simp [mergeSolid, hst, h1, h2] at hcnt ⊢
        split_ifs at hcnt ⊢ <;> omega
  · obtain ⟨G2, ne2, hts, hlen, hcnt⟩ := solidTail_spec l hl A st V G1 x T
      [] newend ⟨hs1, hs2, hs3, hs4⟩ hbV hex (by simp at hne; omega)
    refine ⟨G2, ne2, ?_, ?_, ?_⟩
    · simp only [h1, if_false, hts]
      simp [mergeSolid, openRanges, hst, h1]
    · simp [mergeSolid, hst, h1] at hlen ⊢; omega
    · simp [mergeSolid, hst, h1] at hcnt ⊢
      split_ifs at hcnt ⊢ <;> omega


theorem pass_refines (f l : Int) (hf : -2147483647 ≤ f) (hf2 : f ≤ 2147483647)
    (hl : l ≤ 2147483647) (ivs G : List cliprange) (hinv : SegsInv ivs) (newend : Nat) :
    R_ClipPassWallSegment ⟨ivs ++ G, newend⟩ f l
      = some (⟨ivs ++ G, newend⟩, openRanges f l ivs) := by
  have hg := hinv.good
  have hbd := hinv.bounded
  obtain ⟨A, st, V, rfl, hA, hst⟩ := exists_start (f - 1) ivs (hg.exists_ge (f - 1) (by omega))
  have hbst : Bounded st := hbd st (by simp)
  have hbV : ∀ e ∈ V, Bounded e := fun e he => hbd e (by simp [he])
  obtain ⟨hs1, hs2, hs3, hs4⟩ := hbst
  have e1 : int32 (f - 1) = f - 1 := int32_eq _ (by omega) (by omega)
  have e2 : int32 (st.first - 1) = st.first - 1 := int32_eq _ (by omega) (by omega)
  have eseg : A ++ st :: V ++ G = A ++ st :: (V ++ G) := by simp
  have hfs : findStart (A ++ st :: V ++ G) (f - 1) 0 = some A.length := by
    rw [eseg]
    have := findStart_append A st (V ++ G) (f - 1) 0 hA hst
    simpa using this
  have hget : (A ++ st :: V ++ G)[A.length]? = some st := by
    rw [eseg]; exact getElem?_mid _ _ _
  have hdrop : List.drop A.length (A ++ st :: V ++ G) = st :: (V ++ G) := by
    rw [eseg]; simp
  have hex : l ≤ st.last ∨ ∃ e ∈ V, l ≤ e.last := by
    obtain ⟨e, he, hel⟩ := hg.exists_ge l hl
    rcases List.mem_append.1 he with h | h
    · left; have := hA e h; omega
    · rcases List.mem_cons.1 h with rfl | h'
      · left; omega
      · right; exact ⟨e, h', by omega⟩
  have hwalk : ¬ l ≤ st.last → passWalk l (st :: (V ++ G)) = some (gapsAfter l st V) := by
    intro h3
    have hex' : ∃ e ∈ V, l ≤ e.last := by
      rcases hex with h | h
      · exact absurd h h3
      · exact h
    obtain ⟨r, C, D, -, -, -, -, -, hpw⟩ :=
      solidWalk_spec l hl G V st 0 h3 ⟨hs1, hs2, hs3, hs4⟩ hbV hex'
    exact hpw
  rw [openRanges_append f l _ A hA]
  unfold R_ClipPassWallSegment
  simp only [e1, hfs, hget, e2, hdrop]
  by_cases h1 : f < st.first
  · by_cases h2 : l < st.first - 1
    · simp [openRanges, hst, h1, h2]
    · by_cases h3 : l ≤ st.last
      · simp [openRanges, hst, h1, h2, h3, gapsAfter_of_le _ _ _ h3]
      · simp [openRanges, hst, h1, h2, h3, hwalk h3]
  · by_cases h3 : l ≤ st.last
    · simp [openRanges, hst, h1, h3, gapsAfter_of_le _ _ _ h3]
    · simp [openRanges, hst, h1, h3, hwalk h3]


/-! ## The merge on the interval sequence keeps the invariant -/

theorem Good.replace_head {a b : cliprange} {r : List cliprange} (h : Good (a :: r))
    (hl : b.last = a.last) (hw : b.first ≤ b.last) : Good (b :: r) := by
  obtain ⟨hwf, hch, hlast⟩ := h
  refine ⟨?_, ?_, ?_⟩
  · intro e he
    rcases List.mem_cons.1 he with rfl | he'
    · exact hw
    · exact hwf e (by simp [he'])
  · rw [List.chain'_cons'] at hch ⊢
    refine ⟨?_, hch.2⟩
    intro y hy
    have := hch.1 y hy
    unfold apart at *
    omega
  · cases r with
    | nil => simpa [hl] using hlast
    | cons c r => simpa using hlast

theorem Good.cons {a b : cliprange} {r : List cliprange} (h : Good (b :: r))
    (hw : a.first ≤ a.last) (hap : a.last + 1 < b.first) : Good (a :: b :: r) := by
  obtain ⟨hwf, hch, hlast⟩ := h
  refine ⟨?_, ?_, ?_⟩
  · intro e he
    rcases List.mem_cons.1 he with rfl | he'
    · exact hw
    · exact hwf e he'
  · exact List.chain'_cons.2 ⟨hap, hch⟩
  · simpa using hlast

theorem absorb_head (l : Int) : ∀ (V : List cliprange) (st : cliprange),
    ∃ last1 D, absorb l st V = ⟨st.first, last1⟩ :: D
  | [], st => by
    by_cases h : l ≤ st.last
    · exact ⟨st.last, [], by simp [absorb, h]⟩
    · exact ⟨l, [], by simp [absorb, h]⟩
  | nxt :: r, st => by
    by_cases h : l ≤ st.last
    · exact ⟨st.last, nxt :: r, by simp [absorb, h]⟩
    · by_cases h2 : l ≥ nxt.first - 1
      · obtain ⟨last1, D, hD⟩ := absorb_head l r ⟨st.first, nxt.last⟩
        exact ⟨last1, D, by simp [absorb, h, h2, hD]⟩
      · exact ⟨l, nxt :: r, by simp [absorb, h, h2]⟩

theorem absorb_good (l : Int) (hl : l ≤ 2147483647) : ∀ (V : List cliprange) (st : cliprange),
    Good (st :: V) → Good (absorb l st V)
  | [], st, h => by
    have := h.last_of_single
    rw [absorb_of_le l st [] (by omega)]
    exact h
  | nxt :: r, st, h => by
    by_cases h1 : l ≤ st.last
    · rw [absorb_of_le l st _ h1]; exact h
    · have hap := h.apart_head nxt (by simp)
      have hws := h.1 st (by simp)
      have hwn := h.1 nxt (by simp)
      have ht : Good (nxt :: r) := h.tail (by simp)
      by_cases h2 : l ≥ nxt.first - 1
      · have hg : Good (⟨st.first, nxt.last⟩ :: r) :=
          ht.replace_head rfl (by simp; omega)
        have := absorb_good l hl r _ hg
        simpa [absorb, h1, h2] using this
      · have hg : Good (⟨st.first, l⟩ :: nxt :: r) :=
          ht.cons (by simp; omega) (by simp; omega)
        simpa [absorb, h1, h2] using hg

theorem merge_head (f l : Int) (h : cliprange) (t : List cliprange) :
    ∃ b r, mergeSolid f l (h :: t) = b :: r ∧
      (b.first = h.first ∨ (b.first = f ∧ f < h.first)) := by
  by_cases h1 : h.last < f - 1
  · exact ⟨h, mergeSolid f l t, by simp [mergeSolid, h1], Or.inl rfl⟩
  · by_cases h2 : f < h.first
    · by_cases h3 : l < h.first - 1
      · exact ⟨⟨f, l⟩, h :: t, by simp [mergeSolid, h1, h2, h3], Or.inr ⟨rfl, h2⟩⟩
      · obtain ⟨last1, D, hD⟩ := absorb_head l t ⟨f, h.last⟩
        exact ⟨⟨f, last1⟩, D, by simp [mergeSolid, h1, h2, h3, hD], Or.inr ⟨rfl, h2⟩⟩
    · obtain ⟨last1, D, hD⟩ := absorb_head l t h
      exact ⟨⟨h.first, last1⟩, D, by simp [mergeSolid, h1, h2, hD], Or.inl rfl⟩

theorem mergeSolid_good (f l : Int) (hfl : f ≤ l) (hl : l ≤ 2147483647) :
    ∀ (ivs : List cliprange), Good ivs → Good (mergeSolid f l ivs)
  | [], h => by simp [Good] at h
  | e :: rest, h => by
    by_cases h1 : e.last < f - 1
    · have hne : rest ≠ [] := by
        rintro rfl
        have := h.last_of_single
        omega
      have ih := mergeSolid_good f l hfl hl rest (h.tail hne)
      obtain ⟨c, t, rfl⟩ : ∃ c t, rest = c :: t := by
        cases rest with
        | nil => exact absurd rfl hne
        | cons c t => exact ⟨c, t, rfl⟩
      obtain ⟨b, r, hb, hbf⟩ := merge_head f l c t
      have hap := h.apart_head c (by simp)
      rw [hb] at ih
      have : Good (e :: b :: r) := ih.cons (h.1 e (by simp)) (by rcases hbf with hh | hh <;> omega)
      have e0 : mergeSolid f l (e :: c :: t) = e :: mergeSolid f l (c :: t) := by
        rw [mergeSolid, if_pos h1]
      rw [e0, hb]; exact this
    · have hwe := h.1 e (by simp)
      by_cases h2 : f < e.first
      · by_cases h3 : l < e.first - 1
        · have : Good (⟨f, l⟩ :: e :: rest) := h.cons (by simpa using hfl) (by simp; omega)
          simpa [mergeSolid, h1, h2, h3] using this
        · have hg : Good (⟨f, e.last⟩ :: rest) := h.replace_head rfl (by simp; omega)
          have := absorb_good l hl rest _ hg
          simpa [mergeSolid, h1, h2, h3] using this
      · have := absorb_good l hl rest _ h
        simpa [mergeSolid, h1, h2] using this

theorem mergeSolid_inv (f l : Int) (hf : -2147483647 ≤ f) (hfl : f ≤ l) (hl : l ≤ 2147483647)
    (ivs : List cliprange) (h : SegsInv ivs) : SegsInv (mergeSolid f l ivs) := by
  have hg := mergeSolid_good f l hfl hl ivs h.good
  refine ⟨hg.1, hg.2.1, ?_, hg.2.2⟩
  obtain ⟨_, _, hhead, _⟩ := h
  cases ivs with
  | nil => simp at hhead
  | cons a t =>
    simp at hhead
    obtain ⟨b, r, hb, hbf⟩ := merge_head f l a t
    rw [hb]
    simp
    rcases hbf with hh | hh <;> omega


/-! ## Coverage after the merge -/

theorem covered_nil (c : Int) : covered [] c ↔ False := by
  simp [covered]

theorem covered_cons (e : cliprange) (rest : List cliprange) (c : Int) :
    covered (e :: rest) c ↔ (e.first ≤ c ∧ c ≤ e.last) ∨ covered rest c := by
  simp [covered]

theorem absorb_covered (l c : Int) : ∀ (V : List cliprange) (st : cliprange),
    Good (st :: V) →
    (covered (absorb l st V) c ↔ covered (st :: V) c ∨ (st.first ≤ c ∧ c ≤ l))
  | [], st, h => by
    by_cases h1 : l ≤ st.last
    · simp only [absorb, if_pos h1, covered_cons, covered_nil]
      constructor
      · intro hh; exact Or.inl hh
      · rintro (hh | hh)
        · exact hh
        · left; omega
    · simp only [absorb, if_neg h1, covered_cons, covered_nil]
      constructor
      · rintro (hh | hh)
        · right; exact hh
        · exact hh.elim
      · rintro ((hh | hh) | hh)
        · left; constructor <;> omega
        · exact hh.elim
        · left; exact hh
  | nxt :: r, st, h => by
    have hap := h.apart_head nxt (by simp)
    have hws := h.1 st (by simp)
    have hwn := h.1 nxt (by simp)
    have ht : Good (nxt :: r) := h.tail (by simp)
    by_cases h1 : l ≤ st.last
    · rw [absorb_of_le l st _ h1]
      simp only [covered_cons]
      constructor
      · intro hh; exact Or.inl hh
      · rintro (hh | hh)
        · exact hh
        · left; omega
    · by_cases h2 : l ≥ nxt.first - 1
      · have hg : Good (⟨st.first, nxt.last⟩ :: r) := ht.replace_head rfl (by simp; omega)
        have ih := absorb_covered l c r _ hg
        have e0 : absorb l st (nxt :: r) = absorb l ⟨st.first, nxt.last⟩ r := by
          simp [absorb, h1, h2]
        rw [e0, ih]
        simp only [covered_cons]
        constructor
        · rintro ((hh | hh) | hh)
          · by_cases hc : nxt.first ≤ c
            · left; right; left; exact ⟨hc, hh.2⟩
            · right; exact ⟨hh.1, by omega⟩
          · left; right; right; exact hh
          · right; exact hh
        · rintro ((hh | hh | hh) | hh)
          · left; left; constructor <;> omega
          · left; left; constructor <;> omega
          · left; right; exact hh
          · right; exact hh
      · have e0 : absorb l st (nxt :: r) = ⟨st.first, l⟩ :: nxt :: r := by
          simp [absorb, h1, h2]
        rw [e0]
        simp only [covered_cons]
        constructor
        · rintro (hh | hh | hh)
          · right; exact hh
          · left; right; left; exact hh
          · left; right; right; exact hh
        · rintro ((hh | hh | hh) | hh)
          · left; constructor <;> omega
          · right; left; exact hh
          · right; right; exact hh
          · left; exact hh

theorem mergeSolid_covered (f l c : Int) (hfl : f ≤ l) (hl : l ≤ 2147483647) :
    ∀ (ivs : List cliprange), Good ivs →
    (covered (mergeSolid f l ivs) c ↔ covered ivs c ∨ (f ≤ c ∧ c ≤ l))
  | [], h => by simp [Good] at h
  | e :: rest, h => by
    have hwe := h.1 e (by simp)
    by_cases h1 : e.last < f - 1
    · have hne : rest ≠ [] := by
        rintro rfl
        have := h.last_of_single
        omega
      have ih := mergeSolid_covered f l c hfl hl rest (h.tail hne)
      have e0 : mergeSolid f l (e :: rest) = e :: mergeSolid f l rest := by
        rw [mergeSolid, if_pos h1]
      rw [e0, covered_cons, covered_cons, ih]
      tauto
    · by_cases h2 : f < e.first
      · by_cases h3 : l < e.first - 1
        · have e0 : mergeSolid f l (e :: rest) = ⟨f, l⟩ :: e :: rest := by
            simp [mergeSolid, h1, h2, h3]
          rw [e0, covered_cons]
          tauto
        · have hg : Good (⟨f, e.last⟩ :: rest) := h.replace_head rfl (by simp; omega)
          have e0 : mergeSolid f l (e :: rest) = absorb l ⟨f, e.last⟩ rest := by
            simp [mergeSolid, h1, h2, h3]
          rw [e0, absorb_covered l c rest _ hg]
          simp only [covered_cons]
          constructor
          · rintro ((hh | hh) | hh)
            · by_cases hc : e.first ≤ c
              · left; left; exact ⟨hc, hh.2⟩
              · right; exact ⟨hh.1, by omega⟩
            · left; right; exact hh
            · right; exact hh
          · rintro ((hh | hh) | hh)
            · left; left; constructor <;> omega
            · left; right; exact hh
            · right; exact hh
      · have e0 : mergeSolid f l (e :: rest) = absorb l e rest := by
          simp [mergeSolid, h1, h2]
        rw [e0, absorb_covered l c rest _ h]
        simp only [covered_cons]
        constructor
        · rintro ((hh | hh) | hh)
          · left; left; exact hh
          · left; right; exact hh
          · by_cases hc : c ≤ e.last
            · left; left; exact ⟨hh.1, hc⟩
            · right; exact ⟨by omega, hh.2⟩
        · rintro ((hh | hh) | hh)
          · left; left; exact hh
          · left; right; exact hh
          · right; exact ⟨by omega, hh.2⟩

/-! ## Counting: the merge never raises `2 * length + slack` -/

theorem absorb_slack (l : Int) : ∀ (V : List cliprange) (st : cliprange) (b : Int),
    Good (st :: V) →
    slackFrom b (absorb l st V) ≤ slackFrom b (st :: V) ∧
      (absorb l st V).length ≤ (st :: V).length
  | [], st, b, _ => by
    by_cases h1 : l ≤ st.last <;> simp [absorb, h1, slackFrom]
  | nxt :: r, st, b, h => by
    have hap := h.apart_head nxt (by simp)
    have hws := h.1 st (by simp)
    have hwn := h.1 nxt (by simp)
    have ht : Good (nxt :: r) := h.tail (by simp)
    by_cases h1 : l ≤ st.last
    · rw [absorb_of_le l st _ h1]; simp
    · by_cases h2 : l ≥ nxt.first - 1
      · have hg : Good (⟨st.first, nxt.last⟩ :: r) := ht.replace_head rfl (by simp; omega)
        have ih := absorb_slack l r ⟨st.first, nxt.last⟩ b hg
        have e0 : absorb l st (nxt :: r) = absorb l ⟨st.first, nxt.last⟩ r := by
          simp [absorb, h1, h2]
        rw [e0]
        simp only [slackFrom, List.length_cons] at ih ⊢
        constructor <;> omega
      · have e0 : absorb l st (nxt :: r) = ⟨st.first, l⟩ :: nxt :: r := by
          simp [absorb, h1, h2]
        rw [e0]
        simp only [slackFrom, List.length_cons]
        constructor <;> omega

theorem mergeSolid_slack (f l : Int) (hfl : f ≤ l) (hl : l ≤ 2147483647) :
    ∀ (ivs : List cliprange) (b : Int),
    Good ivs →
    slackFrom b (mergeSolid f l ivs) + 2 * (mergeSolid f l ivs).length
        ≤ slackFrom b ivs + 2 * ivs.length ∧
      slackFrom b (mergeSolid f l ivs) ≤ slackFrom b ivs
  | [], _, h => by simp [Good] at h
  | e :: rest, b, h => by
    have hwe := h.1 e (by simp)
    by_cases h1 : e.last < f - 1
    · have hne : rest ≠ [] := by
        rintro rfl
        have := h.last_of_single
        omega
      have ih := mergeSolid_slack f l hfl hl rest (e.last + 2) (h.tail hne)
      have e0 : mergeSolid f l (e :: rest) = e :: mergeSolid f l rest := by
        rw [mergeSolid, if_pos h1]
      rw [e0]
      simp only [slackFrom, List.length_cons]
      push_cast
      constructor <;> omega
    · by_cases h2 : f < e.first
      · by_cases h3 : l < e.first - 1
        · have e0 : mergeSolid f l (e :: rest) = ⟨f, l⟩ :: e :: rest := by
            simp [mergeSolid, h1, h2, h3]
          rw [e0]
          simp only [slackFrom, List.length_cons]
          push_cast
          constructor <;> omega
        · have hg : Good (⟨f, e.last⟩ :: rest) := h.replace_head rfl (by simp; omega)
          have e0 : mergeSolid f l (e :: rest) = absorb l ⟨f, e.last⟩ rest := by
            simp [mergeSolid, h1, h2, h3]
          have := absorb_slack l rest ⟨f, e.last⟩ b hg
          rw [e0]
          simp only [slackFrom, List.length_cons] at this ⊢
          push_cast
          constructor <;> omega
      · have e0 : mergeSolid f l (e :: rest) = absorb l e rest := by
          simp [mergeSolid, h1, h2]
        have := absorb_slack l rest e b h
        rw [e0]
        simp only [slackFrom, List.length_cons] at this ⊢
        push_cast
        constructor <;> omega

theorem slackFrom_nonneg : ∀ (ivs : List cliprange) (b : Int), Good ivs →
    (∀ h ∈ ivs.head?, b ≤ h.first) → 0 ≤ slackFrom b ivs
  | [], _, _, _ => by simp [slackFrom]
  | [e], b, _, hb => by
    have := hb e (by simp)
    simp [slackFrom]; omega
  | e :: c :: r, b, h, hb => by
    have h0 := hb e (by simp)
    have hap := h.apart_head c (by simp)
    have ih := slackFrom_nonneg (c :: r) (e.last + 2) (h.tail (by simp))
      (by intro x hx; simp at hx; subst hx; omega)
    simp only [slackFrom] at ih ⊢
    omega

/-! ## Steps and runs of the solid clipper on the clip list -/

theorem mergeSolid_length_le (f l : Int) : ∀ (ivs : List cliprange), Good ivs →
    (mergeSolid f l ivs).length ≤ ivs.length + 1
  | [], _ => by simp [mergeSolid]
  | e :: rest, h => by
    by_cases h1 : e.last < f - 1
    · by_cases hne : rest = []
      · subst hne; simp [mergeSolid, h1]
      · have ih := mergeSolid_length_le f l rest (h.tail hne)
        simp only [mergeSolid, if_pos h1, List.length_cons]
        omega
    · by_cases h2 : f < e.first
      · by_cases h3 : l < e.first - 1
        · simp [mergeSolid, h1, h2, h3]
        · have hg : Good (⟨f, e.last⟩ :: rest) :=
            h.replace_head rfl (by have := h.1 e (by simp); simp; omega)
          have := (absorb_slack l rest ⟨f, e.last⟩ 0 hg).2
          simp only [mergeSolid, if_neg h1, if_pos h2, if_neg h3, List.length_cons] at this ⊢
          omega
      · have := (absorb_slack l rest e 0 h).2
        simp only [mergeSolid, if_neg h1, if_neg h2, List.length_cons] at this ⊢
        omega

theorem ClipInv.split {s : ClipState} (h : ClipInv s) (hcap : s.newend < s.solidsegs.length) :
    ∃ G1 x T, s.solidsegs = intervals s.solidsegs ++ G1 ++ x :: T ∧
      s.newend = (intervals s.solidsegs).length + G1.length := by
  obtain ⟨G, hG⟩ := intervals_prefix s.solidsegs
  obtain ⟨_, h1, _⟩ := h
  have hlen : s.solidsegs.length = (intervals s.solidsegs).length + G.length := by
    conv_lhs => rw [hG]
    simp
  set n := s.newend - (intervals s.solidsegs).length with hn
  have hnG : n < G.length := by omega
  have hd : G.drop n ≠ [] := by
    intro hh
    have := congrArg List.length hh
    simp at this
    omega
  obtain ⟨x, T, hxT⟩ : ∃ x T, G.drop n = x :: T := by
    cases hdr : G.drop n with
    | nil => exact absurd hdr hd
    | cons x T => exact ⟨x, T, rfl⟩
  refine ⟨G.take n, x, T, ?_, ?_⟩
  · rw [List.append_assoc, ← hxT, List.take_append_drop]
    exact hG
  · simp [List.length_take]
    omega

theorem solid_step (s : ClipState) (f l : Int) (hinv : ClipInv s)
    (hcap : s.newend < s.solidsegs.length)
    (hf : -2147483647 ≤ f) (hfl : f ≤ l) (hl : l ≤ 2147483647) :
    ∃ s1, R_ClipSolidWallSegment s f l = some (s1, openRanges f l (intervals s.solidsegs)) ∧
      intervals s1.solidsegs = mergeSolid f l (intervals s.solidsegs) ∧
      s1.solidsegs.length = s.solidsegs.length ∧ ClipInv s1 ∧
      s1.newend + (intervals s.solidsegs).length
        = s.newend + (intervals s1.solidsegs).length
          + (if (intervals s1.solidsegs).length < (intervals s.solidsegs).length then 1 else 0) := by
  obtain ⟨G1, x, T, hseg, hne⟩ := hinv.split hcap
  have hsi := hinv.1
  obtain ⟨G2, ne2, hrun, hlen, hcnt⟩ :=
    solid_refines f l hf hfl hl (intervals s.solidsegs) G1 x T hsi s.newend hne
  have hs : s = ⟨intervals s.solidsegs ++ G1 ++ x :: T, s.newend⟩ := by
    cases s; simp at hseg ⊢; exact hseg
  have hinv2 := mergeSolid_inv f l hf hfl hl _ hsi
  have hiv : intervals (mergeSolid f l (intervals s.solidsegs) ++ G2)
      = mergeSolid f l (intervals s.solidsegs) := intervals_append G2 _ hinv2.good
  have hml := mergeSolid_length_le f l _ hsi.good
  refine ⟨⟨mergeSolid f l (intervals s.solidsegs) ++ G2, ne2⟩, ?_, hiv, ?_, ?_, ?_⟩
  · rw [← hrun]; exact congrArg (fun t => R_ClipSolidWallSegment t f l) hs
  · simp only; rw [hlen, ← hseg]
  · refine ⟨by simpa [hiv] using hinv2, ?_, ?_⟩
    · simp only [hiv]
      split_ifs at hcnt <;> omega
    · have h3 := hinv.2.1
      simp only
      rw [hlen, ← hseg]
      split_ifs at hcnt <;> omega
  · simp only [hiv]; exact hcnt


theorem Reach.newend_le {W : Int} {s : ClipState} (h : Reach W s) :
    2 * (s.newend : Int) ≤ W + 3 := by
  obtain ⟨hinv, hJ⟩ := h
  have hsi := hinv.1
  have := slackFrom_nonneg (intervals s.solidsegs) (-2147483647) hsi.good (by
    intro e he
    obtain ⟨_, _, hhead, _⟩ := hsi
    rw [Option.mem_def] at he
    rw [he] at hhead
    simp at hhead
    omega)
  omega

theorem clear_reach (W : Int) (hW : 1 ≤ W) (hW2 : W ≤ 2147483647) (s0 : ClipState)
    (hcap : 2 ≤ s0.solidsegs.length) :
    ∃ s1, R_ClearClipSegs W s0 = some s1 ∧
      intervals s1.solidsegs = [⟨-2147483647, -1⟩, ⟨W, 2147483647⟩] ∧
      s1.newend = 2 ∧ s1.solidsegs.length = s0.solidsegs.length ∧ Reach W s1 := by
  obtain ⟨segs, ne⟩ := s0
  obtain ⟨a, b, T, rfl⟩ : ∃ a b T, segs = a :: b :: T := by
    match segs, hcap with
    | a :: b :: T, _ => exact ⟨a, b, T, rfl⟩
  have hiv : intervals (⟨-2147483647, -1⟩ :: ⟨W, 2147483647⟩ :: T)
      = [⟨-2147483647, -1⟩, ⟨W, 2147483647⟩] := by
    simp [intervals, INT_MAX]
  refine ⟨⟨⟨-2147483647, -1⟩ :: ⟨W, 2147483647⟩ :: T, 2⟩, ?_, hiv, rfl, by simp, ?_, ?_⟩
  · simp [R_ClearClipSegs, writeSeg]
  · refine ⟨?_, ?_, ?_⟩
    · rw [hiv]
      refine ⟨?_, ?_, by simp, by simp⟩
      · intro e he
        simp at he
        rcases he with rfl | rfl
        · simp
        · simp; omega
      · simp [apart]; omega
    · simp [hiv]
    · simp
  · simp only [hiv, slackFrom]
    push_cast
    omega

theorem reach_step (W : Int) (s : ClipState) (f l : Int) (h : Reach W s)
    (hcap : W + 4 ≤ 2 * (s.solidsegs.length : Int))
    (hf : -2147483647 ≤ f) (hfl : f ≤ l) (hl : l ≤ 2147483647) :
    ∃ s1, R_ClipSolidWallSegment s f l = some (s1, openRanges f l (intervals s.solidsegs)) ∧
      intervals s1.solidsegs = mergeSolid f l (intervals s.solidsegs) ∧
      s1.solidsegs.length = s.solidsegs.length ∧ Reach W s1 := by
  have hne := h.newend_le
  obtain ⟨hinv, hJ⟩ := h
  obtain ⟨s1, hrun, hiv, hlen, hinv1, hcnt⟩ :=
    solid_step s f l hinv (by omega) hf hfl hl
  refine ⟨s1, hrun, hiv, hlen, hinv1, ?_⟩
  have hs := mergeSolid_slack f l hfl hl (intervals s.solidsegs) (-2147483647) hinv.1.good
  rw [← hiv] at hs
  have hcnt' : (s1.newend : Int) + (intervals s.solidsegs).length
      = s.newend + (intervals s1.solidsegs).length
        + (if (intervals s1.solidsegs).length < (intervals s.solidsegs).length then 1 else 0) := by
    exact_mod_cast hcnt
  split_ifs at hcnt' with hlt
  · have : ((intervals s1.solidsegs).length : Int) < (intervals s.solidsegs).length := by
      exact_mod_cast hlt
    omega
  · omega

theorem reach_run (W : Int) : ∀ (calls : List (Int × Int)) (s : ClipState), Reach W s →
    W + 4 ≤ 2 * (s.solidsegs.length : Int) →
    (∀ c ∈ calls, -2147483647 ≤ c.1 ∧ c.1 ≤ c.2 ∧ c.2 ≤ 2147483647) →
    ∃ s2 outs, runSolid s calls = some (s2, outs) ∧ Reach W s2 ∧
      s2.solidsegs.length = s.solidsegs.length ∧
      ∀ c, covered (intervals s2.solidsegs) c ↔
        covered (intervals s.solidsegs) c ∨ ∃ call ∈ calls, call.1 ≤ c ∧ c ≤ call.2
  | [], s, h, _, _ => ⟨s, [], rfl, h, rfl, by simp⟩
  | (f, l) :: calls, s, h, hcap, hc => by
    obtain ⟨hf, hfl, hl⟩ := hc (f, l) (by simp)
    obtain ⟨s1, hrun, hiv, hlen, hr1⟩ := reach_step W s f l h hcap hf hfl hl
    obtain ⟨s2, outs, hrun2, hr2, hlen2, hcov⟩ :=
      reach_run W calls s1 hr1 (by rw [hlen]; exact hcap) (fun c hc' => hc c (by simp [hc']))
    simp only at hf hfl hl
    refine ⟨s2, openRanges f l (intervals s.solidsegs) :: outs, ?_, hr2,
      by rw [hlen2, hlen], ?_⟩
    · simp [runSolid, hrun, hrun2]
    · intro c
      rw [hcov c, hiv, mergeSolid_covered f l c hfl hl _ h.1.1.good]
      simp only [List.mem_cons, exists_eq_or_imp]
      tauto


theorem pairwise_first_lt (ivs : List cliprange) (h : Good ivs) :
    ivs.Pairwise (fun a b => a.first < b.first) ∧ ivs.Pairwise (fun a b => a.last < b.first) := by
  have hp := pairwise_apart ivs h.1 h.2.1
  have hp' : ivs.Pairwise (fun a b => a.first ≤ a.last ∧ a.last + 1 < b.first) := by
    rw [List.pairwise_iff_forall_sublist] at hp ⊢
    intro a b hab
    exact ⟨h.1 a (hab.subset (by simp)), hp hab⟩
  constructor
  · exact hp'.imp (fun hh => by omega)
  · exact hp'.imp (fun hh => by omega)

theorem merge_example1 (W : Int) (hW : 92 ≤ W) :
    mergeSolid 10 50 [⟨-2147483647, -1⟩, ⟨W, 2147483647⟩]
      = [⟨-2147483647, -1⟩, ⟨10, 50⟩, ⟨W, 2147483647⟩] := by
  have h1 : ¬ (W < 9) := by omega
  have h2 : (10 : Int) < W := by omega
  have h3 : (50 : Int) < W - 1 := by omega
  simp [mergeSolid, h1, h2, h3]

theorem merge_example2 (W : Int) (hW : 92 ≤ W) :
    mergeSolid 51 90 [⟨-2147483647, -1⟩, ⟨10, 50⟩, ⟨W, 2147483647⟩]
      = [⟨-2147483647, -1⟩, ⟨10, 90⟩, ⟨W, 2147483647⟩] := by
  have h1 : ¬ (W - 1 ≤ 90) := by omega
  simp [mergeSolid, absorb, h1]

/-! ## The partition law on the interval sequence -/

theorem emitted_cons (r : WallRange) (out : List WallRange) (c : Int) :
    emitted (r :: out) c ↔ (r.1 ≤ c ∧ c ≤ r.2) ∨ emitted out c := by
  simp [emitted]

theorem covered_mono {ivs : List cliprange} {e : cliprange} {c : Int} (h : covered ivs c) :
    covered (e :: ivs) c := (covered_cons e ivs c).2 (Or.inr h)

theorem Good.not_covered_lt {e : cliprange} {rest : List cliprange} (h : Good (e :: rest))
    {c : Int} (hc : c ≤ e.last + 1) : ¬ covered rest c := by
  rintro ⟨x, hx, hx1, -⟩
  have := h.apart_head x hx
  omega

theorem gapsAfter_spec (l : Int) (hl : l ≤ 2147483647) : ∀ (V : List cliprange) (cur : cliprange),
    Good (cur :: V) →
    (∀ r ∈ gapsAfter l cur V, cur.last + 1 ≤ r.1 ∧ r.1 ≤ r.2 ∧ r.2 ≤ l) ∧
    (gapsAfter l cur V).Pairwise (fun p q => p.2 < q.1) ∧
    (∀ r ∈ gapsAfter l cur V, (∀ c, r.1 ≤ c → c ≤ r.2 → ¬ covered V c) ∧
      covered (cur :: V) (r.1 - 1) ∧ (r.2 = l ∨ covered V (r.2 + 1))) ∧
    (∀ c, cur.last < c → c ≤ l → ¬ covered V c → emitted (gapsAfter l cur V) c)
  | [], cur, h => by
    have := h.last_of_single
    rw [gapsAfter_of_le l cur [] (by omega)]
    refine ⟨by simp, by simp, by simp, ?_⟩
    intro c h1 h2 _
    omega
  | nxt :: r, cur, h => by
    have hap := h.apart_head nxt (by simp)
    have hwc := h.1 cur (by simp)
    have hwn := h.1 nxt (by simp)
    have ht : Good (nxt :: r) := h.tail (by simp)
    by_cases h1 : l ≤ cur.last
    · rw [gapsAfter_of_le l cur _ h1]
      refine ⟨by simp, by simp, by simp, ?_⟩
      intro c h2 h3 _
      omega
    · by_cases h2 : l ≥ nxt.first - 1
      · obtain ⟨i1, i2, i3, i4⟩ := gapsAfter_spec l hl r nxt ht
        have e0 : gapsAfter l cur (nxt :: r)
            = (cur.last + 1, nxt.first - 1) :: gapsAfter l nxt r := by
          simp [gapsAfter, h1, h2]
        rw [e0]
        refine ⟨?_, ?_, ?_, ?_⟩
        · intro q hq
          rcases List.mem_cons.1 hq with rfl | hq'
          · simp; omega
          · have := i1 q hq'
            omega
        · refine List.pairwise_cons.2 ⟨?_, i2⟩
          intro q hq
          have := i1 q hq
          simp; omega
        · intro q hq
          rcases List.mem_cons.1 hq with rfl | hq'
          · refine ⟨?_, ?_, ?_⟩
            · intro c hc1 hc2 hcov
              simp only at hc1 hc2
              rcases (covered_cons nxt r c).1 hcov with hh | hh
              · omega
              · exact ht.not_covered_lt (by omega) hh
            · exact (covered_cons _ _ _).2 (Or.inl (by simp; omega))
            · right
              exact (covered_cons _ _ _).2 (Or.inl (by simp; omega))
          · obtain ⟨j1, j2, j3⟩ := i3 q hq'
            have hq1 := i1 q hq'
            refine ⟨?_, covered_mono j2, ?_⟩
            · intro c hc1 hc2 hcov
              rcases (covered_cons nxt r c).1 hcov with hh | hh
              · omega
              · exact j1 c hc1 hc2 hh
            · rcases j3 with hh | hh
              · left; exact hh
              · right; exact covered_mono hh
        · intro c hc1 hc2 hcov
          rw [emitted_cons]
          by_cases hc3 : c ≤ nxt.first - 1
          · left; simp; omega
          · right
            have hn : ¬ (nxt.first ≤ c ∧ c ≤ nxt.last) := fun hh =>
              hcov ((covered_cons _ _ _).2 (Or.inl hh))
            have hr : ¬ covered r c := fun hh => hcov (covered_mono hh)
            exact i4 c (by omega) hc2 hr
      · have e0 : gapsAfter l cur (nxt :: r) = [(cur.last + 1, l)] := by
          simp [gapsAfter, h1, h2]
        rw [e0]
        refine ⟨?_, by simp, ?_, ?_⟩
        · intro q hq
          simp at hq; subst hq
          simp; omega
        · intro q hq
          simp at hq; subst hq
          refine ⟨?_, ?_, Or.inl rfl⟩
          · intro c hc1 hc2 hcov
            simp only at hc1 hc2
            rcases (covered_cons nxt r c).1 hcov with hh | hh
            · omega
            · exact ht.not_covered_lt (by omega) hh
          · exact (covered_cons _ _ _).2 (Or.inl (by simp; omega))
        · intro c hc1 hc2 _
          rw [emitted_cons]
          left; simp; omega

theorem openRanges_spec (f l : Int) (hfl : f ≤ l) (hl : l ≤ 2147483647) :
    ∀ (ivs : List cliprange), Good ivs →
    (∀ r ∈ openRanges f l ivs, f ≤ r.1 ∧ r.1 ≤ r.2 ∧ r.2 ≤ l) ∧
    (openRanges f l ivs).Pairwise (fun p q => p.2 < q.1) ∧
    (∀ r ∈ openRanges f l ivs, (∀ c, r.1 ≤ c → c ≤ r.2 → ¬ covered ivs c) ∧
      (r.1 = f ∨ covered ivs (r.1 - 1)) ∧ (r.2 = l ∨ covered ivs (r.2 + 1))) ∧
    (∀ c, f ≤ c → c ≤ l → ¬ covered ivs c → emitted (openRanges f l ivs) c)
  | [], h => by simp [Good] at h
  | e :: rest, h => by
    have hwe := h.1 e (by simp)
    by_cases h1 : e.last < f - 1
    · have hne : rest ≠ [] := by
        rintro rfl
        have := h.last_of_single
        omega
      obtain ⟨i1, i2, i3, i4⟩ := openRanges_spec f l hfl hl rest (h.tail hne)
      have e0 : openRanges f l (e :: rest) = openRanges f l rest := by
        rw [openRanges, if_pos h1]
      rw [e0]
      refine ⟨i1, i2, ?_, ?_⟩
      · intro q hq
        obtain ⟨j1, j2, j3⟩ := i3 q hq
        have hq1 := i1 q hq
        refine ⟨?_, ?_, ?_⟩
        · intro c hc1 hc2 hcov
          rcases (covered_cons e rest c).1 hcov with hh | hh
          · omega
          · exact j1 c hc1 hc2 hh
        · rcases j2 with hh | hh
          · left; exact hh
          · right; exact covered_mono hh
        · rcases j3 with hh | hh
          · left; exact hh
          · right; exact covered_mono hh
      · intro c hc1 hc2 hcov
        exact i4 c hc1 hc2 (fun hh => hcov (covered_mono hh))
    · by_cases h2 : f < e.first
      · by_cases h3 : l < e.first - 1
        · have e0 : openRanges f l (e :: rest) = [(f, l)] := by
            simp [openRanges, h1, h2, h3]
          rw [e0]
          refine ⟨?_, by simp, ?_, ?_⟩
          · intro q hq
            simp at hq; subst hq
            simp; omega
          · intro q hq
            simp at hq; subst hq
            refine ⟨?_, Or.inl rfl, Or.inl rfl⟩
            intro c hc1 hc2 hcov
            simp only at hc1 hc2
            rcases (covered_cons e rest c).1 hcov with hh | hh
            · omega
            · exact h.not_covered_lt (by omega) hh
          · intro c hc1 hc2 _
            rw [emitted_cons]
            left; simp; omega
        · obtain ⟨i1, i2, i3, i4⟩ := gapsAfter_spec l hl rest e h
          have e0 : openRanges f l (e :: rest) = (f, e.first - 1) :: gapsAfter l e rest := by
            simp [openRanges, h1, h2, h3]
          rw [e0]
          refine ⟨?_, ?_, ?_, ?_⟩
          · intro q hq
            rcases List.mem_cons.1 hq with rfl | hq'
            · simp; omega
            · have := i1 q hq'
              omega
          · refine List.pairwise_cons.2 ⟨?_, i2⟩
            intro q hq
            have := i1 q hq
            simp; omega
          · intro q hq
            rcases List.mem_cons.1 hq with rfl | hq'
            · refine ⟨?_, Or.inl rfl, ?_⟩
              · intro c hc1 hc2 hcov
                simp only at hc1 hc2
                rcases (covered_cons e rest c).1 hcov with hh | hh
                · omega
                · exact h.not_covered_lt (by omega) hh
              · right
                exact (covered_cons _ _ _).2 (Or.inl (by simp; omega))
            · obtain ⟨j1, j2, j3⟩ := i3 q hq'
              have hq1 := i1 q hq'
              refine ⟨?_, Or.inr j2, ?_⟩
              · intro c hc1 hc2 hcov
                rcases (covered_cons e rest c).1 hcov with hh | hh
                · omega
                · exact j1 c hc1 hc2 hh
              · rcases j3 with hh | hh
                · left; exact hh
                · right; exact covered_mono hh
          · intro c hc1 hc2 hcov
            rw [emitted_cons]
            by_cases hc3 : c ≤ e.first - 1
            · left; simp; omega
            · right
              have hn : ¬ (e.first ≤ c ∧ c ≤ e.last) := fun hh =>
                hcov ((covered_cons _ _ _).2 (Or.inl hh))
              exact i4 c (by omega) hc2 (fun hh => hcov (covered_mono hh))
      · obtain ⟨i1, i2, i3, i4⟩ := gapsAfter_spec l hl rest e h
        have e0 : openRanges f l (e :: rest) = gapsAfter l e rest := by
          simp [openRanges, h1, h2]
        rw [e0]
        refine ⟨?_, i2, ?_, ?_⟩
        · intro q hq
          have := i1 q hq
          omega
        · intro q hq
          obtain ⟨j1, j2, j3⟩ := i3 q hq
          have hq1 := i1 q hq
          refine ⟨?_, Or.inr j2, ?_⟩
          · intro c hc1 hc2 hcov
            rcases (covered_cons e rest c).1 hcov with hh | hh
            · omega
            · exact j1 c hc1 hc2 hh
          · rcases j3 with hh | hh
            · left; exact hh
            · right; exact covered_mono hh
        · intro c hc1 hc2 hcov
          have hn : ¬ (e.first ≤ c ∧ c ≤ e.last) := fun hh =>
            hcov ((covered_cons _ _ _).2 (Or.inl hh))
          exact i4 c (by omega) hc2 (fun hh => hcov (covered_mono hh))

theorem count_emitted (c : Int) : ∀ (out : List WallRange),
    out.Pairwise (fun p q => p.2 < q.1) →
    (out.filter (fun r => decide (r.1 ≤ c ∧ c ≤ r.2))).length = if emitted out c then 1 else 0
  | [], _ => by simp [emitted]
  | r :: rest, hp => by
    obtain ⟨h1, h2⟩ := List.pairwise_cons.1 hp
    have ih := count_emitted c rest h2
    by_cases hc : r.1 ≤ c ∧ c ≤ r.2
    · have hne : ¬ emitted rest c := by
        rintro ⟨q, hq, hq1, -⟩
        have := h1 q hq
        omega
      have hem : emitted (r :: rest) c := (emitted_cons _ _ _).2 (Or.inl hc)
      rw [List.filter_cons_of_pos (by simpa using hc)]
      simp only [List.length_cons, ih, if_neg hne, if_pos hem]
    · have hem : emitted (r :: rest) c ↔ emitted rest c := by
        rw [emitted_cons]; tauto
      rw [List.filter_cons_of_neg (by simpa using hc), ih]
      simp only [hem]

theorem openRanges_partition (f l : Int) (hfl : f ≤ l) (hl : l ≤ 2147483647)
    (ivs : List cliprange) (h : Good ivs) : OpenPartition ivs f l (openRanges f l ivs) := by
  obtain ⟨i1, i2, i3, i4⟩ := openRanges_spec f l hfl hl ivs h
  refine ⟨i1, i2, i3, ?_⟩
  intro c hc1 hc2
  rw [count_emitted c _ i2]
  by_cases hcov : covered ivs c
  · have : ¬ emitted (openRanges f l ivs) c := by
      rintro ⟨r, hr, hr1, hr2⟩
      exact (i3 r hr).1 c hr1 hr2 hcov
    simp [hcov, this]
  · simp [hcov, i4 c hc1 hc2 hcov]

theorem pass_step (s : ClipState) (f l : Int) (hinv : SegsInv (intervals s.solidsegs))
    (hf : -2147483647 ≤ f) (hf2 : f ≤ 2147483647) (hl : l ≤ 2147483647) :
    R_ClipPassWallSegment s f l = some (s, openRanges f l (intervals s.solidsegs)) := by
  obtain ⟨G, hG⟩ := intervals_prefix s.solidsegs
  have hs : s = ⟨intervals s.solidsegs ++ G, s.newend⟩ := by
    cases s; simp at hG ⊢; exact hG
  have := pass_refines f l hf hf2 hl (intervals s.solidsegs) G hinv s.newend
  rw [← hs] at this
  exact this

/-! ## A covered range, and the uniqueness of the interval sequence -/

theorem apart_or {ivs : List cliprange} (h : Good ivs) {a b : cliprange} (ha : a ∈ ivs)
    (hb : b ∈ ivs) (hne : a ≠ b) : a.last + 1 < b.first ∨ b.last + 1 < a.first := by
  have hp := pairwise_apart ivs h.1 h.2.1
  have hp' : ivs.Pairwise (fun x y => apart x y ∨ apart y x) := hp.imp (fun hh => Or.inl hh)
  have hsym : Symmetric (fun x y : cliprange => apart x y ∨ apart y x) := by
    intro x y hxy
    exact hxy.symm
  exact hp'.forall hsym ha hb hne

theorem covered_range_single {ivs : List cliprange} (h : Good ivs) {f l : Int} (hfl : f ≤ l)
    (hc : ∀ c, f ≤ c → c ≤ l → covered ivs c) : ∃ e ∈ ivs, e.first ≤ f ∧ l ≤ e.last := by
  obtain ⟨e, he, he1, he2⟩ := hc f (le_refl f) hfl
  refine ⟨e, he, he1, ?_⟩
  by_contra hlt
  obtain ⟨x, hx, hx1, hx2⟩ := hc (e.last + 1) (by omega) (by omega)
  have hne : e ≠ x := by
    rintro rfl
    omega
  have hwx := h.1 x hx
  rcases apart_or h he hx hne with hh | hh <;> omega

theorem solid_noop (s : ClipState) (f l : Int) (hinv : SegsInv (intervals s.solidsegs))
    (hf : -2147483647 ≤ f) (hf2 : f ≤ 2147483647) (e : cliprange)
    (he : e ∈ intervals s.solidsegs) (he1 : e.first ≤ f) (he2 : l ≤ e.last)
    (he3 : f - 1 ≤ e.last) :
    R_ClipSolidWallSegment s f l = some (s, []) ∧ R_ClipPassWallSegment s f l = some (s, []) := by
  obtain ⟨G, hG⟩ := intervals_prefix s.solidsegs
  have hg := hinv.good
  obtain ⟨A, V, hAV⟩ := List.append_of_mem he
  have hp := pairwise_apart _ hg.1 hg.2.1
  rw [hAV] at hp
  have hA : ∀ a ∈ A, a.last < f - 1 := by
    intro a ha
    have := (List.pairwise_append.1 hp).2.2 a ha e (by simp)
    unfold apart at this
    omega
  have e1 : int32 (f - 1) = f - 1 := int32_eq _ (by omega) (by omega)
  have hst : ¬ e.last < f - 1 := by omega
  have eseg : s.solidsegs = A ++ e :: (V ++ G) := by
    rw [hG, hAV]; simp
  have hfs : findStart s.solidsegs (f - 1) 0 = some A.length := by
    rw [eseg]
    have := findStart_append A e (V ++ G) (f - 1) 0 hA hst
    simpa using this
  have hget : s.solidsegs[A.length]? = some e := by
    rw [eseg]; exact getElem?_mid _ _ _
  have h1 : ¬ f < e.first := by omega
  constructor
  · unfold R_ClipSolidWallSegment
    simp only [e1, hfs, hget, h1, if_false]
    unfold solidTail
    simp only [hget, he2, if_true]
  · unfold R_ClipPassWallSegment
    simp only [e1, hfs, hget, h1, if_false, he2, if_true]

theorem head_eq_of_covered {x y : cliprange} {xs ys : List cliprange} (hx : Good (x :: xs))
    (hy : Good (y :: ys)) (h : ∀ c, covered (x :: xs) c ↔ covered (y :: ys) c) : x = y := by
  have hwx := hx.1 x (by simp)
  have hwy := hy.1 y (by simp)
  have key : ∀ {a b : cliprange} {as bs : List cliprange}, Good (a :: as) → Good (b :: bs) →
      (∀ c, covered (a :: as) c → covered (b :: bs) c) → a.first ≤ a.last → b.first ≤ b.last →
      b.first ≤ a.first ∧ (a.first = b.first → a.last ≤ b.last) := by
    intro a b as bs ha hb hab hwa hwb
    have hfirst : b.first ≤ a.first := by
      obtain ⟨z, hz, hz1, hz2⟩ := hab a.first ((covered_cons _ _ _).2 (Or.inl ⟨le_refl _, hwa⟩))
      rcases List.mem_cons.1 hz with rfl | hz'
      · exact hz1
      · have := hb.apart_head z hz'
        omega
    refine ⟨hfirst, ?_⟩
    intro heq
    by_contra hlt
    obtain ⟨z, hz, hz1, hz2⟩ := hab (b.last + 1)
      ((covered_cons _ _ _).2 (Or.inl ⟨by omega, by omega⟩))
    rcases List.mem_cons.1 hz with rfl | hz'
    · omega
    · have := hb.apart_head z hz'
      omega
  obtain ⟨k1, k2⟩ := key hx hy (fun c hc => (h c).1 hc) hwx hwy
  obtain ⟨k3, k4⟩ := key hy hx (fun c hc => (h c).2 hc) hwy hwx
  have hf : x.first = y.first := by omega
  have hl : x.last = y.last := by
    have := k2 hf
    have := k4 hf.symm
    omega
  cases x; cases y; simp at hf hl ⊢; exact ⟨hf, hl⟩

theorem inv_ext : ∀ (X Y : List cliprange), Good X → Good Y →
    (∀ c, covered X c ↔ covered Y c) → X = Y
  | [], _, hX, _, _ => by simp [Good] at hX
  | _ :: _, [], _, hY, _ => by simp [Good] at hY
  | x :: xs, y :: ys, hX, hY, h => by
    have hxy := head_eq_of_covered hX hY h
    subst hxy
    congr 1
    by_cases hxs : xs = []
    · subst hxs
      have := hX.last_of_single
      by_contra hne
      have := hY.not_last (fun hh => hne hh.symm)
      omega
    · by_cases hys : ys = []
      · subst hys
        have := hY.last_of_single
        have := hX.not_last hxs
        omega
      · refine inv_ext xs ys (hX.tail hxs) (hY.tail hys) ?_
        intro c
        constructor
        · intro hc
          rcases (covered_cons _ _ _).1 ((h c).1 (covered_mono hc)) with hh | hh
          · exact absurd hc (hX.not_covered_lt (by omega))
          · exact hh
        · intro hc
          rcases (covered_cons _ _ _).1 ((h c).2 (covered_mono hc)) with hh | hh
          · exact absurd hc (hY.not_covered_lt (by omega))
          · exact hh

theorem solid_step_newend (s : ClipState) (f l : Int) (hinv : ClipInv s)
    (hcap : s.newend < s.solidsegs.length)
    (hf : -2147483647 ≤ f) (hfl : f ≤ l) (hl : l ≤ 2147483647) :
    ∃ s1, R_ClipSolidWallSegment s f l = some (s1, openRanges f l (intervals s.solidsegs)) ∧
      intervals s1.solidsegs = mergeSolid f l (intervals s.solidsegs) ∧
      s1.solidsegs.length = s.solidsegs.length ∧ ClipInv s1 ∧ s1.newend ≤ s.newend + 1 := by
  obtain ⟨s1, h1, h2, h3, h4, h5⟩ := solid_step s f l hinv hcap hf hfl hl
  refine ⟨s1, h1, h2, h3, h4, ?_⟩
  have := mergeSolid_length_le f l _ hinv.1.good
  rw [← h2] at this
  split_ifs at h5 <;> omega

theorem emitted_not_covered (f l : Int) (hfl : f ≤ l) (hl : l ≤ 2147483647)
    (ivs : List cliprange) (h : Good ivs) (c : Int) (hc : emitted (openRanges f l ivs) c) :
    ¬ covered ivs c := by
  obtain ⟨r, hr, hr1, hr2⟩ := hc
  exact ((openRanges_spec f l hfl hl ivs h).2.2.1 r hr).1 c hr1 hr2

/-! ## `R_AddLine` on a clip list that rejects every range -/

theorem addLineClip_blocked (v : View) (rs : RenderState) (line : seg) (x1 x2 : Int)
    (hS : R_ClipSolidWallSegment rs.clip x1 (int32 (x2 - 1)) = some (rs.clip, []))
    (hP : R_ClipPassWallSegment rs.clip x1 (int32 (x2 - 1)) = some (rs.clip, [])) :
    (∀ rs1 out, addLineClip v rs line x1 x2 = some (rs1, out) →
      rs1.clip = rs.clip ∧ out = []) ∧
    ((∀ b, line.backsector = some b → b < rs.sectors.length ∧
        rs.frontsector < rs.sectors.length) →
      ∃ rs1, addLineClip v rs line x1 x2 = some (rs1, []) ∧ rs1.clip = rs.clip) := by
  unfold addLineClip
  cases hb : line.backsector with
  | none =>
    simp only [hS]
    exact ⟨by intro rs1 out h; simp at h; obtain ⟨rfl, rfl⟩ := h; simp,
      fun _ => ⟨_, rfl, rfl⟩⟩
  | some b =>
    constructor
    · intro rs1 out h
      simp only at h
      cases hback : rs.sectors[b]? with
      | none => simp [hback] at h
      | some back0 =>
        simp only [hback] at h
        cases hfront : (rs.sectors.set b (R_CheckInterpolateSector v back0))[rs.frontsector]? with
        | none => simp [hfront] at h
        | some front =>
          simp only [hfront] at h
          cases hk : classify front (R_CheckInterpolateSector v back0) line.midtexture with
          | clipsolid =>
            simp only [hk, hS] at h
            simp at h; obtain ⟨rfl, rfl⟩ := h; simp
          | clippass =>
            simp only [hk, hP] at h
            simp at h; obtain ⟨rfl, rfl⟩ := h; simp
          | reject =>
            simp only [hk] at h
            simp at h; obtain ⟨rfl, rfl⟩ := h; simp
    · intro hvalid
      obtain ⟨hb1, hb2⟩ := hvalid b rfl
      obtain ⟨back0, hback⟩ : ∃ x, rs.sectors[b]? = some x :=
        ⟨rs.sectors[b], List.getElem?_eq_getElem hb1⟩
      have hlen : rs.frontsector < (rs.sectors.set b (R_CheckInterpolateSector v back0)).length := by
        simpa using hb2
      obtain ⟨front, hfront⟩ :
          ∃ x, (rs.sectors.set b (R_CheckInterpolateSector v back0))[rs.frontsector]? = some x :=
        ⟨_, List.getElem?_eq_getElem hlen⟩
      simp only [hback, hfront]
      cases hk : classify front (R_CheckInterpolateSector v back0) line.midtexture with
      | clipsolid => simp only [hS]; exact ⟨_, rfl, rfl⟩
      | clippass => simp only [hP]; exact ⟨_, rfl, rfl⟩
      | reject => exact ⟨_, rfl, rfl⟩

theorem addLine_blocked (v : View) (rs : RenderState) (line : seg)
    (hno : ∀ f l : Int, -2147483647 ≤ f → f ≤ 2147483647 → l ≤ 2147483647 →
      R_ClipSolidWallSegment rs.clip f l = some (rs.clip, []) ∧
      R_ClipPassWallSegment rs.clip f l = some (rs.clip, []))
    (htab : ∀ i, -2147483647 ≤ v.viewangletox i ∧ v.viewangletox i ≤ 2147483647) :
    (∀ rs1 out, R_AddLine v rs line = some (rs1, out) → rs1.clip = rs.clip ∧ out = []) ∧
    ((∀ b, line.backsector = some b → b < rs.sectors.length ∧
        rs.frontsector < rs.sectors.length) →
      ∃ rs1, R_AddLine v rs line = some (rs1, []) ∧ rs1.clip = rs.clip) := by
  have hclip : ∀ (rs' : RenderState) (x1 x2 : Int), rs'.clip = rs.clip →
      rs'.sectors = rs.sectors → rs'.frontsector = rs.frontsector →
      -2147483647 ≤ x1 → x1 ≤ 2147483647 → -2147483647 ≤ x2 → x2 ≤ 2147483647 →
      (∀ rs1 out, addLineClip v rs' line x1 x2 = some (rs1, out) →
        rs1.clip = rs.clip ∧ out = []) ∧
      ((∀ b, line.backsector = some b → b < rs.sectors.length ∧
          rs.frontsector < rs.sectors.length) →
        ∃ rs1, addLineClip v rs' line x1 x2 = some (rs1, []) ∧ rs1.clip = rs.clip) := by
    intro rs' x1 x2 hc hs hfr h1 h2 h3 h4
    have e : int32 (x2 - 1) = x2 - 1 := int32_eq _ (by omega) (by omega)
    have hh := hno x1 (x2 - 1) h1 h2 (by omega)
    have := addLineClip_blocked v rs' line x1 x2 (by rw [hc, e]; exact hh.1)
      (by rw [hc, e]; exact hh.2)
    rw [hc, hs, hfr] at this
    exact this
  unfold R_AddLine
  simp only
  split_ifs with h1
  · exact ⟨by intro rs1 out h; simp at h; obtain ⟨rfl, rfl⟩ := h; simp, fun _ => ⟨_, rfl, rfl⟩⟩
  · split
    · exact ⟨by intro rs1 out h; simp at h; obtain ⟨rfl, rfl⟩ := h; simp, fun _ => ⟨_, rfl, rfl⟩⟩
    · split
      · exact ⟨by intro rs1 out h; simp at h; obtain ⟨rfl, rfl⟩ := h; simp,
          fun _ => ⟨_, rfl, rfl⟩⟩
      · split_ifs with h3
        · exact ⟨by intro rs1 out h; simp at h; obtain ⟨rfl, rfl⟩ := h; simp,
            fun _ => ⟨_, rfl, rfl⟩⟩
        · exact hclip _ _ _ rfl rfl rfl (htab _).1 (htab _).2 (htab _).1 (htab _).2

theorem addLines_blocked (v : View) (c : ClipState)
    (hno : ∀ f l : Int, -2147483647 ≤ f → f ≤ 2147483647 → l ≤ 2147483647 →
      R_ClipSolidWallSegment c f l = some (c, []) ∧ R_ClipPassWallSegment c f l = some (c, []))
    (htab : ∀ i, -2147483647 ≤ v.viewangletox i ∧ v.viewangletox i ≤ 2147483647) :
    ∀ (lines : List seg) (rs rs1 : RenderState) (out : List WallRange), rs.clip = c →
      addLines v rs lines = some (rs1, out) → rs1.clip = c ∧ out = []
  | [], rs, rs1, out, hc, h => by
    simp [addLines] at h
    obtain ⟨rfl, rfl⟩ := h
    exact ⟨hc, rfl⟩
  | line :: rest, rs, rs1, out, hc, h => by
    unfold addLines at h
    cases h1 : R_AddLine v rs line with
    | none => simp [h1] at h
    | some p =>
      obtain ⟨rsa, outa⟩ := p
      obtain ⟨hca, houta⟩ := (addLine_blocked v rs line (by rw [hc]; exact hno) htab).1 rsa outa h1
      simp only [h1] at h
      cases h2 : addLines v rsa rest with
      | none => simp [h2] at h
      | some q =>
        obtain ⟨rsb, outb⟩ := q
        obtain ⟨hcb, houtb⟩ :=
          addLines_blocked v c hno htab rest rsa rsb outb (by rw [hca, hc]) h2
        simp [h2] at h
        obtain ⟨rfl, rfl⟩ := h
        exact ⟨hcb, by simp [houta, houtb]⟩

theorem merge_full (W : Int) (hW : 1 ≤ W) (hW2 : W ≤ 2147483647) :
    mergeSolid 0 (W - 1) [⟨-2147483647, -1⟩, ⟨W, 2147483647⟩] = [⟨-2147483647, 2147483647⟩] ∧
    openRanges 0 (W - 1) [⟨-2147483647, -1⟩, ⟨W, 2147483647⟩] = [(0, W - 1)] := by
  have h1 : ¬ (W - 1 ≤ -1) := by omega
  have h2 : W - 1 ≤ 2147483647 := by omega
  constructor
  · simp [mergeSolid, absorb, h1, h2]
  · simp [openRanges, gapsAfter, h1, h2]

theorem overflowTest_false (c : ClipState) : overflowTest c = false := by
  simp [overflowTest]

/-! ## The solid clipper on a full array (`newend` one past the end) -/

theorem shiftUp_full (start : Nat) (segs : List cliprange) (next : Nat)
    (h : next = segs.length) (hne : next ≠ start) : shiftUp start segs next = none := by
  cases next with
  | zero =>
    have : ¬ (0 = start) := hne
    simp [shiftUp, this]
  | succ n =>
    have h1 : ¬ (n + 1 = start) := hne
    have h2 : ¬ (n + 1 < segs.length) := by omega
    rw [shiftUp]
    simp only [h1, if_false]
    cases segs[n]? with
    | none => rfl
    | some v => simp [writeSeg, h2]

theorem writeSeg_length {segs segs1 : List cliprange} {i : Nat} {v : cliprange}
    (h : writeSeg segs i v = some segs1) : segs1.length = segs.length := by
  unfold writeSeg at h
  split at h
  · simp at h; subst h; simp
  · simp at h

theorem crunchLoop_full (newend : Nat) : ∀ (fuel : Nat) (segs : List cliprange)
    (start next : Nat), newend = segs.length → next < segs.length →
    crunchLoop newend fuel segs start next = none
  | 0, _, _, _, _, _ => rfl
  | fuel + 1, segs, start, next, h1, h2 => by
    have hne : next ≠ newend := by omega
    rw [crunchLoop]
    simp only [hne, ne_eq, not_false_eq_true, if_true]
    cases hr : segs[next + 1]? with
    | none => rfl
    | some v =>
      simp only
      cases hw : writeSeg segs (start + 1) v with
      | none => rfl
      | some segs1 =>
        simp only
        have hl := writeSeg_length hw
        have hlt : next + 1 < segs.length := by
          by_contra hh
          rw [List.getElem?_eq_none (by omega)] at hr
          simp at hr
        exact crunchLoop_full newend fuel segs1 (start + 1) (next + 1) (by omega) (by omega)

theorem solidTail_full (l : Int) (hl : l ≤ 2147483647) (A : List cliprange) (st : cliprange)
    (V G : List cliprange) (pre : List WallRange) (newend : Nat) (hb : Bounded st)
    (hbV : ∀ e ∈ V, Bounded e) (hex : l ≤ st.last ∨ ∃ e ∈ V, l ≤ e.last)
    (hne : newend = A.length + 1 + V.length + G.length) :
    solidTail ⟨A ++ st :: V ++ G, newend⟩ A.length l pre = none ∨
    (solidTail ⟨A ++ st :: V ++ G, newend⟩ A.length l pre
        = some (⟨A ++ absorb l st V ++ G, newend⟩, pre ++ gapsAfter l st V) ∧
      (absorb l st V).length = 1 + V.length) := by
  have eseg : A ++ st :: V ++ G = A ++ st :: (V ++ G) := by simp
  have hget : (A ++ st :: V ++ G)[A.length]? = some st := by
    rw [eseg]; exact getElem?_mid _ _ _
  unfold solidTail
  simp only [hget]
  by_cases h1 : l ≤ st.last
  · right
    simp [h1, absorb_of_le _ _ _ h1, gapsAfter_of_le _ _ _ h1]
    omega
  · have hex' : ∃ e ∈ V, l ≤ e.last := by
      rcases hex with h | h
      · exact absurd h h1
      · exact h
    obtain ⟨r, C, D, hw, hV, hnext, habs, hst, -⟩ :=
      solidWalk_spec l hl G V st A.length h1 hb hbV hex'
    have habs' : absorb l st V = ⟨st.first, r.newLast⟩ :: D := habs st.first
    have hdrop : List.drop A.length (A ++ st :: V ++ G) = st :: (V ++ G) := by
      rw [eseg]; simp
    have hwr : writeSeg (A ++ st :: V ++ G) A.length ⟨st.first, r.newLast⟩
        = some (A ++ ⟨st.first, r.newLast⟩ :: (V ++ G)) := by
      rw [eseg]; exact writeSeg_append _ _ _ _
    simp only [h1, if_false, hdrop, hw, hwr]
    by_cases h2 : r.next = A.length
    · have hC : C = [] := by
        have : C.length = 0 := by omega
        exact List.length_eq_zero.1 this
      subst hC
      simp only [List.nil_append] at hV
      subst hV
      right
      simp [h2, habs', hst]
      omega
    · left
      have hlen : newend = (A ++ ({ first := st.first, last := r.newLast } : cliprange)
          :: (V ++ G)).length := by
        simp; omega
      have hlt : r.next < (A ++ ({ first := st.first, last := r.newLast } : cliprange)
          :: (V ++ G)).length := by
        have : C.length ≤ V.length := by rw [hV]; simp
        simp; omega
      simp only [h2, if_false, crunchLoop_full newend _ _ A.length r.next hlen hlt]

theorem solid_refines_full (f l : Int) (hf : -2147483647 ≤ f) (hfl : f ≤ l)
    (hl : l ≤ 2147483647) (ivs G : List cliprange) (hinv : SegsInv ivs) (newend : Nat)
    (hne : newend = ivs.length + G.length) :
    R_ClipSolidWallSegment ⟨ivs ++ G, newend⟩ f l = none ∨
    (R_ClipSolidWallSegment ⟨ivs ++ G, newend⟩ f l
        = some (⟨mergeSolid f l ivs ++ G, newend⟩, openRanges f l ivs) ∧
      (mergeSolid f l ivs).length = ivs.length) := by
  have hg := hinv.good
  have hbd := hinv.bounded
  obtain ⟨A, st, V, rfl, hA, hst⟩ := exists_start (f - 1) ivs (hg.exists_ge (f - 1) (by omega))
  have hbst : Bounded st := hbd st (by simp)
  have hbV : ∀ e ∈ V, Bounded e := fun e he => hbd e (by simp [he])
  obtain ⟨hs1, hs2, hs3, hs4⟩ := hbst
  have e1 : int32 (f - 1) = f - 1 := int32_eq _ (by omega) (by omega)
  have e2 : int32 (st.first - 1) = st.first - 1 := int32_eq _ (by omega) (by omega)
  have eseg : A ++ st :: V ++ G = A ++ st :: (V ++ G) := by simp
  have hfs : findStart (A ++ st :: V ++ G) (f - 1) 0 = some A.length := by
    rw [eseg]
    have := findStart_append A st (V ++ G) (f - 1) 0 hA hst
    simpa using this
  have hget : (A ++ st :: V ++ G)[A.length]? = some st := by
    rw [eseg]; exact getElem?_mid _ _ _
  have hex : l ≤ st.last ∨ ∃ e ∈ V, l ≤ e.last := by
    obtain ⟨e, he, hel⟩ := hg.exists_ge l hl
    rcases List.mem_append.1 he with h | h
    · have := hA e h; omega
    · rcases List.mem_cons.1 h with rfl | h'
      · left; omega
      · right; exact ⟨e, h', by omega⟩
  rw [mergeSolid_append f l _ A hA, openRanges_append f l _ A hA]
  unfold R_ClipSolidWallSegment
  simp only [e1, hfs, hget, e2]
  by_cases h1 : f < st.first
  · by_cases h2 : l < st.first - 1
    · left
      have := shiftUp_full A.length (A ++ st :: V ++ G) newend (by simp at hne ⊢; omega)
        (by simp at hne; omega)
      simp only [h1, h2, if_true, this]
    · have hwr : writeSeg (A ++ st :: V ++ G) A.length ⟨f, st.last⟩
          = some (A ++ ⟨f, st.last⟩ :: V ++ G) := by
        rw [eseg]
        have := writeSeg_append A st ⟨f, st.last⟩ (V ++ G)
        simpa using this
      simp only [h1, h2, if_true, if_false, hwr]
      rcases solidTail_full l hl A ⟨f, st.last⟩ V G [(f, st.first - 1)] newend
        ⟨by simpa using hf, by simp; omega, hs3, hs4⟩ hbV hex (by simp at hne; omega)
        with hn | ⟨hs, hlen⟩
      · left; exact hn
      · right
        rw [hs]
        simp [mergeSolid, openRanges, hst, h1, h2] at hlen ⊢
        exact ⟨gapsAfter_congr l _ _ V rfl, by omega⟩
  · simp only [h1, if_false]
    rcases solidTail_full l hl A st V G [] newend ⟨hs1, hs2, hs3, hs4⟩ hbV hex
      (by simp at hne; omega) with hn | ⟨hs, hlen⟩
    · left; exact hn
    · right
      rw [hs]
      simp [mergeSolid, openRanges, hst, h1] at hlen ⊢
      omega

/-- One call of the solid clipper on a clip list that satisfies the invariant:
whenever it returns, it has recorded `openRanges` and left `mergeSolid`. -/
theorem solid_step_of_some (s : ClipState) (f l : Int) (hinv : ClipInv s)
    (hf : -2147483647 ≤ f) (hfl : f ≤ l) (hl : l ≤ 2147483647)
    (s1 : ClipState) (out : List WallRange)
    (h : R_ClipSolidWallSegment s f l = some (s1, out)) :
    out = openRanges f l (intervals s.solidsegs) ∧
      intervals s1.solidsegs = mergeSolid f l (intervals s.solidsegs) ∧
      s1.solidsegs.length = s.solidsegs.length ∧ ClipInv s1 ∧
      s1.newend + (intervals s.solidsegs).length
        = s.newend + (intervals s1.solidsegs).length
          + (if (intervals s1.solidsegs).length < (intervals s.solidsegs).length then 1 else 0) := by
  by_cases hcap : s.newend < s.solidsegs.length
  · obtain ⟨s1', h1, h2, h3, h4, h5⟩ := solid_step s f l hinv hcap hf hfl hl
    rw [h1] at h
    simp at h
    obtain ⟨rfl, rfl⟩ := h
    exact ⟨rfl, h2, h3, h4, h5⟩
  · obtain ⟨G, hG⟩ := intervals_prefix s.solidsegs
    have hlen : s.solidsegs.length = (intervals s.solidsegs).length + G.length := by
      conv_lhs => rw [hG]
      simp
    have hne : s.newend = (intervals s.solidsegs).length + G.length := by
      have := hinv.2.2
      omega
    have hs : s = ⟨intervals s.solidsegs ++ G, s.newend⟩ := by
      cases s; simp at hG ⊢; exact hG
    have hinv2 := mergeSolid_inv f l hf hfl hl _ hinv.1
    rcases solid_refines_full f l hf hfl hl (intervals s.solidsegs) G hinv.1 s.newend hne
      with hn | ⟨hsome, hml⟩
    · rw [← hs, h] at hn
      simp at hn
    · rw [← hs, h] at hsome
      simp at hsome
      obtain ⟨rfl, rfl⟩ := hsome
      have hiv : intervals (mergeSolid f l (intervals s.solidsegs) ++ G)
          = mergeSolid f l (intervals s.solidsegs) := intervals_append G _ hinv2.good
      refine ⟨rfl, hiv, ?_, ⟨by simpa [hiv] using hinv2, ?_, ?_⟩, ?_⟩
      · simp [hml]; omega
      · simp only [hiv, hml]; exact hinv.2.1
      · simp [hml]; omega
      · simp only [hiv, hml]; simp

/-! ## Runs that return -/

theorem clear_of_some (W : Int) (hW : 1 ≤ W) (hW2 : W ≤ 2147483647) (s0 s1 : ClipState)
    (h : R_ClearClipSegs W s0 = some s1) :
    intervals s1.solidsegs = [⟨-2147483647, -1⟩, ⟨W, 2147483647⟩] ∧
      s1.newend = 2 ∧ s1.solidsegs.length = s0.solidsegs.length ∧ Reach W s1 := by
  have hlen : 2 ≤ s0.solidsegs.length := by
    obtain ⟨segs, ne⟩ := s0
    match segs, h with
    | [], h => simp [R_ClearClipSegs, writeSeg] at h
    | [_], h => simp [R_ClearClipSegs, writeSeg] at h
    | _ :: _ :: _, _ => simp
  obtain ⟨t, ht, h1, h2, h3, h4⟩ := clear_reach W hW hW2 s0 hlen
  rw [h] at ht
  simp at ht
  subst ht
  exact ⟨h1, h2, h3, h4⟩

theorem reach_step_of_some (W : Int) (s : ClipState) (f l : Int) (h : Reach W s)
    (hf : -2147483647 ≤ f) (hfl : f ≤ l) (hl : l ≤ 2147483647)
    (s1 : ClipState) (out : List WallRange)
    (hs : R_ClipSolidWallSegment s f l = some (s1, out)) :
    out = openRanges f l (intervals s.solidsegs) ∧
      intervals s1.solidsegs = mergeSolid f l (intervals s.solidsegs) ∧
      s1.solidsegs.length = s.solidsegs.length ∧ Reach W s1 := by
  obtain ⟨hinv, hJ⟩ := h
  obtain ⟨hout, hiv, hlen, hinv1, hcnt⟩ := solid_step_of_some s f l hinv hf hfl hl s1 out hs
  refine ⟨hout, hiv, hlen, hinv1, ?_⟩
  have hsl := mergeSolid_slack f l hfl hl (intervals s.solidsegs) (-2147483647) hinv.1.good
  rw [← hiv] at hsl
  have hcnt' : (s1.newend : Int) + (intervals s.solidsegs).length
      = s.newend + (intervals s1.solidsegs).length
        + (if (intervals s1.solidsegs).length < (intervals s.solidsegs).length then 1 else 0) := by
    exact_mod_cast hcnt
  split_ifs at hcnt' with hlt
  · have : ((intervals s1.solidsegs).length : Int) < (intervals s.solidsegs).length := by
      exact_mod_cast hlt
    omega
  · omega

theorem reach_run_of_some (W : Int) : ∀ (calls : List (Int × Int)) (s : ClipState), Reach W s →
    (∀ c ∈ calls, -2147483647 ≤ c.1 ∧ c.1 ≤ c.2 ∧ c.2 ≤ 2147483647) →
    ∀ s2 outs, runSolid s calls = some (s2, outs) →
    Reach W s2 ∧ s2.solidsegs.length = s.solidsegs.length ∧
      ∀ c, covered (intervals s2.solidsegs) c ↔
        covered (intervals s.solidsegs) c ∨ ∃ call ∈ calls, call.1 ≤ c ∧ c ≤ call.2
  | [], s, h, _, s2, outs, hrun => by
    simp [runSolid] at hrun
    obtain ⟨rfl, -⟩ := hrun
    exact ⟨h, rfl, by simp⟩
  | (f, l) :: calls, s, h, hc, s2, outs, hrun => by
    obtain ⟨hf, hfl, hl⟩ := hc (f, l) (by simp)
    simp only at hf hfl hl
    unfold runSolid at hrun
    cases h1 : R_ClipSolidWallSegment s f l with
    | none => simp [h1] at hrun
    | some p =>
      obtain ⟨s1, out⟩ := p
      simp only [h1] at hrun
      cases h2 : runSolid s1 calls with
      | none => simp [h2] at hrun
      | some q =>
        obtain ⟨t2, outs2⟩ := q
        simp [h2] at hrun
        obtain ⟨rfl, -⟩ := hrun
        obtain ⟨-, hiv, hlen, hr1⟩ := reach_step_of_some W s f l h hf hfl hl s1 out h1
        obtain ⟨hr2, hlen2, hcov⟩ :=
          reach_run_of_some W calls s1 hr1 (fun c hc' => hc c (by simp [hc'])) t2 outs2 h2
        refine ⟨hr2, by rw [hlen2, hlen], ?_⟩
        intro c
        rw [hcov c, hiv, mergeSolid_covered f l c hfl hl _ h.1.1.good]
        simp only [List.mem_cons, exists_eq_or_imp]
        tauto

/-- The two orders of C7 agree on the interval sequence but not on `newend`:
on a reset of width 20 with `[10,10]` solid, marking `[8,8]` and then `[9,9]`
ends with `newend = 4`, marking `[9,9]` and then `[8,8]` ends with
`newend = 3`; the crunch loop of the first order leaves a stale entry below
`newend`. -/
theorem order_newend_example :
    runSolid ⟨[⟨-0x7fffffff, -1⟩, ⟨10, 10⟩, ⟨20, 0x7fffffff⟩, ⟨0, 0⟩, ⟨0, 0⟩], 3⟩
        [(8, 8), (9, 9)]
      = some (⟨[⟨-0x7fffffff, -1⟩, ⟨8, 10⟩, ⟨20, 0x7fffffff⟩, ⟨0, 0⟩, ⟨0, 0⟩], 4⟩,
          [[(8, 8)], [(9, 9)]]) ∧
    runSolid ⟨[⟨-0x7fffffff, -1⟩, ⟨10, 10⟩, ⟨20, 0x7fffffff⟩, ⟨0, 0⟩, ⟨0, 0⟩], 3⟩
        [(9, 9), (8, 8)]
      = some (⟨[⟨-0x7fffffff, -1⟩, ⟨8, 10⟩, ⟨20, 0x7fffffff⟩, ⟨0, 0⟩, ⟨0, 0⟩], 3⟩,
          [[(9, 9)], [(8, 8)]]) := by
  decide

/-! # Claims -/

/-- C1. After `R_ClearClipSegs` with `viewwidth ≥ 1` and after any sequence of
`R_ClipSolidWallSegment(first, last)` calls with `first ≤ last`, the interval
sequence (`solidsegs[0]` through the right sentinel) is sorted by `first`,
pairwise disjoint, consecutive intervals do not touch, every interval is
non-empty, the first one starts at `-0x7fffffff` and the final one ends at
`0x7fffffff`. For a width of at least 92, marking `[10,50]` and then `[51,90]`
leaves exactly `[10,90]` between the two sentinels. This holds whenever the
calls return, and they all return when `W + 4 ≤ 2 * MAXSEGS`. -/
theorem C1_interval_invariant (W : Int) (s0 : ClipState) (calls : List (Int × Int))
    (hW : 1 ≤ W) (hW2 : W ≤ 0x7fffffff)
    (hcalls : ∀ c ∈ calls, -0x7fffffff ≤ c.1 ∧ c.1 ≤ c.2 ∧ c.2 ≤ 0x7fffffff) :
    (∀ s1 s2 outs, R_ClearClipSegs W s0 = some s1 → runSolid s1 calls = some (s2, outs) →
      SegsInv (intervals s2.solidsegs) ∧
      (intervals s2.solidsegs).Pairwise (fun a b => a.first < b.first) ∧
      (intervals s2.solidsegs).Pairwise (fun a b => a.last < b.first) ∧
      (92 ≤ W → calls = [(10, 50), (51, 90)] →
        intervals s2.solidsegs = [⟨-0x7fffffff, -1⟩, ⟨10, 90⟩, ⟨W, 0x7fffffff⟩])) ∧
    (W + 4 ≤ 2 * (s0.solidsegs.length : Int) →
      ∃ s1 s2 outs, R_ClearClipSegs W s0 = some s1 ∧ runSolid s1 calls = some (s2, outs)) := by
  constructor
  · intro s1 s2 outs hclear hrun
    obtain ⟨hiv1, -, -, hr1⟩ := clear_of_some W hW hW2 s0 s1 hclear
    obtain ⟨hr2, -, -⟩ := reach_run_of_some W calls s1 hr1 hcalls s2 outs hrun
    have hg := hr2.1.1.good
    refine ⟨hr2.1.1, (pairwise_first_lt _ hg).1, (pairwise_first_lt _ hg).2, ?_⟩
    intro hW92 hc
    subst hc
    unfold runSolid at hrun
    cases h1 : R_ClipSolidWallSegment s1 10 50 with
    | none => simp [h1] at hrun
    | some p =>
      obtain ⟨t1, o1⟩ := p
      simp only [h1] at hrun
      unfold runSolid at hrun
      cases h2 : R_ClipSolidWallSegment t1 51 90 with
      | none => simp [h2] at hrun
      | some q =>
        obtain ⟨t2, o2⟩ := q
        simp [h2, runSolid] at hrun
        obtain ⟨rfl, -⟩ := hrun
        obtain ⟨-, hivt1, -, hrt1⟩ := reach_step_of_some W s1 10 50 hr1
          (by norm_num) (by norm_num) (by norm_num) t1 o1 h1
        obtain ⟨-, hivt2, -, -⟩ := reach_step_of_some W t1 51 90 hrt1
          (by norm_num) (by norm_num) (by norm_num) t2 o2 h2
        rw [hivt2, hivt1, hiv1, merge_example1 W hW92, merge_example2 W hW92]
  · intro hcap
    obtain ⟨s1, hclear, -, -, hlen1, hr1⟩ := clear_reach W hW hW2 s0 (by omega)
    obtain ⟨s2, outs, hrun, -⟩ :=
      reach_run W calls s1 hr1 (by rw [hlen1]; exact hcap) hcalls
    exact ⟨s1, s2, outs, hclear, hrun⟩

theorem C1_interval_invariant_witness :
    ∃ s1 s2 outs, R_ClearClipSegs 92 ⟨List.replicate 48 ⟨0, 0⟩, 0⟩ = some s1 ∧
      runSolid s1 [(10, 50), (51, 90)] = some (s2, outs) ∧
      SegsInv (intervals s2.solidsegs) ∧
      intervals s2.solidsegs = [⟨-0x7fffffff, -1⟩, ⟨10, 90⟩, ⟨92, 0x7fffffff⟩] := by
  have h := C1_interval_invariant 92 ⟨List.replicate 48 ⟨0, 0⟩, 0⟩ [(10, 50), (51, 90)]
    (by decide) (by decide) (by decide)
  obtain ⟨s1, s2, outs, h1, h2⟩ := h.2 (by decide)
  obtain ⟨a, -, -, d⟩ := h.1 s1 s2 outs h1 h2
  exact ⟨s1, s2, outs, h1, h2, a, d (by decide) rfl⟩

/-- C2. Partition law of the open-range query: on a clip list whose interval
sequence satisfies the invariant, `R_ClipPassWallSegment(first, last)` with
`first ≤ last` returns, and the wall ranges it passes to `R_StoreWallRange` are
the maximal runs of uncovered columns of `[first, last]`, non-empty, disjoint
and ascending; a column of `[first, last]` lies in exactly one of them when no
interval covers it and in none when one does. -/
theorem C2_pass_partition (s : ClipState) (first last : Int)
    (hinv : SegsInv (intervals s.solidsegs))
    (hf : -0x7fffffff ≤ first) (hfl : first ≤ last) (hl : last ≤ 0x7fffffff) :
    ∃ out, R_ClipPassWallSegment s first last = some (s, out) ∧
      OpenPartition (intervals s.solidsegs) first last out :=
  ⟨openRanges first last (intervals s.solidsegs),
    pass_step s first last hinv hf (by omega) hl,
    openRanges_partition first last hfl hl _ hinv.good⟩

theorem C2_pass_partition_witness :
    ∃ out, R_ClipPassWallSegment
        ⟨[⟨-0x7fffffff, 40⟩, ⟨120, 150⟩, ⟨320, 0x7fffffff⟩, ⟨0, 0⟩], 3⟩ 0 200
        = some (⟨[⟨-0x7fffffff, 40⟩, ⟨120, 150⟩, ⟨320, 0x7fffffff⟩, ⟨0, 0⟩], 3⟩, out) ∧
      OpenPartition
        (intervals [⟨-0x7fffffff, 40⟩, ⟨120, 150⟩, ⟨320, 0x7fffffff⟩, ⟨0, 0⟩]) 0 200 out :=
  C2_pass_partition ⟨[⟨-0x7fffffff, 40⟩, ⟨120, 150⟩, ⟨320, 0x7fffffff⟩, ⟨0, 0⟩], 3⟩ 0 200
    (by simp [SegsInv, intervals, INT_MAX, apart]) (by decide) (by decide) (by decide)

/-- C3. Coverage update of `R_ClipSolidWallSegment`: on a clip list that
satisfies the invariant, after a call with `first ≤ last` a column is covered
exactly when it was covered before or lies in `[first, last]` (the call returns
when `newend` is inside the array). Hence, after a reset and any sequence of
such calls, a later `R_ClipPassWallSegment` or `R_ClipSolidWallSegment` records
no wall range that contains a column of a range marked before. -/
theorem C3_solid_coverage (s : ClipState) (first last : Int) (hinv : ClipInv s)
    (hf : -0x7fffffff ≤ first) (hfl : first ≤ last) (hl : last ≤ 0x7fffffff) :
    (∀ s1 out, R_ClipSolidWallSegment s first last = some (s1, out) →
      ClipInv s1 ∧ ∀ c, covered (intervals s1.solidsegs) c ↔
        covered (intervals s.solidsegs) c ∨ (first ≤ c ∧ c ≤ last)) ∧
    (s.newend < s.solidsegs.length →
      ∃ s1 out, R_ClipSolidWallSegment s first last = some (s1, out)) ∧
    (∀ (W : Int) (s0 : ClipState) (calls : List (Int × Int)) (qfirst qlast : Int),
      1 ≤ W → W ≤ 0x7fffffff →
      (∀ c ∈ calls, -0x7fffffff ≤ c.1 ∧ c.1 ≤ c.2 ∧ c.2 ≤ 0x7fffffff) →
      -0x7fffffff ≤ qfirst → qfirst ≤ qlast → qlast ≤ 0x7fffffff →
      ∀ t1 t2 outs, R_ClearClipSegs W s0 = some t1 → runSolid t1 calls = some (t2, outs) →
        ∃ out, R_ClipPassWallSegment t2 qfirst qlast = some (t2, out) ∧
          (∀ t3 out1, R_ClipSolidWallSegment t2 qfirst qlast = some (t3, out1) → out1 = out) ∧
          ∀ c, emitted out c → ∀ call ∈ calls, ¬ (call.1 ≤ c ∧ c ≤ call.2)) := by
  refine ⟨?_, ?_, ?_⟩
  · intro s1 out h
    obtain ⟨-, h2, -, h4, -⟩ := solid_step_of_some s first last hinv hf hfl hl s1 out h
    refine ⟨h4, ?_⟩
    intro c
    rw [h2]
    exact mergeSolid_covered first last c hfl hl _ hinv.1.good
  · intro hcap
    obtain ⟨s1, h1, -⟩ := solid_step s first last hinv hcap hf hfl hl
    exact ⟨s1, _, h1⟩
  · intro W s0 calls qf ql hW hW2 hcalls hqf hqfl hql t1 t2 outs hclear hrun
    obtain ⟨-, -, -, hr1⟩ := clear_of_some W hW hW2 s0 t1 hclear
    obtain ⟨hr2, -, hcov⟩ := reach_run_of_some W calls t1 hr1 hcalls t2 outs hrun
    refine ⟨_, pass_step t2 qf ql hr2.1.1 hqf (by omega) hql, ?_, ?_⟩
    · intro t3 out1 h3
      exact (solid_step_of_some t2 qf ql hr2.1 hqf hqfl hql t3 out1 h3).1
    · intro c hc call hcall hin
      have hnc := emitted_not_covered qf ql hqfl hql _ hr2.1.1.good c hc
      exact hnc ((hcov c).2 (Or.inr ⟨call, hcall, hin⟩))

theorem C3_solid_coverage_witness :
    ∃ s1 out, R_ClipSolidWallSegment
        ⟨[⟨-0x7fffffff, -1⟩, ⟨10, 20⟩, ⟨320, 0x7fffffff⟩, ⟨0, 0⟩], 3⟩ 15 30 = some (s1, out) ∧
      ClipInv s1 ∧
      ∀ c, covered (intervals s1.solidsegs) c ↔
        covered (intervals [⟨-0x7fffffff, -1⟩, ⟨10, 20⟩, ⟨320, 0x7fffffff⟩, ⟨0, 0⟩]) c
          ∨ (15 ≤ c ∧ c ≤ 30) := by
  have h := C3_solid_coverage ⟨[⟨-0x7fffffff, -1⟩, ⟨10, 20⟩, ⟨320, 0x7fffffff⟩, ⟨0, 0⟩], 3⟩
    15 30 (by simp [ClipInv, SegsInv, intervals, INT_MAX, apart]) (by decide) (by decide)
    (by decide)
  obtain ⟨s1, out, h1⟩ := h.2.1 (by decide)
  exact ⟨s1, out, h1, h.1 s1 out h1⟩

/-- C4. `R_ClipPassWallSegment` never occludes: whenever a call returns, on any
clip list and any range, every entry of `solidsegs` and the cursor `newend` are
what they were; and it does return when the interval sequence satisfies the
invariant. -/
theorem C4_pass_frame (s : ClipState) (first last : Int) :
    (∀ s1 out, R_ClipPassWallSegment s first last = some (s1, out) →
      s1.solidsegs = s.solidsegs ∧ s1.newend = s.newend) ∧
    (SegsInv (intervals s.solidsegs) → -0x7fffffff ≤ first → first ≤ 0x7fffffff →
      last ≤ 0x7fffffff → ∃ out, R_ClipPassWallSegment s first last = some (s, out)) := by
  constructor
  · intro s1 out h
    unfold R_ClipPassWallSegment at h
    have key : s1 = s := by
      repeat' split at h
      all_goals first
        | (simp only [Option.some.injEq, Prod.mk.injEq] at h; exact h.1.symm)
        | simp at h
    subst key
    exact ⟨rfl, rfl⟩
  · intro hinv hf hf2 hl
    exact ⟨_, pass_step s first last hinv hf hf2 hl⟩

theorem C4_pass_frame_witness :
    R_ClearClipSegs 320 ⟨[⟨0, 0⟩, ⟨0, 0⟩, ⟨0, 0⟩], 0⟩
        = some ⟨[⟨-0x7fffffff, -1⟩, ⟨320, 0x7fffffff⟩, ⟨0, 0⟩], 2⟩ ∧
      R_ClipSolidWallSegment ⟨[⟨-0x7fffffff, -1⟩, ⟨320, 0x7fffffff⟩, ⟨0, 0⟩], 2⟩ 0 40
        = some (⟨[⟨-0x7fffffff, 40⟩, ⟨320, 0x7fffffff⟩, ⟨0, 0⟩], 2⟩, [(0, 40)]) ∧
      R_ClipPassWallSegment ⟨[⟨-0x7fffffff, 40⟩, ⟨320, 0x7fffffff⟩, ⟨0, 0⟩], 2⟩ 0 100
        = some (⟨[⟨-0x7fffffff, 40⟩, ⟨320, 0x7fffffff⟩, ⟨0, 0⟩], 2⟩, [(41, 100)]) ∧
      (([⟨-0x7fffffff, 40⟩, ⟨320, 0x7fffffff⟩, ⟨0, 0⟩] : List cliprange)
          = [⟨-0x7fffffff, 40⟩, ⟨320, 0x7fffffff⟩, ⟨0, 0⟩] ∧ (2 : Nat) = 2) :=
  ⟨by decide, by decide, by decide,
    (C4_pass_frame ⟨[⟨-0x7fffffff, 40⟩, ⟨320, 0x7fffffff⟩, ⟨0, 0⟩], 2⟩ 0 100).1
      ⟨[⟨-0x7fffffff, 40⟩, ⟨320, 0x7fffffff⟩, ⟨0, 0⟩], 2⟩ [(41, 100)] (by decide)⟩

/-- C5. The solid clipper records what the open-range query records: on a clip
list that satisfies the invariant, whenever `R_ClipSolidWallSegment(first, last)`
with `first ≤ last` returns, it has passed to `R_StoreWallRange` the pairs that
`R_ClipPassWallSegment(first, last)` passes from the same state, in the same
order; it returns when `newend` is inside the array. -/
theorem C5_solid_emits_as_pass (s : ClipState) (first last : Int) (hinv : ClipInv s)
    (hf : -0x7fffffff ≤ first) (hfl : first ≤ last) (hl : last ≤ 0x7fffffff) :
    (∀ s1 out, R_ClipSolidWallSegment s first last = some (s1, out) →
      R_ClipPassWallSegment s first last = some (s, out)) ∧
    (s.newend < s.solidsegs.length →
      ∃ s1 out, R_ClipSolidWallSegment s first last = some (s1, out)) := by
  constructor
  · intro s1 out h
    rw [(solid_step_of_some s first last hinv hf hfl hl s1 out h).1]
    exact pass_step s first last hinv.1 hf (by omega) hl
  · intro hcap
    obtain ⟨s1, h1, -⟩ := solid_step s first last hinv hcap hf hfl hl
    exact ⟨s1, _, h1⟩

theorem C5_solid_emits_as_pass_witness :
    ∃ s1 out, R_ClipSolidWallSegment
        ⟨[⟨-0x7fffffff, -1⟩, ⟨10, 20⟩, ⟨30, 40⟩, ⟨320, 0x7fffffff⟩, ⟨0, 0⟩], 4⟩ 5 100
        = some (s1, out) ∧
      R_ClipPassWallSegment
        ⟨[⟨-0x7fffffff, -1⟩, ⟨10, 20⟩, ⟨30, 40⟩, ⟨320, 0x7fffffff⟩, ⟨0, 0⟩], 4⟩ 5 100
        = some (⟨[⟨-0x7fffffff, -1⟩, ⟨10, 20⟩, ⟨30, 40⟩, ⟨320, 0x7fffffff⟩, ⟨0, 0⟩], 4⟩, out) := by
  have h := C5_solid_emits_as_pass
    ⟨[⟨-0x7fffffff, -1⟩, ⟨10, 20⟩, ⟨30, 40⟩, ⟨320, 0x7fffffff⟩, ⟨0, 0⟩], 4⟩ 5 100
    (by simp [ClipInv, SegsInv, intervals, INT_MAX, apart]) (by decide) (by decide) (by decide)
  obtain ⟨s1, out, h1⟩ := h.2 (by decide)
  exact ⟨s1, out, h1, h.1 s1 out h1⟩

/-- C6. Idempotence of `R_ClipSolidWallSegment`: on a clip list that satisfies
the invariant, after a call with `first ≤ last` has returned, a second call with
the same range leaves the whole clip list (array and `newend`) as the first call
left it and records no wall range; the first call returns when `newend` is
inside the array. -/
theorem C6_solid_idempotent (s : ClipState) (first last : Int) (hinv : ClipInv s)
    (hf : -0x7fffffff ≤ first) (hfl : first ≤ last) (hl : last ≤ 0x7fffffff) :
    (∀ s1 out, R_ClipSolidWallSegment s first last = some (s1, out) →
      R_ClipSolidWallSegment s1 first last = some (s1, [])) ∧
    (s.newend < s.solidsegs.length →
      ∃ s1 out, R_ClipSolidWallSegment s first last = some (s1, out)) := by
  constructor
  · intro s1 out h
    obtain ⟨-, h2, -, h4, -⟩ := solid_step_of_some s first last hinv hf hfl hl s1 out h
    have hcov : ∀ c, first ≤ c → c ≤ last → covered (intervals s1.solidsegs) c := by
      intro c hc1 hc2
      rw [h2]
      exact (mergeSolid_covered first last c hfl hl _ hinv.1.good).2 (Or.inr ⟨hc1, hc2⟩)
    obtain ⟨e, he, he1, he2⟩ := covered_range_single h4.1.good hfl hcov
    exact (solid_noop s1 first last h4.1 hf (by omega) e he he1 he2 (by omega)).1
  · intro hcap
    obtain ⟨s1, h1, -⟩ := solid_step s first last hinv hcap hf hfl hl
    exact ⟨s1, _, h1⟩

theorem C6_solid_idempotent_witness :
    ∃ s1 out, R_ClipSolidWallSegment
        ⟨[⟨-0x7fffffff, -1⟩, ⟨10, 20⟩, ⟨30, 40⟩, ⟨320, 0x7fffffff⟩, ⟨0, 0⟩], 4⟩ 15 35
        = some (s1, out) ∧
      R_ClipSolidWallSegment s1 15 35 = some (s1, []) := by
  have h := C6_solid_idempotent
    ⟨[⟨-0x7fffffff, -1⟩, ⟨10, 20⟩, ⟨30, 40⟩, ⟨320, 0x7fffffff⟩, ⟨0, 0⟩], 4⟩ 15 35
    (by simp [ClipInv, SegsInv, intervals, INT_MAX, apart]) (by decide) (by decide) (by decide)
  obtain ⟨s1, out, h1⟩ := h.2 (by decide)
  exact ⟨s1, out, h1, h.1 s1 out h1⟩

/-- C7. Order invariance: on a clip list that satisfies the invariant, for two
ranges `[a1, a2]` and `[b1, b2]` with `a1 ≤ a2 < b1 ≤ b2` (touching included),
marking the first and then the second leaves the same interval sequence
(`solidsegs[0]` through the right sentinel) as marking the second and then the
first, whenever the four calls return; they return when the array has room for
two more entries. -/
theorem C7_solid_order (s : ClipState) (a1 a2 b1 b2 : Int) (hinv : ClipInv s)
    (ha : -0x7fffffff ≤ a1) (hab : a1 ≤ a2 ∧ a2 < b1 ∧ b1 ≤ b2) (hb : b2 ≤ 0x7fffffff) :
    (∀ sA oA sAB oAB sB oB sBA oBA,
      R_ClipSolidWallSegment s a1 a2 = some (sA, oA) →
      R_ClipSolidWallSegment sA b1 b2 = some (sAB, oAB) →
      R_ClipSolidWallSegment s b1 b2 = some (sB, oB) →
      R_ClipSolidWallSegment sB a1 a2 = some (sBA, oBA) →
      intervals sAB.solidsegs = intervals sBA.solidsegs) ∧
    (s.newend + 1 < s.solidsegs.length →
      ∃ sA oA sAB oAB sB oB sBA oBA,
        R_ClipSolidWallSegment s a1 a2 = some (sA, oA) ∧
        R_ClipSolidWallSegment sA b1 b2 = some (sAB, oAB) ∧
        R_ClipSolidWallSegment s b1 b2 = some (sB, oB) ∧
        R_ClipSolidWallSegment sB a1 a2 = some (sBA, oBA)) := by
  obtain ⟨h1, h2, h3⟩ := hab
  constructor
  · intro sA oA sAB oAB sB oB sBA oBA rA rAB rB rBA
    obtain ⟨-, ivA, -, invA, -⟩ :=
      solid_step_of_some s a1 a2 hinv ha h1 (by omega) sA oA rA
    obtain ⟨-, ivAB, -, invAB, -⟩ :=
      solid_step_of_some sA b1 b2 invA (by omega) h3 hb sAB oAB rAB
    obtain ⟨-, ivB, -, invB, -⟩ :=
      solid_step_of_some s b1 b2 hinv (by omega) h3 hb sB oB rB
    obtain ⟨-, ivBA, -, invBA, -⟩ :=
      solid_step_of_some sB a1 a2 invB ha h1 (by omega) sBA oBA rBA
    apply inv_ext _ _ invAB.1.good invBA.1.good
    intro c
    rw [ivAB, mergeSolid_covered b1 b2 c h3 hb _ invA.1.good, ivA,
      mergeSolid_covered a1 a2 c h1 (by omega) _ hinv.1.good,
      ivBA, mergeSolid_covered a1 a2 c h1 (by omega) _ invB.1.good, ivB,
      mergeSolid_covered b1 b2 c h3 hb _ hinv.1.good]
    tauto
  · intro hcap
    obtain ⟨sA, rA, -, lenA, invA, neA⟩ :=
      solid_step_newend s a1 a2 hinv (by omega) ha h1 (by omega)
    obtain ⟨sAB, rAB, -⟩ :=
      solid_step_newend sA b1 b2 invA (by omega) (by omega) h3 hb
    obtain ⟨sB, rB, -, lenB, invB, neB⟩ :=
      solid_step_newend s b1 b2 hinv (by omega) (by omega) h3 hb
    obtain ⟨sBA, rBA, -⟩ :=
      solid_step_newend sB a1 a2 invB (by omega) ha h1 (by omega)
    exact ⟨sA, _, sAB, _, sB, _, sBA, _, rA, rAB, rB, rBA⟩

theorem C7_solid_order_witness :
    ∃ sA oA sAB oAB sB oB sBA oBA,
      R_ClipSolidWallSegment
        ⟨[⟨-0x7fffffff, -1⟩, ⟨10, 10⟩, ⟨20, 0x7fffffff⟩, ⟨0, 0⟩, ⟨0, 0⟩], 3⟩ 8 8
        = some (sA, oA) ∧
      R_ClipSolidWallSegment sA 9 9 = some (sAB, oAB) ∧
      R_ClipSolidWallSegment
        ⟨[⟨-0x7fffffff, -1⟩, ⟨10, 10⟩, ⟨20, 0x7fffffff⟩, ⟨0, 0⟩, ⟨0, 0⟩], 3⟩ 9 9
        = some (sB, oB) ∧
      R_ClipSolidWallSegment sB 8 8 = some (sBA, oBA) ∧
      intervals sAB.solidsegs = intervals sBA.solidsegs := by
  have h := C7_solid_order
    ⟨[⟨-0x7fffffff, -1⟩, ⟨10, 10⟩, ⟨20, 0x7fffffff⟩, ⟨0, 0⟩, ⟨0, 0⟩], 3⟩ 8 8 9 9
    (by simp [ClipInv, SegsInv, intervals, INT_MAX, apart]) (by decide) (by decide) (by decide)
  obtain ⟨sA, oA, sAB, oAB, sB, oB, sBA, oBA, rA, rAB, rB, rBA⟩ := h.2 (by decide)
  exact ⟨sA, oA, sAB, oAB, sB, oB, sBA, oBA, rA, rAB, rB, rBA,
    h.1 sA oA sAB oAB sB oB sBA oBA rA rAB rB rBA⟩

/-- C8. A full-screen occluder culls everything: for every width `W ≥ 1`, once
`R_ClearClipSegs` and `R_ClipSolidWallSegment(0, W - 1)` have returned, the call
has recorded `(0, W - 1)`, the interval sequence is the single interval
`[-0x7fffffff, 0x7fffffff]`, and from then on every call of either clipper
leaves the clip list as it is and records no wall range, and so does every
`R_AddLine`, on any segment and in any state of the other globals, and every
sequence of `R_AddLine` calls. The two calls return when the array has at
least 3 entries. -/
theorem C8_full_screen_culls (W : Int) (s0 : ClipState) (hW : 1 ≤ W) (hW2 : W ≤ 0x7fffffff) :
    (∀ s1 s2 out0, R_ClearClipSegs W s0 = some s1 →
      R_ClipSolidWallSegment s1 0 (W - 1) = some (s2, out0) →
      out0 = [(0, W - 1)] ∧
      intervals s2.solidsegs = [⟨-0x7fffffff, 0x7fffffff⟩] ∧
      (∀ first last : Int, -0x7fffffff ≤ first → first ≤ 0x7fffffff → last ≤ 0x7fffffff →
        R_ClipSolidWallSegment s2 first last = some (s2, []) ∧
        R_ClipPassWallSegment s2 first last = some (s2, [])) ∧
      (∀ (v : View) (rs : RenderState) (line : seg), rs.clip = s2 →
        (∀ i, -0x7fffffff ≤ v.viewangletox i ∧ v.viewangletox i ≤ 0x7fffffff) →
        (∀ rs1 out, R_AddLine v rs line = some (rs1, out) → rs1.clip = s2 ∧ out = []) ∧
        ((∀ b, line.backsector = some b → b < rs.sectors.length ∧
            rs.frontsector < rs.sectors.length) →
          ∃ rs1, R_AddLine v rs line = some (rs1, []) ∧ rs1.clip = s2)) ∧
      (∀ (v : View) (rs : RenderState) (lines : List seg), rs.clip = s2 →
        (∀ i, -0x7fffffff ≤ v.viewangletox i ∧ v.viewangletox i ≤ 0x7fffffff) →
        ∀ rs1 out, addLines v rs lines = some (rs1, out) → rs1.clip = s2 ∧ out = [])) ∧
    (3 ≤ s0.solidsegs.length →
      ∃ s1 s2 out0, R_ClearClipSegs W s0 = some s1 ∧
        R_ClipSolidWallSegment s1 0 (W - 1) = some (s2, out0)) := by
  constructor
  · intro s1 s2 out0 hclear hsolid
    obtain ⟨hiv1, -, -, hr1⟩ := clear_of_some W hW hW2 s0 s1 hclear
    obtain ⟨hout, hiv2, -, hinv2, -⟩ :=
      solid_step_of_some s1 0 (W - 1) hr1.1 (by norm_num) (by omega) (by omega) s2 out0 hsolid
    rw [hiv1, (merge_full W hW hW2).1] at hiv2
    rw [hiv1, (merge_full W hW hW2).2] at hout
    have hno : ∀ f l : Int, -2147483647 ≤ f → f ≤ 2147483647 → l ≤ 2147483647 →
        R_ClipSolidWallSegment s2 f l = some (s2, []) ∧
        R_ClipPassWallSegment s2 f l = some (s2, []) := by
      intro f l hf hf2 hl
      exact solid_noop s2 f l hinv2.1 hf hf2 ⟨-2147483647, 2147483647⟩ (by rw [hiv2]; simp)
        (by simpa using hf) (by simpa using hl) (by simp; omega)
    refine ⟨hout, hiv2, hno, ?_, ?_⟩
    · intro v rs line hc htab
      have := addLine_blocked v rs line (by rw [hc]; exact hno) htab
      rw [hc] at this
      exact this
    · intro v rs lines hc htab rs1 out h
      exact addLines_blocked v s2 hno htab lines rs rs1 out hc h
  · intro hcap
    obtain ⟨s1, hclear, -, hne1, hlen1, hr1⟩ := clear_reach W hW hW2 s0 (by omega)
    obtain ⟨s2, hsolid, -⟩ :=
      solid_step s1 0 (W - 1) hr1.1 (by omega) (by norm_num) (by omega) (by omega)
    exact ⟨s1, s2, _, hclear, hsolid⟩

theorem C8_full_screen_culls_witness :
    ∃ s1 s2, R_ClearClipSegs 320 ⟨[⟨0, 0⟩, ⟨0, 0⟩, ⟨0, 0⟩], 0⟩ = some s1 ∧
      R_ClipSolidWallSegment s1 0 (320 - 1) = some (s2, [(0, 320 - 1)]) ∧
      intervals s2.solidsegs = [⟨-0x7fffffff, 0x7fffffff⟩] ∧
      R_ClipSolidWallSegment s2 100 200 = some (s2, []) ∧
      R_ClipPassWallSegment s2 0 319 = some (s2, []) ∧
      ∃ rs1, R_AddLine exView (exRender s2) exLine = some (rs1, []) ∧ rs1.clip = s2 := by
  have h := C8_full_screen_culls 320 ⟨[⟨0, 0⟩, ⟨0, 0⟩, ⟨0, 0⟩], 0⟩ (by decide) (by decide)
  obtain ⟨s1, s2, out0, h1, h2⟩ := h.2 (by decide)
  obtain ⟨h3, h4, h5, h6, -⟩ := h.1 s1 s2 out0 h1 h2
  subst h3
  refine ⟨s1, s2, h1, h2, h4, (h5 100 200 (by decide) (by decide) (by decide)).1,
    (h5 0 319 (by decide) (by decide) (by decide)).2, ?_⟩
  exact (h6 exView (exRender s2) exLine rfl (by
    intro i
    simp only [exView]
    split_ifs <;> decide)).2 (by intro b hb; simp [exLine] at hb)

/-- C9, as stated, fails: with width `W = 3` the single call
`R_ClipSolidWallSegment(1, 1)` after the reset leaves `newend = 3`, above
`W / 2 + 1 = 2`. -/
theorem C9_counterexample :
    R_ClearClipSegs 3 ⟨[⟨0, 0⟩, ⟨0, 0⟩, ⟨0, 0⟩, ⟨0, 0⟩], 0⟩
        = some ⟨[⟨-0x7fffffff, -1⟩, ⟨3, 0x7fffffff⟩, ⟨0, 0⟩, ⟨0, 0⟩], 2⟩ ∧
      runSolid ⟨[⟨-0x7fffffff, -1⟩, ⟨3, 0x7fffffff⟩, ⟨0, 0⟩, ⟨0, 0⟩], 2⟩ [(1, 1)]
        = some (⟨[⟨-0x7fffffff, -1⟩, ⟨1, 1⟩, ⟨3, 0x7fffffff⟩, ⟨0, 0⟩], 3⟩, [[(1, 1)]]) ∧
      (0 : Int) ≤ 1 ∧ (1 : Int) ≤ 3 - 1 ∧ ¬ ((3 : Int) ≤ 3 / 2 + 1) := by
  decide

/-- C9, amended. For every width `W ≥ 1` and every sequence of
`R_ClipSolidWallSegment` calls with `0 ≤ first ≤ last ≤ W - 1` after
`R_ClearClipSegs`, whenever the calls return `newend - solidsegs` is at most
`(W + 1) / 2 + 1`; for an even `W` this is `W / 2 + 1`, the formula of
`MAXSEGS`. The calls all return when `W + 4 ≤ 2 * MAXSEGS`. -/
theorem C9_interval_count (W : Int) (s0 : ClipState) (calls : List (Int × Int))
    (hW : 1 ≤ W) (hW2 : W ≤ 0x7fffffff)
    (hcalls : ∀ c ∈ calls, 0 ≤ c.1 ∧ c.1 ≤ c.2 ∧ c.2 ≤ W - 1) :
    (∀ s1 s2 outs, R_ClearClipSegs W s0 = some s1 → runSolid s1 calls = some (s2, outs) →
      (s2.newend : Int) ≤ (W + 1) / 2 + 1 ∧ (W % 2 = 0 → (s2.newend : Int) ≤ W / 2 + 1)) ∧
    (W + 4 ≤ 2 * (s0.solidsegs.length : Int) →
      ∃ s1 s2 outs, R_ClearClipSegs W s0 = some s1 ∧ runSolid s1 calls = some (s2, outs)) := by
  have hcalls' : ∀ c ∈ calls, -2147483647 ≤ c.1 ∧ c.1 ≤ c.2 ∧ c.2 ≤ 2147483647 := by
    intro c hc
    have := hcalls c hc
    omega
  constructor
  · intro s1 s2 outs hclear hrun
    obtain ⟨-, -, -, hr1⟩ := clear_of_some W hW hW2 s0 s1 hclear
    obtain ⟨hr2, -, -⟩ := reach_run_of_some W calls s1 hr1 hcalls' s2 outs hrun
    have := hr2.newend_le
    exact ⟨by omega, by intro; omega⟩
  · intro hcap
    obtain ⟨s1, hclear, -, -, hlen1, hr1⟩ := clear_reach W hW hW2 s0 (by omega)
    obtain ⟨s2, outs, hrun, -⟩ :=
      reach_run W calls s1 hr1 (by rw [hlen1]; exact hcap) hcalls'
    exact ⟨s1, s2, outs, hclear, hrun⟩

theorem C9_interval_count_witness :
    ∃ s1 s2 outs, R_ClearClipSegs 8 ⟨List.replicate 6 ⟨0, 0⟩, 0⟩ = some s1 ∧
      runSolid s1 [(1, 1), (3, 3), (5, 5), (2, 2)] = some (s2, outs) ∧
      (s2.newend : Int) ≤ (8 + 1) / 2 + 1 ∧ (s2.newend : Int) ≤ 8 / 2 + 1 := by
  have h := C9_interval_count 8 ⟨List.replicate 6 ⟨0, 0⟩, 0⟩ [(1, 1), (3, 3), (5, 5), (2, 2)]
    (by decide) (by decide) (by decide)
  obtain ⟨s1, s2, outs, h1, h2⟩ := h.2 (by decide)
  obtain ⟨a, b⟩ := h.1 s1 s2 outs h1 h2
  exact ⟨s1, s2, outs, h1, h2, a, b (by decide)⟩

/-- C10, as stated, fails: with a width of 3 and `MAXSEGS = 3 / 2 + 1 = 2`, the
one-sided segment of `exLevel` makes `R_AddLine` call
`R_ClipSolidWallSegment(1, 1)`, which needs a third interval. The call stores it
past the end of `solidsegs` (no result in the embedding) and `R_Subsector` ends
in that access, not in `I_Error`; with one more entry in the array the same call
returns with `newend = 3` and `R_Subsector` returns normally. -/
theorem C10_counterexample :
    R_ClearClipSegs 3 ⟨[⟨0, 0⟩, ⟨0, 0⟩], 0⟩
        = some ⟨[⟨-0x7fffffff, -1⟩, ⟨3, 0x7fffffff⟩], 2⟩ ∧
      R_ClipSolidWallSegment ⟨[⟨-0x7fffffff, -1⟩, ⟨3, 0x7fffffff⟩], 2⟩ 1 1 = none ∧
      R_Subsector exView (exLevel false) (exRender ⟨[⟨-0x7fffffff, -1⟩, ⟨3, 0x7fffffff⟩], 2⟩) 0
        = Outcome.fault ∧
      R_ClipSolidWallSegment ⟨[⟨-0x7fffffff, -1⟩, ⟨3, 0x7fffffff⟩, ⟨0, 0⟩], 2⟩ 1 1
        = some (⟨[⟨-0x7fffffff, -1⟩, ⟨1, 1⟩, ⟨3, 0x7fffffff⟩], 3⟩, [(1, 1)]) ∧
      (∃ rs, R_Subsector exView (exLevel false)
          (exRender ⟨[⟨-0x7fffffff, -1⟩, ⟨3, 0x7fffffff⟩, ⟨0, 0⟩], 2⟩) 0
        = Outcome.done (rs, [(1, 1)]) ∧ rs.clip.newend = 3) := by
  refine ⟨by decide, by decide, by decide, by decide, ?_⟩
  exact ⟨{ exRender ⟨[⟨-0x7fffffff, -1⟩, ⟨1, 1⟩, ⟨3, 0x7fffffff⟩], 3⟩ with
      curline := some exLine, rw_angle1 := 0x10000000, ceilingplane := some 0,
      sscount := 1, sprites := [0] }, by decide, by decide⟩

/-- C10, amended. No capacity error is raised: the overflow test of
`R_Subsector` (line 508) is switched off by `&& false`, so `R_Subsector` ends in
`I_Error` only through the `RANGECHECK` test on the subsector number, whatever
`newend` is. What keeps the clip list inside `solidsegs` is the size of the
array: after a reset of width `W ≥ 1` with `W + 4 ≤ 2 * MAXSEGS`, every sequence
of `R_ClipSolidWallSegment` calls returns, with `newend` inside the array. -/
theorem C10_no_capacity_error (v : View) (lv : Level) (rs : RenderState) (num : Int)
    (msg : String) (h : R_Subsector v lv rs num = Outcome.I_Error msg) :
    (lv.RANGECHECK = true ∧ num ≥ lv.numsubsectors ∧
      msg = "R_Subsector: ss %i with numss = %i") ∧
    (∀ (W : Int) (s0 : ClipState) (calls : List (Int × Int)),
      1 ≤ W → W ≤ 0x7fffffff → W + 4 ≤ 2 * (s0.solidsegs.length : Int) →
      (∀ c ∈ calls, -0x7fffffff ≤ c.1 ∧ c.1 ≤ c.2 ∧ c.2 ≤ 0x7fffffff) →
      ∃ s1 s2 outs, R_ClearClipSegs W s0 = some s1 ∧ runSolid s1 calls = some (s2, outs) ∧
        s2.newend < s2.solidsegs.length) := by
  constructor
  · unfold R_Subsector at h
    simp only [overflowTest_false, Bool.false_eq_true, if_false] at h
    repeat' split at h
    all_goals first
      | (simp only [Outcome.I_Error.injEq] at h
         rename_i hc
         exact ⟨hc.1, hc.2, h.symm⟩)
      | simp at h
  · intro W s0 calls hW hW2 hcap hcalls
    obtain ⟨s1, hclear, -, -, hlen1, hr1⟩ := clear_reach W hW hW2 s0 (by omega)
    obtain ⟨s2, outs, hrun, hr2, hlen2, -⟩ :=
      reach_run W calls s1 hr1 (by rw [hlen1]; exact hcap) hcalls
    have := hr2.newend_le
    exact ⟨s1, s2, outs, hclear, hrun, by rw [hlen2, hlen1]; omega⟩

theorem C10_no_capacity_error_witness :
    R_Subsector exView (exLevel true) (exRender ⟨[⟨-0x7fffffff, -1⟩, ⟨3, 0x7fffffff⟩], 2⟩) 1
        = Outcome.I_Error "R_Subsector: ss %i with numss = %i" ∧
      ((exLevel true).RANGECHECK = true ∧ (1 : Int) ≥ (exLevel true).numsubsectors ∧
        "R_Subsector: ss %i with numss = %i" = "R_Subsector: ss %i with numss = %i") :=
  ⟨by decide,
    (C10_no_capacity_error exView (exLevel true)
      (exRender ⟨[⟨-0x7fffffff, -1⟩, ⟨3, 0x7fffffff⟩], 2⟩) 1
      "R_Subsector: ss %i with numss = %i" (by decide)).1⟩

/-! ## `R_AddLine` step by step -/

theorem addLine_survives (v : View) (rs : RenderState) (line : seg) (a1 a2 : Nat)
    (hspan : lineSpan v line < v.ANG180)
    (h1 : clipAngle1 v (u32 (lineAngle1 v line - v.viewangle)) (lineSpan v line) = some a1)
    (h2 : clipAngle2 v (u32 (lineAngle2 v line - v.viewangle)) (lineSpan v line) = some a2)
    (hx : angleColumn v a1 ≠ angleColumn v a2) :
    R_AddLine v rs line =
      addLineClip v { rs with curline := some line, rw_angle1 := lineAngle1 v line } line
        (angleColumn v a1) (angleColumn v a2) := by
  unfold lineSpan lineAngle1 lineAngle2 at *
  unfold angleColumn angleIndex at *
  unfold R_AddLine
  simp only [ge_iff_le, not_le.2 hspan, if_false, h1, h2, hx]

/-- C12: a segment that `R_AddLine` culls has no effect on the clip list. When
the span `angle1 - angle2` (mod 2^32) is at least `ANG180`, or the first or the
second field-of-view check rejects the segment, or the two clipped angles map
to the same column, `R_AddLine` returns, records no call of `R_StoreWallRange`
and leaves `solidsegs` and `newend` (and the sector array) as they were. -/
theorem C12_culled_no_effect (v : View) (rs : RenderState) (line : seg)
    (h : v.ANG180 ≤ lineSpan v line
      ∨ clipAngle1 v (u32 (lineAngle1 v line - v.viewangle)) (lineSpan v line) = none
      ∨ clipAngle2 v (u32 (lineAngle2 v line - v.viewangle)) (lineSpan v line) = none
      ∨ ∃ a1 a2,
          clipAngle1 v (u32 (lineAngle1 v line - v.viewangle)) (lineSpan v line) = some a1 ∧
          clipAngle2 v (u32 (lineAngle2 v line - v.viewangle)) (lineSpan v line) = some a2 ∧
          angleColumn v a1 = angleColumn v a2) :
    ∃ rs1, R_AddLine v rs line = some (rs1, []) ∧ rs1.clip = rs.clip
      ∧ rs1.sectors = rs.sectors := by
  unfold lineSpan lineAngle1 lineAngle2 at *
  unfold angleColumn angleIndex at *
  unfold R_AddLine
  by_cases hs : v.ANG180 ≤ u32 (↑(u32 ↑(v.R_PointToAngleCrispy line.v1.r_x line.v1.r_y))
      - ↑(u32 ↑(v.R_PointToAngleCrispy line.v2.r_x line.v2.r_y)))
  · simp only [ge_iff_le, hs, if_true]
    exact ⟨_, rfl, rfl, rfl⟩
  · simp only [ge_iff_le, hs, if_false]
    rcases h with h | h | h | ⟨a1, a2, h1, h2, hx⟩
    · exact absurd h hs
    · simp only [h]
      exact ⟨_, rfl, rfl, rfl⟩
    · simp only [h]
      split <;> exact ⟨_, rfl, rfl, rfl⟩
    · simp only [h1, h2, hx, if_true]
      exact ⟨_, rfl, rfl, rfl⟩

/-- C12, witness: a segment seen from behind (span `0xE0000000`) in the example view. -/
theorem C12_culled_no_effect_witness :
    exView.ANG180 ≤ lineSpan exView ⟨⟨1, 0⟩, ⟨0, 0⟩, 0, none⟩ ∧
    ∃ rs1, R_AddLine exView (exRender ⟨[⟨-0x7fffffff, -1⟩, ⟨320, 0x7fffffff⟩, ⟨0, 0⟩], 2⟩)
        ⟨⟨1, 0⟩, ⟨0, 0⟩, 0, none⟩ = some (rs1, [])
      ∧ rs1.clip = (exRender ⟨[⟨-0x7fffffff, -1⟩, ⟨320, 0x7fffffff⟩, ⟨0, 0⟩], 2⟩).clip
      ∧ rs1.sectors = (exRender ⟨[⟨-0x7fffffff, -1⟩, ⟨320, 0x7fffffff⟩, ⟨0, 0⟩], 2⟩).sectors :=
  ⟨by decide, C12_culled_no_effect exView _ ⟨⟨1, 0⟩, ⟨0, 0⟩, 0, none⟩ (Or.inl (by decide))⟩

/-- C11: the decision table of `R_AddLine`. For a segment that survives the
back-face test, both field-of-view checks and the same-column test, with
columns `x1 ≠ x2`: without a back sector `R_AddLine` is the call
`R_ClipSolidWallSegment(x1, x2 - 1)`; with a back sector (interpolated first),
the label reached is `clipsolid` exactly when the back ceiling is at or below
the front floor or the back floor at or above the front ceiling, otherwise
`clippass` exactly when a height, `ceilingpic`, `floorpic`, `rlightlevel` or
`special` differs or `midtexture` is not 0, otherwise neither; and `R_AddLine`
is the call of `R_ClipSolidWallSegment(x1, x2 - 1)`, of
`R_ClipPassWallSegment(x1, x2 - 1)`, or no call at all (no wall range, clip
list unchanged) accordingly. -/
theorem C11_decision_table (v : View) (rs : RenderState) (line : seg) (a1 a2 : Nat)
    (hspan : lineSpan v line < v.ANG180)
    (h1 : clipAngle1 v (u32 (lineAngle1 v line - v.viewangle)) (lineSpan v line) = some a1)
    (h2 : clipAngle2 v (u32 (lineAngle2 v line - v.viewangle)) (lineSpan v line) = some a2)
    (hx : angleColumn v a1 ≠ angleColumn v a2) :
    (line.backsector = none →
      R_AddLine v rs line =
        (R_ClipSolidWallSegment rs.clip (angleColumn v a1) (int32 (angleColumn v a2 - 1))).map
          (fun p => ({ rs with curline := some line, rw_angle1 := lineAngle1 v line,
                               backsector := none, clip := p.1 }, p.2))) ∧
    (∀ b back0 front, line.backsector = some b → rs.sectors[b]? = some back0 →
      (rs.sectors.set b (R_CheckInterpolateSector v back0))[rs.frontsector]? = some front →
      (classify front (R_CheckInterpolateSector v back0) line.midtexture = LineKind.clipsolid ↔
        ((R_CheckInterpolateSector v back0).interpceilingheight ≤ front.interpfloorheight
          ∨ (R_CheckInterpolateSector v back0).interpfloorheight ≥ front.interpceilingheight)) ∧
      (classify front (R_CheckInterpolateSector v back0) line.midtexture = LineKind.clippass ↔
        (¬ ((R_CheckInterpolateSector v back0).interpceilingheight ≤ front.interpfloorheight
          ∨ (R_CheckInterpolateSector v back0).interpfloorheight ≥ front.interpceilingheight) ∧
         ((R_CheckInterpolateSector v back0).interpfloorheight ≠ front.interpfloorheight
          ∨ (R_CheckInterpolateSector v back0).interpceilingheight ≠ front.interpceilingheight
          ∨ (R_CheckInterpolateSector v back0).ceilingpic ≠ front.ceilingpic
          ∨ (R_CheckInterpolateSector v back0).floorpic ≠ front.floorpic
          ∨ (R_CheckInterpolateSector v back0).rlightlevel ≠ front.rlightlevel
          ∨ (R_CheckInterpolateSector v back0).special ≠ front.special
          ∨ line.midtexture ≠ 0))) ∧
      (classify front (R_CheckInterpolateSector v back0) line.midtexture = LineKind.reject ↔
        (¬ ((R_CheckInterpolateSector v back0).interpceilingheight ≤ front.interpfloorheight
          ∨ (R_CheckInterpolateSector v back0).interpfloorheight ≥ front.interpceilingheight) ∧
         ¬ ((R_CheckInterpolateSector v back0).interpfloorheight ≠ front.interpfloorheight
          ∨ (R_CheckInterpolateSector v back0).interpceilingheight ≠ front.interpceilingheight
          ∨ (R_CheckInterpolateSector v back0).ceilingpic ≠ front.ceilingpic
          ∨ (R_CheckInterpolateSector v back0).floorpic ≠ front.floorpic
          ∨ (R_CheckInterpolateSector v back0).rlightlevel ≠ front.rlightlevel
          ∨ (R_CheckInterpolateSector v back0).special ≠ front.special
          ∨ line.midtexture ≠ 0))) ∧
      (classify front (R_CheckInterpolateSector v back0) line.midtexture = LineKind.clipsolid →
        R_AddLine v rs line =
          (R_ClipSolidWallSegment rs.clip (angleColumn v a1)
              (int32 (angleColumn v a2 - 1))).map
            (fun p => ({ rs with curline := some line, rw_angle1 := lineAngle1 v line,
                                 backsector := some b,
                                 sectors := rs.sectors.set b (R_CheckInterpolateSector v back0),
                                 clip := p.1 }, p.2))) ∧
      (classify front (R_CheckInterpolateSector v back0) line.midtexture = LineKind.clippass →
        R_AddLine v rs line =
          (R_ClipPassWallSegment rs.clip (angleColumn v a1)
              (int32 (angleColumn v a2 - 1))).map
            (fun p => ({ rs with curline := some line, rw_angle1 := lineAngle1 v line,
                                 backsector := some b,
                                 sectors := rs.sectors.set b (R_CheckInterpolateSector v back0),
                                 clip := p.1 }, p.2))) ∧
      (classify front (R_CheckInterpolateSector v back0) line.midtexture = LineKind.reject →
        R_AddLine v rs line =
          some ({ rs with curline := some line, rw_angle1 := lineAngle1 v line,
                          backsector := some b,
                          sectors := rs.sectors.set b (R_CheckInterpolateSector v back0) },
                []))) := by
  rw [addLine_survives v rs line a1 a2 hspan h1 h2 hx]
  refine ⟨?_, ?_⟩
  · intro hb
    simp only [addLineClip, hb]
    cases R_ClipSolidWallSegment rs.clip (angleColumn v a1) (int32 (angleColumn v a2 - 1)) with
    | none => rfl
    | some p => rfl
  · intro b back0 front hb hback hfront
    refine ⟨?_, ?_, ?_, ?_, ?_, ?_⟩
    · unfold classify
      split_ifs <;> simp_all
    · unfold classify
      split_ifs <;> simp_all <;> tauto
    · unfold classify
      split_ifs <;> simp_all
      tauto
    · intro hk
      simp only [addLineClip, hb, hback, hfront, hk]
      cases R_ClipSolidWallSegment rs.clip (angleColumn v a1) (int32 (angleColumn v a2 - 1)) with
      | none => rfl
      | some p => rfl
    · intro hk
      simp only [addLineClip, hb, hback, hfront, hk]
      cases R_ClipPassWallSegment rs.clip (angleColumn v a1) (int32 (angleColumn v a2 - 1)) with
      | none => rfl
      | some p => rfl
    · intro hk
      simp only [addLineClip, hb, hback, hfront, hk]

/-- C11, witness: in the example view a two-sided segment whose back sector is
the front sector itself, with no middle texture, reaches neither clipper. -/
theorem C11_decision_table_witness :
    lineSpan exView ⟨⟨0, 0⟩, ⟨1, 0⟩, 0, some 0⟩ < exView.ANG180 ∧
    clipAngle1 exView (u32 (lineAngle1 exView ⟨⟨0, 0⟩, ⟨1, 0⟩, 0, some 0⟩ - exView.viewangle))
      (lineSpan exView ⟨⟨0, 0⟩, ⟨1, 0⟩, 0, some 0⟩) = some 0x10000000 ∧
    clipAngle2 exView (u32 (lineAngle2 exView ⟨⟨0, 0⟩, ⟨1, 0⟩, 0, some 0⟩ - exView.viewangle))
      (lineSpan exView ⟨⟨0, 0⟩, ⟨1, 0⟩, 0, some 0⟩) = some 0xF0000000 ∧
    angleColumn exView 0x10000000 ≠ angleColumn exView 0xF0000000 ∧
    classify exSector (R_CheckInterpolateSector exView exSector) 0 = LineKind.reject ∧
    R_AddLine exView (exRender ⟨[⟨-0x7fffffff, -1⟩, ⟨320, 0x7fffffff⟩, ⟨0, 0⟩], 2⟩)
        ⟨⟨0, 0⟩, ⟨1, 0⟩, 0, some 0⟩ =
      some ({ exRender ⟨[⟨-0x7fffffff, -1⟩, ⟨320, 0x7fffffff⟩, ⟨0, 0⟩], 2⟩ with
                curline := some ⟨⟨0, 0⟩, ⟨1, 0⟩, 0, some 0⟩,
                rw_angle1 := 0x10000000, backsector := some 0 }, []) :=
  ⟨by decide, by decide, by decide, by decide, by decide,
    ((C11_decision_table exView (exRender ⟨[⟨-0x7fffffff, -1⟩, ⟨320, 0x7fffffff⟩, ⟨0, 0⟩], 2⟩)
      ⟨⟨0, 0⟩, ⟨1, 0⟩, 0, some 0⟩ 0x10000000 0xF0000000 (by decide) (by decide) (by decide)
      (by decide)).2 0 exSector exSector rfl rfl rfl).2.2.2.2.2 (by decide)⟩

/-! ## The final test of `R_CheckBBox` -/

theorem openRanges_nil_iff (f l : Int) (hfl : f ≤ l) (hl : l ≤ 2147483647)
    (ivs : List cliprange) (h : Good ivs) :
    openRanges f l ivs = [] ↔ ∀ c, f ≤ c → c ≤ l → covered ivs c := by
  obtain ⟨h1, _, h3, h4⟩ := openRanges_spec f l hfl hl ivs h
  constructor
  · intro he c hc1 hc2
    by_contra hn
    have := h4 c hc1 hc2 hn
    rw [he] at this
    simp [emitted] at this
  · intro hc
    cases hout : openRanges f l ivs with
    | nil => rfl
    | cons r rest =>
      exfalso
      have hr : r ∈ openRanges f l ivs := by rw [hout]; simp
      obtain ⟨ha, hb, hc'⟩ := h1 r hr
      exact (h3 r hr).1 r.1 (le_refl _) hb (hc r.1 ha (le_trans hb hc'))

theorem checkBBoxFinal_spec (s : ClipState) (sx1 sx2 : Int)
    (hinv : SegsInv (intervals s.solidsegs)) (hlt : sx1 < sx2)
    (hlo : -2147483647 ≤ sx1) (hhi : sx2 ≤ 2147483647) :
    ∃ b, checkBBoxFinal s sx1 sx2 = some b ∧
      (b = false ↔ ∃ e ∈ intervals s.solidsegs, e.first ≤ sx1 ∧ sx2 - 1 ≤ e.last) := by
  obtain ⟨G, hG⟩ := intervals_prefix s.solidsegs
  have hgood := hinv.good
  have hb32 : int32 (sx2 - 1) = sx2 - 1 := int32_eq (sx2 - 1) (by omega) (by omega)
  obtain ⟨A, st, V, hsplit, hA, hst⟩ :=
    exists_start (sx2 - 1) (intervals s.solidsegs) (hgood.exists_ge (sx2 - 1) (by omega))
  have hsegs : s.solidsegs = A ++ st :: (V ++ G) := by
    rw [hG, hsplit]; simp
  have hfind : findStart s.solidsegs (sx2 - 1) 0 = some A.length := by
    rw [hsegs, findStart_append A st (V ++ G) (sx2 - 1) 0 hA hst]; simp
  have hget : s.solidsegs[A.length]? = some st := by
    rw [hsegs]; exact getElem?_mid A st (V ++ G)
  have hpw := pairwise_apart (intervals s.solidsegs) hgood.1 hgood.2.1
  refine ⟨if sx1 ≥ st.first ∧ sx2 - 1 ≤ st.last then false else true, ?_, ?_⟩
  · simp only [checkBBoxFinal, hb32, hfind, hget]
    split <;> rfl
  · constructor
    · intro hb
      by_cases hc : sx1 ≥ st.first ∧ sx2 - 1 ≤ st.last
      · exact ⟨st, by rw [hsplit]; simp, hc.1, hc.2⟩
      · rw [if_neg hc] at hb
        exact absurd hb (by decide)
    · rintro ⟨e, he, he1, he2⟩
      have hin : sx1 ≥ st.first ∧ sx2 - 1 ≤ st.last := by
        rw [hsplit] at he hpw
        rcases List.mem_append.1 he with hea | hea
        · have := hA e hea
          omega
        · rcases List.mem_cons.1 hea with rfl | hev
          · exact ⟨he1, he2⟩
          · have hap := (List.pairwise_cons.1 (List.pairwise_append.1 hpw).2.1).1 e hev
            unfold apart at hap
            omega
      simp [hin]

/-- C13: the final test of `R_CheckBBox` is exact. On a clip list whose
interval sequence satisfies the invariant, for columns `sx1 < sx2` (both C
`int`s, `sx1` not `INT_MIN`), the final test returns, and it returns `false`
exactly when every column of `[sx1, sx2 - 1]` is covered, exactly when one
interval contains the range, and exactly when
`R_ClipPassWallSegment(sx1, sx2 - 1)` would record no wall range; every box
whose projection reaches the final test with these columns gets that answer
from `R_CheckBBox`. -/
theorem C13_bbox_exact (s : ClipState) (sx1 sx2 : Int)
    (hinv : SegsInv (intervals s.solidsegs)) (hlt : sx1 < sx2)
    (hlo : -0x7fffffff ≤ sx1) (hhi : sx2 ≤ 0x7fffffff) :
    ∃ b, checkBBoxFinal s sx1 sx2 = some b ∧
      (b = false ↔ ∀ c, sx1 ≤ c → c ≤ sx2 - 1 → covered (intervals s.solidsegs) c) ∧
      (b = false ↔ ∃ e ∈ intervals s.solidsegs, e.first ≤ sx1 ∧ sx2 - 1 ≤ e.last) ∧
      (b = false ↔ R_ClipPassWallSegment s sx1 (sx2 - 1) = some (s, [])) ∧
      (∀ (v : View) (bx : BoxIndex) (bspcoord : List Int) (boxpos : Nat) (c1 c2 : Int × Int),
        boxPos v bx bspcoord = some boxpos → boxpos ≠ 5 →
        boxCorners boxpos bspcoord = some (c1, c2) →
        boxProject v c1 c2 = BoxView.columns sx1 sx2 →
        R_CheckBBox v bx s bspcoord = some b) := by
  have hlo2 : (-2147483647 : Int) ≤ sx1 := hlo
  have hhi2 : sx2 ≤ (2147483647 : Int) := hhi
  obtain ⟨b, hb, hiff⟩ := checkBBoxFinal_spec s sx1 sx2 hinv hlt hlo2 hhi2
  have hgood := hinv.good
  have hcov : (∀ c, sx1 ≤ c → c ≤ sx2 - 1 → covered (intervals s.solidsegs) c) ↔
      ∃ e ∈ intervals s.solidsegs, e.first ≤ sx1 ∧ sx2 - 1 ≤ e.last := by
    constructor
    · intro hc
      exact covered_range_single hgood (by omega) hc
    · rintro ⟨e, he, h1, h2⟩ c hc1 hc2
      exact ⟨e, he, by omega, by omega⟩
  refine ⟨b, hb, hiff.trans hcov.symm, hiff, ?_, ?_⟩
  · rw [pass_step s sx1 (sx2 - 1) hinv hlo2 (by omega) (by omega)]
    rw [hiff, ← hcov, ← openRanges_nil_iff sx1 (sx2 - 1) (by omega) (by omega) _ hgood]
    constructor
    · intro h
      rw [h]
    · intro h
      simpa using h
  · intro v bx bspcoord boxpos c1 c2 hpos hne hcorn hproj
    simp only [R_CheckBBox, hpos, hne, if_false, hcorn, hproj, hb]

/-- C13, witness: on the clip list `[-0x7fffffff, -1], [5, 9], [320, 0x7fffffff]`
the final test with the columns 6 and 9 returns `false`. -/
theorem C13_bbox_exact_witness :
    SegsInv (intervals [⟨-0x7fffffff, -1⟩, ⟨5, 9⟩, ⟨320, 0x7fffffff⟩, ⟨0, 0⟩]) ∧
    ∃ b, checkBBoxFinal ⟨[⟨-0x7fffffff, -1⟩, ⟨5, 9⟩, ⟨320, 0x7fffffff⟩, ⟨0, 0⟩], 3⟩ 6 9 = some b ∧
      (b = false ↔ ∀ c, (6 : Int) ≤ c → c ≤ 9 - 1 →
        covered (intervals [⟨-0x7fffffff, -1⟩, ⟨5, 9⟩, ⟨320, 0x7fffffff⟩, ⟨0, 0⟩]) c) ∧
      (b = false ↔ ∃ e ∈ intervals [⟨-0x7fffffff, -1⟩, ⟨5, 9⟩, ⟨320, 0x7fffffff⟩, ⟨0, 0⟩],
        e.first ≤ 6 ∧ 9 - 1 ≤ e.last) ∧
      (b = false ↔ R_ClipPassWallSegment
        ⟨[⟨-0x7fffffff, -1⟩, ⟨5, 9⟩, ⟨320, 0x7fffffff⟩, ⟨0, 0⟩], 3⟩ 6 (9 - 1) =
          some (⟨[⟨-0x7fffffff, -1⟩, ⟨5, 9⟩, ⟨320, 0x7fffffff⟩, ⟨0, 0⟩], 3⟩, [])) ∧
      (∀ (v : View) (bx : BoxIndex) (bspcoord : List Int) (boxpos : Nat) (c1 c2 : Int × Int),
        boxPos v bx bspcoord = some boxpos → boxpos ≠ 5 →
        boxCorners boxpos bspcoord = some (c1, c2) →
        boxProject v c1 c2 = BoxView.columns 6 9 →
        R_CheckBBox v bx ⟨[⟨-0x7fffffff, -1⟩, ⟨5, 9⟩, ⟨320, 0x7fffffff⟩, ⟨0, 0⟩], 3⟩ bspcoord
          = some b) :=
  ⟨by simp [SegsInv, intervals, INT_MAX, apart],
    C13_bbox_exact ⟨[⟨-0x7fffffff, -1⟩, ⟨5, 9⟩, ⟨320, 0x7fffffff⟩, ⟨0, 0⟩], 3⟩ 6 9
      (by simp [SegsInv, intervals, INT_MAX, apart]) (by decide) (by decide) (by decide)⟩

/-! ## `R_RenderBSPNode` -/

theorem pick_some {α : Type} (p : α × α) (side : Nat) (x : α) (h : pick p side = some x) :
    (side = 0 ∧ x = p.1 ∧ pick p (side ^^^ 1) = some p.2) ∨
    (side = 1 ∧ x = p.2 ∧ pick p (side ^^^ 1) = some p.1) := by
  match side, h with
  | 0, h =>
    left
    simp only [pick, Option.some.injEq] at h
    exact ⟨rfl, h.symm, rfl⟩
  | 1, h =>
    right
    simp only [pick, Option.some.injEq] at h
    exact ⟨rfl, h.symm, rfl⟩
  | n + 2, h => simp [pick] at h

theorem render_leaf (v : View) (bx : BoxIndex) (lv : Level) (t : Tree) (fuel : Nat)
    (rs : RenderState) (bspnum : Int) (hleaf : landInt bspnum t.NF_SUBSECTOR ≠ 0) :
    R_RenderBSPNode v bx lv t (fuel + 1) rs bspnum = renderLeaf v lv rs (leafArg t bspnum) := by
  simp only [R_RenderBSPNode, renderBody, hleaf, ne_eq, not_false_eq_true, if_true]

theorem render_node (v : View) (bx : BoxIndex) (lv : Level) (t : Tree) (fuel : Nat)
    (rs : RenderState) (bspnum : Int) (hleaf : landInt bspnum t.NF_SUBSECTOR = 0) :
    R_RenderBSPNode v bx lv t (fuel + 1) rs bspnum =
      renderNode v bx t (R_RenderBSPNode v bx lv t fuel) rs bspnum := by
  simp only [R_RenderBSPNode, renderBody, hleaf, ne_eq, not_true_eq_false, if_false]

theorem renderLeaf_done (v : View) (lv : Level) (rs : RenderState) (num : Int) (r : Rendered)
    (h : renderLeaf v lv rs num = some (Outcome.done r)) :
    R_Subsector v lv rs num = Outcome.done (r.1, r.2.1) ∧ r.2.2 = [num] := by
  unfold renderLeaf at h
  split at h
  · rename_i rs1 out hs
    simp only [Option.some.injEq, Outcome.done.injEq] at h
    rw [← h]
    exact ⟨hs, rfl⟩
  · simp at h
  · simp at h

theorem renderLeaf_some (v : View) (lv : Level) (rs : RenderState) (num : Int) :
    renderLeaf v lv rs num ≠ none := by
  unfold renderLeaf
  split <;> simp

theorem afterBack_done (out1 : List WallRange) (seen1 : List Int)
    (r : Option (Outcome Rendered)) (x : Rendered) :
    afterBack out1 seen1 r = some (Outcome.done x) ↔
      ∃ r2, r = some (Outcome.done r2) ∧ x = (r2.1, out1 ++ r2.2.1, seen1 ++ r2.2.2) := by
  constructor
  · intro h
    unfold afterBack at h
    split at h
    · simp at h
    · simp at h
    · simp at h
    · simp only [Option.some.injEq, Outcome.done.injEq] at h
      exact ⟨_, rfl, h.symm⟩
  · rintro ⟨⟨rs2, out2, seen2⟩, rfl, rfl⟩
    rfl

theorem afterBack_some (out1 : List WallRange) (seen1 : List Int)
    (r : Option (Outcome Rendered)) (h : r ≠ none) : afterBack out1 seen1 r ≠ none := by
  unfold afterBack
  split <;> simp_all

theorem renderBack_done (v : View) (bx : BoxIndex)
    (self : RenderState → Int → Option (Outcome Rendered)) (bsp : node) (side : Nat)
    (r1 x : Rendered) :
    renderBack v bx self bsp side r1 = some (Outcome.done x) ↔
      ∃ box b, pick bsp.bbox (side ^^^ 1) = some box ∧
        R_CheckBBox v bx r1.1.clip box = some b ∧
        ((b = false ∧ x = r1) ∨
         (b = true ∧ ∃ back r2, pick bsp.children (side ^^^ 1) = some back ∧
            self r1.1 back = some (Outcome.done r2) ∧
            x = (r2.1, r1.2.1 ++ r2.2.1, r1.2.2 ++ r2.2.2))) := by
  constructor
  · intro h
    unfold renderBack at h
    split at h
    · simp at h
    · rename_i box hbox
      split at h
      · simp at h
      · rename_i hb
        simp only [Option.some.injEq, Outcome.done.injEq] at h
        exact ⟨box, false, hbox, hb, Or.inl ⟨rfl, h.symm⟩⟩
      · rename_i hb
        split at h
        · simp at h
        · rename_i back hback
          obtain ⟨r2, h2, hx⟩ := (afterBack_done _ _ _ _).1 h
          exact ⟨box, true, hbox, hb, Or.inr ⟨rfl, back, r2, hback, h2, hx⟩⟩
  · rintro ⟨box, b, hbox, hb, h | h⟩
    · obtain ⟨rfl, rfl⟩ := h
      simp only [renderBack, hbox, hb]
    · obtain ⟨rfl, back, r2, hback, h2, rfl⟩ := h
      simp only [renderBack, hbox, hb, hback]
      exact (afterBack_done _ _ _ _).2 ⟨r2, h2, rfl⟩

theorem afterFront_done (v : View) (bx : BoxIndex)
    (self : RenderState → Int → Option (Outcome Rendered)) (bsp : node) (side : Nat)
    (r : Option (Outcome Rendered)) (x : Rendered) :
    afterFront v bx self bsp side r = some (Outcome.done x) ↔
      ∃ r1, r = some (Outcome.done r1) ∧
        renderBack v bx self bsp side r1 = some (Outcome.done x) := by
  constructor
  · intro h
    unfold afterFront at h
    split at h
    · simp at h
    · simp at h
    · simp at h
    · exact ⟨_, rfl, h⟩
  · rintro ⟨r1, rfl, h⟩
    exact h

theorem renderNode_done (v : View) (bx : BoxIndex) (t : Tree)
    (self : RenderState → Int → Option (Outcome Rendered)) (rs : RenderState) (bspnum : Int)
    (x : Rendered) :
    renderNode v bx t self rs bspnum = some (Outcome.done x) ↔
      0 ≤ bspnum ∧ ∃ bsp front r1, t.nodes[bspnum.toNat]? = some bsp ∧
        pick bsp.children (t.R_PointOnSide v.viewx v.viewy bsp) = some front ∧
        self rs front = some (Outcome.done r1) ∧
        renderBack v bx self bsp (t.R_PointOnSide v.viewx v.viewy bsp) r1
          = some (Outcome.done x) := by
  constructor
  · intro h
    unfold renderNode at h
    split at h
    · simp at h
    · rename_i hneg
      split at h
      · simp at h
      · rename_i bsp hbsp
        split at h
        · simp at h
        · rename_i front hfront
          obtain ⟨r1, h1, h2⟩ := (afterFront_done _ _ _ _ _ _ _).1 h
          exact ⟨by omega, bsp, front, r1, hbsp, hfront, h1, h2⟩
  · rintro ⟨hpos, bsp, front, r1, hbsp, hfront, h1, h2⟩
    have hneg : ¬ bspnum < 0 := by omega
    simp only [renderNode, hneg, if_false, hbsp, hfront]
    exact (afterFront_done _ _ _ _ _ _ _).2 ⟨r1, h1, h2⟩

theorem render_first (v : View) (bx : BoxIndex) (lv : Level) (t : Tree) :
    ∀ (fuel : Nat) (rs : RenderState) (bspnum : Int) (x : Rendered),
      R_RenderBSPNode v bx lv t fuel rs bspnum = some (Outcome.done x) →
      ∃ leaf rest, viewLeaf v t fuel bspnum = some leaf ∧ x.2.2 = leaf :: rest
  | 0, rs, bspnum, x, h => by simp [R_RenderBSPNode] at h
  | fuel + 1, rs, bspnum, x, h => by
    by_cases hleaf : landInt bspnum t.NF_SUBSECTOR = 0
    · rw [render_node v bx lv t fuel rs bspnum hleaf] at h
      obtain ⟨hpos, bsp, front, r1, hbsp, hfront, h1, h2⟩ := (renderNode_done _ _ _ _ _ _ _).1 h
      obtain ⟨leaf, rest, hv, hr⟩ := render_first v bx lv t fuel rs front r1 h1
      have hneg : ¬ bspnum < 0 := by omega
      obtain ⟨box, b, _, _, hx | hx⟩ := (renderBack_done _ _ _ _ _ _ _).1 h2
      · refine ⟨leaf, rest, ?_, ?_⟩
        · simp only [viewLeaf, hleaf, ne_eq, not_true_eq_false, if_false, hneg, hbsp, hfront, hv]
        · rw [hx.2, hr]
      · obtain ⟨_, back, r2, _, _, hx⟩ := hx
        refine ⟨leaf, rest ++ r2.2.2, ?_, ?_⟩
        · simp only [viewLeaf, hleaf, ne_eq, not_true_eq_false, if_false, hneg, hbsp, hfront, hv]
        · rw [hx]
          simp only [hr, List.cons_append]
    · rw [render_leaf v bx lv t fuel rs bspnum hleaf] at h
      refine ⟨leafArg t bspnum, [], ?_, (renderLeaf_done _ _ _ _ _ h).2⟩
      simp only [viewLeaf, hleaf, ne_eq, not_false_eq_true, if_true]

theorem leaves_node (t : Tree) (fuel : Nat) (bspnum : Int) (L : List Int)
    (hleaf : landInt bspnum t.NF_SUBSECTOR = 0) (h : leaves t (fuel + 1) bspnum = some L) :
    0 ≤ bspnum ∧ ∃ bsp l0 l1, t.nodes[bspnum.toNat]? = some bsp ∧
      leaves t fuel bsp.children.1 = some l0 ∧ leaves t fuel bsp.children.2 = some l1 ∧
      L = l0 ++ l1 := by
  simp only [leaves, hleaf, ne_eq, not_true_eq_false, if_false] at h
  split at h
  · simp at h
  · rename_i hneg
    split at h
    · simp at h
    · rename_i bsp hbsp
      split at h
      · rename_i l0 l1 h0 h1
        simp only [Option.some.injEq] at h
        exact ⟨by omega, bsp, l0, l1, hbsp, h0, h1, h.symm⟩
      · simp at h

theorem render_once (v : View) (bx : BoxIndex) (lv : Level) (t : Tree) :
    ∀ (fuel : Nat) (rs : RenderState) (bspnum : Int) (x : Rendered) (L : List Int),
      leaves t fuel bspnum = some L → L.Nodup →
      R_RenderBSPNode v bx lv t fuel rs bspnum = some (Outcome.done x) →
      x.2.2.Nodup ∧ ∀ n ∈ x.2.2, n ∈ L
  | 0, rs, bspnum, x, L, _, _, h => by simp [R_RenderBSPNode] at h
  | fuel + 1, rs, bspnum, x, L, hL, hnd, h => by
    by_cases hleaf : landInt bspnum t.NF_SUBSECTOR = 0
    · rw [render_node v bx lv t fuel rs bspnum hleaf] at h
      obtain ⟨hpos, bsp, front, r1, hbsp, hfront, h1, h2⟩ := (renderNode_done _ _ _ _ _ _ _).1 h
      obtain ⟨_, bsp', l0, l1, hbsp', h0, hl1, rfl⟩ := leaves_node t fuel bspnum L hleaf hL
      rw [hbsp] at hbsp'
      simp only [Option.some.injEq] at hbsp'
      subst hbsp'
      have hnd0 := (List.nodup_append.1 hnd).1
      have hnd1 := (List.nodup_append.1 hnd).2.1
      have hdis := (List.nodup_append.1 hnd).2.2
      obtain ⟨box, b, _, _, hx | hx⟩ := (renderBack_done _ _ _ _ _ _ _).1 h2
      · rw [hx.2]
        rcases pick_some _ _ _ hfront with ⟨_, hf, _⟩ | ⟨_, hf, _⟩
        · rw [hf] at h1
          obtain ⟨ha, hb⟩ := render_once v bx lv t fuel rs _ r1 l0 h0 hnd0 h1
          exact ⟨ha, fun n hn => List.mem_append_left _ (hb n hn)⟩
        · rw [hf] at h1
          obtain ⟨ha, hb⟩ := render_once v bx lv t fuel rs _ r1 l1 hl1 hnd1 h1
          exact ⟨ha, fun n hn => List.mem_append_right _ (hb n hn)⟩
      · obtain ⟨_, back, r2, hback, hr2, hx⟩ := hx
        rw [hx]
        rcases pick_some _ _ _ hfront with ⟨_, hf, hother⟩ | ⟨_, hf, hother⟩
        · rw [hf] at h1
          rw [hother] at hback
          simp only [Option.some.injEq] at hback
          rw [← hback] at hr2
          obtain ⟨ha, hb⟩ := render_once v bx lv t fuel rs _ r1 l0 h0 hnd0 h1
          obtain ⟨hc, hd⟩ := render_once v bx lv t fuel r1.1 _ r2 l1 hl1 hnd1 hr2
          refine ⟨List.nodup_append.2 ⟨ha, hc, ?_⟩, ?_⟩
          · intro n hn1 hn2
            exact hdis (hb n hn1) (hd n hn2)
          · intro n hn
            rcases List.mem_append.1 hn with hn | hn
            · exact List.mem_append_left _ (hb n hn)
            · exact List.mem_append_right _ (hd n hn)
        · rw [hf] at h1
          rw [hother] at hback
          simp only [Option.some.injEq] at hback
          rw [← hback] at hr2
          obtain ⟨ha, hb⟩ := render_once v bx lv t fuel rs _ r1 l1 hl1 hnd1 h1
          obtain ⟨hc, hd⟩ := render_once v bx lv t fuel r1.1 _ r2 l0 h0 hnd0 hr2
          refine ⟨List.nodup_append.2 ⟨ha, hc, ?_⟩, ?_⟩
          · intro n hn1 hn2
            exact hdis (hd n hn2) (hb n hn1)
          · intro n hn
            rcases List.mem_append.1 hn with hn | hn
            · exact List.mem_append_right _ (hb n hn)
            · exact List.mem_append_left _ (hd n hn)
    · rw [render_leaf v bx lv t fuel rs bspnum hleaf] at h
      have hx := (renderLeaf_done _ _ _ _ _ h).2
      simp only [leaves, hleaf, ne_eq, not_false_eq_true, if_true, Option.some.injEq] at hL
      rw [hx, ← hL]
      simp

theorem renderNode_some (v : View) (bx : BoxIndex) (t : Tree)
    (self : RenderState → Int → Option (Outcome Rendered)) (rs : RenderState) (bspnum : Int)
    (bsp : node) (hbsp : t.nodes[bspnum.toNat]? = some bsp)
    (h0 : ∀ rs0, self rs0 bsp.children.1 ≠ none) (h1 : ∀ rs0, self rs0 bsp.children.2 ≠ none) :
    renderNode v bx t self rs bspnum ≠ none := by
  unfold renderNode
  split
  · simp
  · simp only [hbsp]
    split
    · simp
    · rename_i front hfront
      have hself : ∀ rs0, self rs0 front ≠ none ∧
          ∀ back, pick bsp.children (t.R_PointOnSide v.viewx v.viewy bsp ^^^ 1) = some back →
            self rs0 back ≠ none := by
        intro rs0
        rcases pick_some _ _ _ hfront with ⟨_, hf, ho⟩ | ⟨_, hf, ho⟩
        · rw [hf, ho]
          refine ⟨h0 rs0, ?_⟩
          intro back hb
          simp only [Option.some.injEq] at hb
          rw [← hb]
          exact h1 rs0
        · rw [hf, ho]
          refine ⟨h1 rs0, ?_⟩
          intro back hb
          simp only [Option.some.injEq] at hb
          rw [← hb]
          exact h0 rs0
      unfold afterFront
      split
      · rename_i hn
        exact absurd hn (hself rs).1
      · simp
      · simp
      · rename_i r1 _
        unfold renderBack
        split
        · simp
        · split
          · simp
          · simp
          · split
            · simp
            · rename_i back hback
              exact afterBack_some _ _ _ ((hself r1.1).2 back hback)

theorem render_total (v : View) (bx : BoxIndex) (lv : Level) (t : Tree) :
    ∀ (fuel : Nat) (rs : RenderState) (bspnum : Int) (L : List Int),
      leaves t fuel bspnum = some L → R_RenderBSPNode v bx lv t fuel rs bspnum ≠ none
  | 0, rs, bspnum, L, hL => by simp [leaves] at hL
  | fuel + 1, rs, bspnum, L, hL => by
    by_cases hleaf : landInt bspnum t.NF_SUBSECTOR = 0
    · rw [render_node v bx lv t fuel rs bspnum hleaf]
      obtain ⟨_, bsp, l0, l1, hbsp, h0, h1, _⟩ := leaves_node t fuel bspnum L hleaf hL
      exact renderNode_some v bx t _ rs bspnum bsp hbsp
        (fun rs0 => render_total v bx lv t fuel rs0 _ l0 h0)
        (fun rs0 => render_total v bx lv t fuel rs0 _ l1 h1)
    · rw [render_leaf v bx lv t fuel rs bspnum hleaf]
      exact renderLeaf_some _ _ _ _

/-- C14: front-to-back traversal. At an internal node `R_RenderBSPNode` returns
exactly when the call for `children[side]`, `side = R_PointOnSide(viewx, viewy,
node)`, returns, the test `R_CheckBBox(bbox[side ^ 1])` on the clip list left
by that call gives an answer, and either the answer is `false` and nothing
more is done, or it is `true` and the call for `children[side ^ 1]`, started on
the globals left by the first call, returns; what the first call recorded
comes first. Hence the first subsector given to `R_Subsector` is the leaf
reached from the root by following the viewpoint's side, and on a tree whose
leaves are pairwise different every leaf is given to `R_Subsector` at most
once and no other number is. A call on a tree of depth at most `fuel` returns
within the bound. -/
theorem C14_front_to_back (v : View) (bx : BoxIndex) (lv : Level) (t : Tree) (fuel : Nat)
    (rs : RenderState) (bspnum : Int) (x : Rendered) :
    (∀ bsp, landInt bspnum t.NF_SUBSECTOR = 0 → t.nodes[bspnum.toNat]? = some bsp →
      (R_RenderBSPNode v bx lv t (fuel + 1) rs bspnum = some (Outcome.done x) ↔
        0 ≤ bspnum ∧ ∃ front r1,
          pick bsp.children (t.R_PointOnSide v.viewx v.viewy bsp) = some front ∧
          R_RenderBSPNode v bx lv t fuel rs front = some (Outcome.done r1) ∧
          ∃ box b, pick bsp.bbox (t.R_PointOnSide v.viewx v.viewy bsp ^^^ 1) = some box ∧
            R_CheckBBox v bx r1.1.clip box = some b ∧
            ((b = false ∧ x = r1) ∨
             (b = true ∧ ∃ back r2,
                pick bsp.children (t.R_PointOnSide v.viewx v.viewy bsp ^^^ 1) = some back ∧
                R_RenderBSPNode v bx lv t fuel r1.1 back = some (Outcome.done r2) ∧
                x = (r2.1, r1.2.1 ++ r2.2.1, r1.2.2 ++ r2.2.2))))) ∧
    (R_RenderBSPNode v bx lv t fuel rs bspnum = some (Outcome.done x) →
      ∃ leaf rest, viewLeaf v t fuel bspnum = some leaf ∧ x.2.2 = leaf :: rest) ∧
    (∀ L, leaves t fuel bspnum = some L → L.Nodup →
      R_RenderBSPNode v bx lv t fuel rs bspnum = some (Outcome.done x) →
      x.2.2.Nodup ∧ ∀ n ∈ x.2.2, n ∈ L) ∧
    (∀ L, leaves t fuel bspnum = some L →
      R_RenderBSPNode v bx lv t fuel rs bspnum ≠ none) := by
  refine ⟨?_, render_first v bx lv t fuel rs bspnum x, ?_, ?_⟩
  · intro bsp hleaf hbsp
    rw [render_node v bx lv t fuel rs bspnum hleaf, renderNode_done]
    constructor
    · rintro ⟨hpos, bsp', front, r1, hbsp', hfront, h1, h2⟩
      rw [hbsp] at hbsp'
      simp only [Option.some.injEq] at hbsp'
      subst hbsp'
      exact ⟨hpos, front, r1, hfront, h1, (renderBack_done _ _ _ _ _ _ _).1 h2⟩
    · rintro ⟨hpos, front, r1, hfront, h1, h2⟩
      exact ⟨hpos, bsp, front, r1, hbsp, hfront, h1, (renderBack_done _ _ _ _ _ _ _).2 h2⟩
  · intro L hL hnd h
    exact render_once v bx lv t fuel rs bspnum x L hL hnd h
  · intro L hL
    exact render_total v bx lv t fuel rs bspnum L hL

/-- C14, witness: on the tree of one node and two leaves, with the viewpoint on
side 1, `R_RenderBSPNode(0)` processes leaf 1, then leaf 0. -/
theorem C14_front_to_back_witness :
    leaves exTree 2 0 = some [0, 1] ∧
    R_RenderBSPNode exView exBox exLevel2 exTree 2 (exRender exClip) 0
      = some (Outcome.done exRendered) ∧
    (∃ leaf rest, viewLeaf exView exTree 2 0 = some leaf ∧ exRendered.2.2 = leaf :: rest) ∧
    (exRendered.2.2.Nodup ∧ ∀ n ∈ exRendered.2.2, n ∈ [0, 1]) ∧
    R_RenderBSPNode exView exBox exLevel2 exTree 2 (exRender exClip) 0 ≠ none :=
  ⟨by decide, by decide,
    (C14_front_to_back exView exBox exLevel2 exTree 2 (exRender exClip) 0 exRendered).2.1
      (by decide),
    (C14_front_to_back exView exBox exLevel2 exTree 2 (exRender exClip) 0 exRendered).2.2.1
      [0, 1] (by decide) (by decide) (by decide),
    (C14_front_to_back exView exBox exLevel2 exTree 2 (exRender exClip) 0 exRendered).2.2.2
      [0, 1] (by decide)⟩

/-! ## `R_Subsector` step by step -/

theorem readRun_spec (xs : List seg) : ∀ (count first : Nat) (ys : List seg),
    readRun xs first count = some ys ↔
      (count = 0 ∨ first + count ≤ xs.length) ∧ ys = (xs.drop first).take count
  | 0, first, ys => by
    simp only [readRun, Option.some.injEq, List.take_zero, true_or, true_and]
    exact eq_comm
  | count + 1, first, ys => by
    simp only [readRun]
    by_cases hlt : first < xs.length
    · have hget : xs[first]? = some xs[first] := List.getElem?_eq_getElem hlt
      have hdrop : xs.drop first = xs[first] :: xs.drop (first + 1) :=
        List.drop_eq_getElem_cons hlt
      rw [hget, hdrop, List.take_succ_cons]
      cases hr : readRun xs (first + 1) count with
      | none =>
        constructor
        · intro h
          simp at h
        · rintro ⟨hlen, _⟩
          exfalso
          have := (readRun_spec xs count (first + 1) ((xs.drop (first + 1)).take count)).2
            ⟨by omega, rfl⟩
          rw [hr] at this
          simp at this
      | some rest =>
        have hrest := (readRun_spec xs count (first + 1) rest).1 hr
        simp only [Option.some.injEq]
        constructor
        · intro h
          refine ⟨Or.inr ?_, ?_⟩
          · rcases hrest.1 with h0 | h0
            · omega
            · omega
          · rw [← h, hrest.2]
        · rintro ⟨_, h⟩
          rw [h, hrest.2]
    · have hget : xs[first]? = none := List.getElem?_eq_none (by omega)
      rw [hget]
      constructor
      · intro h
        simp at h
      · rintro ⟨hlen, _⟩
        omega

theorem subsector_done (v : View) (lv : Level) (rs : RenderState) (num : Int)
    (rs2 : RenderState) (out : List WallRange) :
    R_Subsector v lv rs num = Outcome.done (rs2, out) ↔
      ¬ (lv.RANGECHECK = true ∧ num ≥ lv.numsubsectors) ∧ 0 ≤ num ∧
      ∃ sub front0 polySegs lines,
        lv.subsectors[num.toNat]? = some sub ∧ rs.sectors[sub.sector]? = some front0 ∧
        ((sub.poly = none ∧ polySegs = []) ∨
          ∃ p, sub.poly = some p ∧ readRun p.segs 0 p.numsegs = some polySegs) ∧
        readRun lv.segs sub.firstline sub.numlines = some lines ∧
        addLines v
          { rs with
            sscount := rs.sscount + 1
            frontsector := sub.sector
            sectors := rs.sectors.set sub.sector (R_CheckInterpolateSector v front0)
            floorplane :=
              if (R_CheckInterpolateSector v front0).interpfloorheight < v.viewz then
                some (v.R_FindPlane (R_CheckInterpolateSector v front0).interpfloorheight
                  (R_CheckInterpolateSector v front0).floorpic
                  (R_CheckInterpolateSector v front0).rlightlevel
                  (R_CheckInterpolateSector v front0).special)
              else none
            ceilingplane :=
              if (R_CheckInterpolateSector v front0).interpceilingheight > v.viewz
                  ∨ (R_CheckInterpolateSector v front0).ceilingpic = v.skyflatnum then
                some (v.R_FindPlane (R_CheckInterpolateSector v front0).interpceilingheight
                  (R_CheckInterpolateSector v front0).ceilingpic
                  (R_CheckInterpolateSector v front0).rlightlevel 0)
              else none
            sprites := rs.sprites ++ [sub.sector] }
          (polySegs ++ lines) = some (rs2, out) := by
  constructor
  · intro h
    unfold R_Subsector at h
    simp only [overflowTest_false, Bool.false_eq_true, if_false] at h
    split at h
    · simp at h
    · rename_i hrc
      split at h
      · simp at h
      · rename_i hneg
        split at h
        · simp at h
        · rename_i sub hsub
          split at h
          · simp at h
          · rename_i front0 hfront
            split at h
            · rename_i polySegs lines hpoly hlines
              split at h
              · simp at h
              · rename_i rs2' out' hadd
                simp only [Outcome.done.injEq, Prod.mk.injEq] at h
                obtain ⟨rfl, rfl⟩ := h
                refine ⟨hrc, by omega, sub, front0, polySegs, lines, hsub, hfront, ?_,
                  hlines, hadd⟩
                cases hp : sub.poly with
                | none =>
                  rw [hp] at hpoly
                  simp only [Option.some.injEq] at hpoly
                  exact Or.inl ⟨rfl, hpoly.symm⟩
                | some p =>
                  rw [hp] at hpoly
                  exact Or.inr ⟨p, rfl, hpoly⟩
            · simp at h
  · rintro ⟨hrc, hpos, sub, front0, polySegs, lines, hsub, hfront, hpoly, hlines, hadd⟩
    have hneg : ¬ num < 0 := by omega
    unfold R_Subsector
    rcases hpoly with ⟨hp, rfl⟩ | ⟨p, hp, hrun⟩
    · simp only [overflowTest_false, Bool.false_eq_true, if_false, hrc, hneg, hsub, hfront,
        hlines, hp, hadd]
    · simp only [overflowTest_false, Bool.false_eq_true, if_false, hrc, hneg, hsub, hfront,
        hlines, hp, hrun, hadd]

theorem addLineClip_frame (v : View) (rs : RenderState) (line : seg) (x1 x2 : Int)
    (rs1 : RenderState) (out : List WallRange)
    (h : addLineClip v rs line x1 x2 = some (rs1, out)) :
    rs1.floorplane = rs.floorplane ∧ rs1.ceilingplane = rs.ceilingplane ∧
    rs1.frontsector = rs.frontsector ∧ rs1.sscount = rs.sscount ∧
    rs1.sprites = rs.sprites := by
  simp only [addLineClip] at h
  split at h
  · cases hc : R_ClipSolidWallSegment rs.clip x1 (int32 (x2 - 1)) with
    | none => simp [hc] at h
    | some p =>
      simp only [hc, Option.some.injEq, Prod.mk.injEq] at h
      obtain ⟨rfl, _⟩ := h
      exact ⟨rfl, rfl, rfl, rfl, rfl⟩
  · split at h
    · simp at h
    · split at h
      · simp at h
      · split at h
        · cases hc : R_ClipSolidWallSegment rs.clip x1 (int32 (x2 - 1)) with
          | none => simp [hc] at h
          | some p =>
            simp only [hc, Option.some.injEq, Prod.mk.injEq] at h
            obtain ⟨rfl, _⟩ := h
            exact ⟨rfl, rfl, rfl, rfl, rfl⟩
        · cases hc : R_ClipPassWallSegment rs.clip x1 (int32 (x2 - 1)) with
          | none => simp [hc] at h
          | some p =>
            simp only [hc, Option.some.injEq, Prod.mk.injEq] at h
            obtain ⟨rfl, _⟩ := h
            exact ⟨rfl, rfl, rfl, rfl, rfl⟩
        · simp only [Option.some.injEq, Prod.mk.injEq] at h
          obtain ⟨rfl, _⟩ := h
          exact ⟨rfl, rfl, rfl, rfl, rfl⟩

theorem addLine_frame (v : View) (rs : RenderState) (line : seg)
    (rs1 : RenderState) (out : List WallRange)
    (h : R_AddLine v rs line = some (rs1, out)) :
    rs1.floorplane = rs.floorplane ∧ rs1.ceilingplane = rs.ceilingplane ∧
    rs1.frontsector = rs.frontsector ∧ rs1.sscount = rs.sscount ∧
    rs1.sprites = rs.sprites := by
  simp only [R_AddLine] at h
  split at h
  · simp only [Option.some.injEq, Prod.mk.injEq] at h
    obtain ⟨rfl, _⟩ := h
    exact ⟨rfl, rfl, rfl, rfl, rfl⟩
  · split at h
    · simp only [Option.some.injEq, Prod.mk.injEq] at h
      obtain ⟨rfl, _⟩ := h
      exact ⟨rfl, rfl, rfl, rfl, rfl⟩
    · split at h
      · simp only [Option.some.injEq, Prod.mk.injEq] at h
        obtain ⟨rfl, _⟩ := h
        exact ⟨rfl, rfl, rfl, rfl, rfl⟩
      · split at h
        · simp only [Option.some.injEq, Prod.mk.injEq] at h
          obtain ⟨rfl, _⟩ := h
          exact ⟨rfl, rfl, rfl, rfl, rfl⟩
        · have := addLineClip_frame v _ line _ _ rs1 out h
          exact this

theorem addLines_frame (v : View) : ∀ (lines : List seg) (rs rs1 : RenderState)
    (out : List WallRange), addLines v rs lines = some (rs1, out) →
    rs1.floorplane = rs.floorplane ∧ rs1.ceilingplane = rs.ceilingplane ∧
    rs1.frontsector = rs.frontsector ∧ rs1.sscount = rs.sscount ∧
    rs1.sprites = rs.sprites
  | [], rs, rs1, out, h => by
    simp only [addLines, Option.some.injEq, Prod.mk.injEq] at h
    obtain ⟨rfl, _⟩ := h
    exact ⟨rfl, rfl, rfl, rfl, rfl⟩
  | line :: rest, rs, rs1, out, h => by
    simp only [addLines] at h
    split at h
    · simp at h
    · rename_i rsa outa ha
      split at h
      · simp at h
      · rename_i rsb outb hb
        simp only [Option.some.injEq, Prod.mk.injEq] at h
        obtain ⟨rfl, _⟩ := h
        have h1 := addLine_frame v rs line rsa outa ha
        have h2 := addLines_frame v rest rsa rsb outb hb
        exact ⟨h2.1.trans h1.1, h2.2.1.trans h1.2.1, h2.2.2.1.trans h1.2.2.1,
          h2.2.2.2.1.trans h1.2.2.2.1, h2.2.2.2.2.trans h1.2.2.2.2⟩

/-- C15: the segments of a leaf, in order. `R_Subsector` returns exactly when
the subsector number passes the range check and is not negative, the
subsector and its sector are in their arrays, the polyobject (when there is
one) has its `numsegs` segments and the run `segs[firstline ..
firstline + numlines - 1]` lies in the segment array, and the loop of
`R_AddLine` calls returns on the list made of the polyobject's segments
`segs[0 .. numsegs - 1]` in their order (none without a polyobject) followed
by the subsector's own run in stored order, started on the globals set up
before the loops; what it leaves and records is what that loop leaves and
records. -/
theorem C15_segment_order (v : View) (lv : Level) (rs : RenderState) (num : Int)
    (rs2 : RenderState) (out : List WallRange) :
    R_Subsector v lv rs num = Outcome.done (rs2, out) ↔
      ¬ (lv.RANGECHECK = true ∧ num ≥ lv.numsubsectors) ∧ 0 ≤ num ∧
      ∃ sub front0,
        lv.subsectors[num.toNat]? = some sub ∧ rs.sectors[sub.sector]? = some front0 ∧
        (∀ p, sub.poly = some p → p.numsegs ≤ p.segs.length) ∧
        (sub.numlines = 0 ∨ sub.firstline + sub.numlines ≤ lv.segs.length) ∧
        addLines v
          { rs with
            sscount := rs.sscount + 1
            frontsector := sub.sector
            sectors := rs.sectors.set sub.sector (R_CheckInterpolateSector v front0)
            floorplane :=
              if (R_CheckInterpolateSector v front0).interpfloorheight < v.viewz then
                some (v.R_FindPlane (R_CheckInterpolateSector v front0).interpfloorheight
                  (R_CheckInterpolateSector v front0).floorpic
                  (R_CheckInterpolateSector v front0).rlightlevel
                  (R_CheckInterpolateSector v front0).special)
              else none
            ceilingplane :=
              if (R_CheckInterpolateSector v front0).interpceilingheight > v.viewz
                  ∨ (R_CheckInterpolateSector v front0).ceilingpic = v.skyflatnum then
                some (v.R_FindPlane (R_CheckInterpolateSector v front0).interpceilingheight
                  (R_CheckInterpolateSector v front0).ceilingpic
                  (R_CheckInterpolateSector v front0).rlightlevel 0)
              else none
            sprites := rs.sprites ++ [sub.sector] }
          ((match sub.poly with
            | none => []
            | some p => p.segs.take p.numsegs)
            ++ (lv.segs.drop sub.firstline).take sub.numlines) = some (rs2, out) := by
  rw [subsector_done]
  constructor
  · rintro ⟨hrc, hpos, sub, front0, polySegs, lines, hsub, hfront, hpoly, hlines, hadd⟩
    obtain ⟨hl1, rfl⟩ := (readRun_spec _ _ _ _).1 hlines
    refine ⟨hrc, hpos, sub, front0, hsub, hfront, ?_, hl1, ?_⟩
    · intro p hp
      rcases hpoly with ⟨hn, _⟩ | ⟨p', hp', hrun⟩
      · rw [hn] at hp
        simp at hp
      · rw [hp'] at hp
        simp only [Option.some.injEq] at hp
        subst hp
        have := ((readRun_spec _ _ _ _).1 hrun).1
        omega
    · rcases hpoly with ⟨hn, rfl⟩ | ⟨p', hp', hrun⟩
      · simp only [hn]
        exact hadd
      · simp only [hp']
        have := ((readRun_spec _ _ _ _).1 hrun).2
        rw [List.drop_zero] at this
        rw [← this]
        exact hadd
  · rintro ⟨hrc, hpos, sub, front0, hsub, hfront, hpoly, hl1, hadd⟩
    refine ⟨hrc, hpos, sub, front0, _, _, hsub, hfront, ?_,
      (readRun_spec _ _ _ _).2 ⟨hl1, rfl⟩, hadd⟩
    cases hp : sub.poly with
    | none => exact Or.inl ⟨rfl, rfl⟩
    | some p =>
      refine Or.inr ⟨p, rfl, (readRun_spec _ _ _ _).2 ⟨Or.inr ?_, ?_⟩⟩
      · have := hpoly p hp
        omega
      · rw [List.drop_zero]

/-- C15, witness: a subsector with a polyobject of one segment and one segment
of its own: `R_Subsector` returns what the loop over the two segments, the
polyobject's first, returns. -/
theorem C15_segment_order_witness :
    addLines exView
        { exRender exClip with sscount := 1, ceilingplane := some 0, sprites := [0] }
        ([⟨⟨1, 0⟩, ⟨0, 0⟩, 0, none⟩] ++ [exLine]) = some (exAfterLeaf, [(1, 1)]) ∧
    R_Subsector exView exLevelPoly (exRender exClip) 0 = Outcome.done (exAfterLeaf, [(1, 1)]) :=
  ⟨by decide,
    (C15_segment_order exView exLevelPoly (exRender exClip) 0 exAfterLeaf [(1, 1)]).2
      ⟨by decide, by decide, ⟨0, 1, 0, some ⟨1, [⟨⟨1, 0⟩, ⟨0, 0⟩, 0, none⟩]⟩⟩, exSector,
        by decide, by decide,
        fun p hp => by
          simp only [Option.some.injEq] at hp
          rw [← hp]
          decide,
        by decide, by decide⟩⟩

/-- C16: the plane requests of a leaf. When `R_Subsector` returns, with `front`
the front sector after `R_CheckInterpolateSector`: `floorplane` is
`R_FindPlane(front.interpfloorheight, front.floorpic, front.rlightlevel,
front.special)` when `front.interpfloorheight < viewz` and `NULL` when not;
`ceilingplane` is `R_FindPlane(front.interpceilingheight, front.ceilingpic,
front.rlightlevel, 0)` when `front.interpceilingheight > viewz` or
`front.ceilingpic = skyflatnum`, and `NULL` when not. -/
theorem C16_plane_requests (v : View) (lv : Level) (rs : RenderState) (num : Int)
    (rs2 : RenderState) (out : List WallRange)
    (h : R_Subsector v lv rs num = Outcome.done (rs2, out)) :
    ∃ sub front0, 0 ≤ num ∧ lv.subsectors[num.toNat]? = some sub ∧
      rs.sectors[sub.sector]? = some front0 ∧
      ((R_CheckInterpolateSector v front0).interpfloorheight < v.viewz →
        rs2.floorplane =
          some (v.R_FindPlane (R_CheckInterpolateSector v front0).interpfloorheight
            (R_CheckInterpolateSector v front0).floorpic
            (R_CheckInterpolateSector v front0).rlightlevel
            (R_CheckInterpolateSector v front0).special)) ∧
      (¬ (R_CheckInterpolateSector v front0).interpfloorheight < v.viewz →
        rs2.floorplane = none) ∧
      ((R_CheckInterpolateSector v front0).interpceilingheight > v.viewz
          ∨ (R_CheckInterpolateSector v front0).ceilingpic = v.skyflatnum →
        rs2.ceilingplane =
          some (v.R_FindPlane (R_CheckInterpolateSector v front0).interpceilingheight
            (R_CheckInterpolateSector v front0).ceilingpic
            (R_CheckInterpolateSector v front0).rlightlevel 0)) ∧
      (¬ ((R_CheckInterpolateSector v front0).interpceilingheight > v.viewz
          ∨ (R_CheckInterpolateSector v front0).ceilingpic = v.skyflatnum) →
        rs2.ceilingplane = none) := by
  obtain ⟨_, hpos, sub, front0, polySegs, lines, hsub, hfront, _, _, hadd⟩ :=
    (subsector_done v lv rs num rs2 out).1 h
  obtain ⟨hf, hc, _⟩ := addLines_frame v _ _ _ _ hadd
  refine ⟨sub, front0, hpos, hsub, hfront, ?_, ?_, ?_, ?_⟩
  · intro hlt
    rw [hf]
    simp only [hlt, if_true]
  · intro hlt
    rw [hf]
    simp only [hlt, if_false]
  · intro hgt
    rw [hc]
    simp only [hgt, if_true]
  · intro hgt
    rw [hc]
    simp only [hgt, if_false]

/-- C16, witness: the leaf of `exLevel` seen from height 0: the floor at 0 is
not below the view, the ceiling at 128 is above it. -/
theorem C16_plane_requests_witness :
    R_Subsector exView (exLevel true) (exRender exClip) 0 = Outcome.done (exAfterLeaf, [(1, 1)]) ∧
    exAfterLeaf.floorplane = none ∧ exAfterLeaf.ceilingplane = some 0 ∧
    ∃ sub front0, (0 : Int) ≤ 0 ∧ (exLevel true).subsectors[(0 : Int).toNat]? = some sub ∧
      (exRender exClip).sectors[sub.sector]? = some front0 ∧
      ((R_CheckInterpolateSector exView front0).interpfloorheight < exView.viewz →
        exAfterLeaf.floorplane =
          some (exView.R_FindPlane (R_CheckInterpolateSector exView front0).interpfloorheight
            (R_CheckInterpolateSector exView front0).floorpic
            (R_CheckInterpolateSector exView front0).rlightlevel
            (R_CheckInterpolateSector exView front0).special)) ∧
      (¬ (R_CheckInterpolateSector exView front0).interpfloorheight < exView.viewz →
        exAfterLeaf.floorplane = none) ∧
      ((R_CheckInterpolateSector exView front0).interpceilingheight > exView.viewz
          ∨ (R_CheckInterpolateSector exView front0).ceilingpic = exView.skyflatnum →
        exAfterLeaf.ceilingplane =
          some (exView.R_FindPlane (R_CheckInterpolateSector exView front0).interpceilingheight
            (R_CheckInterpolateSector exView front0).ceilingpic
            (R_CheckInterpolateSector exView front0).rlightlevel 0)) ∧
      (¬ ((R_CheckInterpolateSector exView front0).interpceilingheight > exView.viewz
          ∨ (R_CheckInterpolateSector exView front0).ceilingpic = exView.skyflatnum) →
        exAfterLeaf.ceilingplane = none) :=
  ⟨by decide, by decide, by decide,
    C16_plane_requests exView (exLevel true) (exRender exClip) 0 exAfterLeaf [(1, 1)]
      (by decide)⟩

/-! ## The corner table of `R_CheckBBox` -/

theorem boxPos_std (v : View) (top bottom left right : Int) :
    boxPos v ⟨0, 1, 2, 3⟩ [top, bottom, left, right] =
      some (((if v.viewy ≥ top then 0 else if v.viewy > bottom then 1 else 2) <<< 2) +
        (if v.viewx ≤ left then 0 else if v.viewx < right then 1 else 2)) := by
  simp only [boxPos, List.getElem?_cons_succ, List.getElem?_cons_zero]

theorem boxPos_cases (v : View) (top bottom left right : Int) :
    ∃ boxx boxy : Nat,
      boxPos v ⟨0, 1, 2, 3⟩ [top, bottom, left, right] = some ((boxy <<< 2) + boxx) ∧
      ((boxx = 0 ∧ v.viewx ≤ left) ∨ (boxx = 1 ∧ left < v.viewx ∧ v.viewx < right) ∨
        (boxx = 2 ∧ left < v.viewx ∧ right ≤ v.viewx)) ∧
      ((boxy = 0 ∧ top ≤ v.viewy) ∨ (boxy = 1 ∧ v.viewy < top ∧ bottom < v.viewy) ∨
        (boxy = 2 ∧ v.viewy < top ∧ v.viewy ≤ bottom)) := by
  rw [boxPos_std]
  refine ⟨_, _, rfl, ?_, ?_⟩
  · by_cases h1 : v.viewx ≤ left
    · exact Or.inl ⟨by simp only [h1, if_true], h1⟩
    · by_cases h2 : v.viewx < right
      · exact Or.inr (Or.inl ⟨by simp only [h1, h2, if_true, if_false], by omega, h2⟩)
      · exact Or.inr (Or.inr ⟨by simp only [h1, h2, if_false], by omega, by omega⟩)
  · by_cases h1 : v.viewy ≥ top
    · exact Or.inl ⟨by simp only [h1, if_true], h1⟩
    · by_cases h2 : v.viewy > bottom
      · exact Or.inr (Or.inl ⟨by simp only [h1, h2, if_true, if_false], by omega, h2⟩)
      · exact Or.inr (Or.inr ⟨by simp only [h1, h2, if_false], by omega, by omega⟩)

theorem corners_wedge (v : View) (top bottom left right : Int)
    (hlr : left ≤ right) (hbt : bottom ≤ top) (boxpos : Nat)
    (hpos : boxPos v ⟨0, 1, 2, 3⟩ [top, bottom, left, right] = some boxpos) (hne : boxpos ≠ 5) :
    ∃ c1 c2, boxCorners boxpos [top, bottom, left, right] = some (c1, c2) ∧
      ∀ px py : Int, left ≤ px → px ≤ right → bottom ≤ py → py ≤ top →
        0 ≤ cross (c2.1 - v.viewx, c2.2 - v.viewy) (px - v.viewx, py - v.viewy) ∧
        0 ≤ cross (px - v.viewx, py - v.viewy) (c1.1 - v.viewx, c1.2 - v.viewy) := by
  obtain ⟨boxx, boxy, hp, hx, hy⟩ := boxPos_cases v top bottom left right
  rw [hp] at hpos
  simp only [Option.some.injEq] at hpos
  subst hpos
  rcases hx with ⟨rfl, hx1⟩ | ⟨rfl, hx1, hx2⟩ | ⟨rfl, hx1, hx2⟩ <;>
    rcases hy with ⟨rfl, hy1⟩ | ⟨rfl, hy1, hy2⟩ | ⟨rfl, hy1, hy2⟩
  · refine ⟨(right, top), (left, bottom), rfl, ?_⟩
    intro px py h1 h2 h3 h4
    simp only [cross]
    constructor
    · nlinarith
    · nlinarith
  · refine ⟨(left, top), (left, bottom), rfl, ?_⟩
    intro px py h1 h2 h3 h4
    simp only [cross]
    constructor
    · nlinarith
    · nlinarith
  · refine ⟨(left, top), (right, bottom), rfl, ?_⟩
    intro px py h1 h2 h3 h4
    simp only [cross]
    constructor
    · nlinarith
    · nlinarith
  · refine ⟨(right, top), (left, top), rfl, ?_⟩
    intro px py h1 h2 h3 h4
    simp only [cross]
    constructor
    · nlinarith
    · nlinarith
  · exact absurd rfl hne
  · refine ⟨(left, bottom), (right, bottom), rfl, ?_⟩
    intro px py h1 h2 h3 h4
    simp only [cross]
    constructor
    · nlinarith
    · nlinarith
  · refine ⟨(right, bottom), (left, top), rfl, ?_⟩
    intro px py h1 h2 h3 h4
    simp only [cross]
    constructor
    · nlinarith
    · nlinarith
  · refine ⟨(right, bottom), (right, top), rfl, ?_⟩
    intro px py h1 h2 h3 h4
    simp only [cross]
    constructor
    · nlinarith
    · nlinarith
  · refine ⟨(left, bottom), (right, top), rfl, ?_⟩
    intro px py h1 h2 h3 h4
    simp only [cross]
    constructor
    · nlinarith
    · nlinarith

theorem corners_table (boxx boxy : Nat) (hx : boxx = 0 ∨ boxx = 1 ∨ boxx = 2)
    (hy : boxy = 0 ∨ boxy = 1 ∨ boxy = 2) (hne : (boxy <<< 2) + boxx ≠ 5) :
    (boxy <<< 2) + boxx ∈ [0, 1, 2, 4, 6, 8, 9, 10] ∧
    ∃ i0 i1 i2 i3, checkcoord[(boxy <<< 2) + boxx]? = some [i0, i1, i2, i3] ∧
      (i0 = 2 ∨ i0 = 3) ∧ (i1 = 0 ∨ i1 = 1) ∧ (i2 = 2 ∨ i2 = 3) ∧ (i3 = 0 ∨ i3 = 1) := by
  rcases hx with rfl | rfl | rfl <;> rcases hy with rfl | rfl | rfl
  · exact ⟨by decide, 3, 0, 2, 1, rfl, by decide, by decide, by decide, by decide⟩
  · exact ⟨by decide, 2, 0, 2, 1, rfl, by decide, by decide, by decide, by decide⟩
  · exact ⟨by decide, 2, 0, 3, 1, rfl, by decide, by decide, by decide, by decide⟩
  · exact ⟨by decide, 3, 0, 2, 0, rfl, by decide, by decide, by decide, by decide⟩
  · exact absurd rfl hne
  · exact ⟨by decide, 2, 1, 3, 1, rfl, by decide, by decide, by decide, by decide⟩
  · exact ⟨by decide, 3, 1, 2, 0, rfl, by decide, by decide, by decide, by decide⟩
  · exact ⟨by decide, 3, 1, 3, 0, rfl, by decide, by decide, by decide, by decide⟩
  · exact ⟨by decide, 2, 1, 3, 0, rfl, by decide, by decide, by decide, by decide⟩

/-- C17: the corners that `checkcoord` selects. With the box stored as
`[top, bottom, left, right]` (`BOXTOP = 0`, `BOXBOTTOM = 1`, `BOXLEFT = 2`,
`BOXRIGHT = 3`), `left ≤ right` and `bottom ≤ top`: `boxpos` is 5 exactly when
the viewpoint is strictly inside the box in both axes, and then `R_CheckBBox`
returns `true` on every clip list; otherwise `boxpos` is one of 0, 1, 2, 4, 6,
8, 9, 10, the entries 0 and 2 of its row are the positions of `left` or
`right`, the entries 1 and 3 those of `top` or `bottom`, and every point `p`
of the box lies in the wedge from `c2 = (x2, y2)` counter-clockwise to
`c1 = (x1, y1)` seen from the viewpoint `v`: `cross (c2 - v) (p - v) ≥ 0` and
`cross (p - v) (c1 - v) ≥ 0`. -/
theorem C17_silhouette_corners (v : View) (bx : BoxIndex) (top bottom left right : Int)
    (hbx : bx = ⟨0, 1, 2, 3⟩) (hlr : left ≤ right) (hbt : bottom ≤ top) :
    ∃ boxpos, boxPos v bx [top, bottom, left, right] = some boxpos ∧
      (boxpos = 5 ↔
        (left < v.viewx ∧ v.viewx < right ∧ bottom < v.viewy ∧ v.viewy < top)) ∧
      (boxpos = 5 → ∀ c, R_CheckBBox v bx c [top, bottom, left, right] = some true) ∧
      (boxpos ≠ 5 →
        boxpos ∈ [0, 1, 2, 4, 6, 8, 9, 10] ∧
        (∃ i0 i1 i2 i3, checkcoord[boxpos]? = some [i0, i1, i2, i3] ∧
          (i0 = bx.BOXLEFT ∨ i0 = bx.BOXRIGHT) ∧ (i1 = bx.BOXTOP ∨ i1 = bx.BOXBOTTOM) ∧
          (i2 = bx.BOXLEFT ∨ i2 = bx.BOXRIGHT) ∧ (i3 = bx.BOXTOP ∨ i3 = bx.BOXBOTTOM)) ∧
        ∃ c1 c2, boxCorners boxpos [top, bottom, left, right] = some (c1, c2) ∧
          ∀ px py : Int, left ≤ px → px ≤ right → bottom ≤ py → py ≤ top →
            0 ≤ cross (c2.1 - v.viewx, c2.2 - v.viewy) (px - v.viewx, py - v.viewy) ∧
            0 ≤ cross (px - v.viewx, py - v.viewy) (c1.1 - v.viewx, c1.2 - v.viewy)) := by
  subst hbx
  obtain ⟨boxx, boxy, hp, hx, hy⟩ := boxPos_cases v top bottom left right
  refine ⟨(boxy <<< 2) + boxx, hp, ?_, ?_, ?_⟩
  · rcases hx with ⟨rfl, hx1⟩ | ⟨rfl, hx1, hx2⟩ | ⟨rfl, hx1, hx2⟩ <;>
      rcases hy with ⟨rfl, hy1⟩ | ⟨rfl, hy1, hy2⟩ | ⟨rfl, hy1, hy2⟩ <;>
      constructor <;> intro h <;>
      first
        | exact absurd h (by decide)
        | exact ⟨hx1, hx2, hy2, hy1⟩
        | rfl
        | (exfalso; omega)
  · intro h5 c
    simp only [R_CheckBBox, hp, h5, if_true]
  · intro hne
    have hx3 : boxx = 0 ∨ boxx = 1 ∨ boxx = 2 := by
      rcases hx with ⟨h, _⟩ | ⟨h, _⟩ | ⟨h, _⟩
      · exact Or.inl h
      · exact Or.inr (Or.inl h)
      · exact Or.inr (Or.inr h)
    have hy3 : boxy = 0 ∨ boxy = 1 ∨ boxy = 2 := by
      rcases hy with ⟨h, _⟩ | ⟨h, _⟩ | ⟨h, _⟩
      · exact Or.inl h
      · exact Or.inr (Or.inl h)
      · exact Or.inr (Or.inr h)
    obtain ⟨hmem, htab⟩ := corners_table boxx boxy hx3 hy3 hne
    exact ⟨hmem, htab, corners_wedge v top bottom left right hlr hbt _ hp hne⟩

/-- C17, witness: the box `[3, 8] x [5, 10]` seen from the origin, below and to
the left of it: `boxpos` is 8 and the corners are `(3, 10)` and `(8, 5)`. -/
theorem C17_silhouette_corners_witness :
    boxPos exView exBox [10, 5, 3, 8] = some 8 ∧
    boxCorners 8 [10, 5, 3, 8] = some ((3, 10), (8, 5)) ∧
    ∃ boxpos, boxPos exView exBox [10, 5, 3, 8] = some boxpos ∧
      (boxpos = 5 ↔
        ((3 : Int) < exView.viewx ∧ exView.viewx < 8 ∧ 5 < exView.viewy ∧ exView.viewy < 10)) ∧
      (boxpos = 5 → ∀ c, R_CheckBBox exView exBox c [10, 5, 3, 8] = some true) ∧
      (boxpos ≠ 5 →
        boxpos ∈ [0, 1, 2, 4, 6, 8, 9, 10] ∧
        (∃ i0 i1 i2 i3, checkcoord[boxpos]? = some [i0, i1, i2, i3] ∧
          (i0 = exBox.BOXLEFT ∨ i0 = exBox.BOXRIGHT) ∧
          (i1 = exBox.BOXTOP ∨ i1 = exBox.BOXBOTTOM) ∧
          (i2 = exBox.BOXLEFT ∨ i2 = exBox.BOXRIGHT) ∧
          (i3 = exBox.BOXTOP ∨ i3 = exBox.BOXBOTTOM)) ∧
        ∃ c1 c2, boxCorners boxpos [10, 5, 3, 8] = some (c1, c2) ∧
          ∀ px py : Int, 3 ≤ px → px ≤ 8 → 5 ≤ py → py ≤ 10 →
            0 ≤ cross (c2.1 - exView.viewx, c2.2 - exView.viewy)
                (px - exView.viewx, py - exView.viewy) ∧
            0 ≤ cross (px - exView.viewx, py - exView.viewy)
                (c1.1 - exView.viewx, c1.2 - exView.viewy)) :=
  ⟨by decide, by decide,
    C17_silhouette_corners exView exBox 10 5 3 8 rfl (by decide) (by decide)⟩

/-! ## Scans that stop at the right sentinel -/

theorem solidWalk_cut (l : Int) (hl : l ≤ 2147483647) (G : List cliprange)
    (V : List cliprange) (cur : cliprange) (start : Nat)
    (h1 : ¬ l ≤ cur.last) (hb : Bounded cur) (hV : ∀ e ∈ V, Bounded e)
    (hex : ∃ e ∈ V, l ≤ e.last) :
    ∃ r, solidWalk l (cur :: (V ++ G)) start = some r ∧
      solidWalk l (cur :: V) start = some r ∧ r.next ≤ start + V.length := by
  obtain ⟨r, C, D, hr, hV1, hn, hab, hs, _⟩ := solidWalk_spec l hl G V cur start h1 hb hV hex
  obtain ⟨r', C', D', hr', hV1', hn', hab', hs', _⟩ :=
    solidWalk_spec l hl [] V cur start h1 hb hV hex
  rw [List.append_nil] at hr'
  have hD := hab 0
  rw [hab' 0] at hD
  simp only [List.cons.injEq, cliprange.mk.injEq, true_and] at hD
  obtain ⟨hnl, hDD⟩ := hD
  have hC : C = C' := by
    subst hDD
    rw [hV1] at hV1'
    exact List.append_cancel_right hV1'
  have hrr : r = r' := by
    cases r
    cases r'
    simp only [WalkResult.mk.injEq]
    simp only at hn hn' hs hs' hnl
    refine ⟨?_, hnl.symm, ?_⟩
    · rw [hn, hn', hC]
    · rw [hs, hs']
  refine ⟨r, hr, by rw [hrr]; exact hr', ?_⟩
  rw [hn, hV1]
  simp

/-- C18: the sentinels bound every scan. Let `ivs` satisfy the invariant (it
ends with the right sentinel) and let the array hold `ivs` followed by any
entries `G`. For `first ≤ last`: the start-locating loop of the two clippers
(bound `first - 1`) and the one of `R_CheckBBox` (bound `last`) stop at an
index inside `ivs`, and they stop at the same index on the array cut right
after the right sentinel, where a read past the sentinel would leave the
array; the forward walk of `R_ClipSolidWallSegment` returns the same result on
the cut array and ends with `next` inside `ivs`; and the whole of
`R_ClipPassWallSegment`, locating loop and forward walk, returns the same wall
ranges on the cut array. -/
theorem C18_sentinels_bound (ivs G : List cliprange) (newend : Nat) (first last : Int)
    (hinv : SegsInv ivs) (hf : -0x7fffffff ≤ first) (hfl : first ≤ last)
    (hl : last ≤ 0x7fffffff) :
    (∃ A st V, ivs = A ++ st :: V ∧ A.length < (ivs).length ∧
      findStart (ivs ++ G) (int32 (first - 1)) 0 = some A.length ∧
      findStart (ivs) (int32 (first - 1)) 0 = some A.length ∧
      (¬ last ≤ st.last → ∀ f0, f0 = st.first ∨ f0 = first →
        ∃ r, solidWalk last (⟨f0, st.last⟩ :: (V ++ G)) A.length = some r ∧
          solidWalk last (⟨f0, st.last⟩ :: V) A.length = some r ∧
          r.next < (ivs).length)) ∧
    (∃ out,
      R_ClipPassWallSegment ⟨ivs ++ G, newend⟩ first last = some (⟨ivs ++ G, newend⟩, out) ∧
      R_ClipPassWallSegment ⟨ivs, newend⟩ first last = some (⟨ivs, newend⟩, out)) ∧
    (∃ start, findStart (ivs ++ G) last 0 = some start ∧
      findStart (ivs) last 0 = some start ∧ start < (ivs).length) := by
  have hf' : (-2147483647 : Int) ≤ first := hf
  have hl' : last ≤ (2147483647 : Int) := hl
  have hg := hinv.good
  have hbd := hinv.bounded
  have e1 : int32 (first - 1) = first - 1 := int32_eq _ (by omega) (by omega)
  refine ⟨?_, ?_, ?_⟩
  · obtain ⟨A, st, V, hsplit, hA, hst⟩ :=
      exists_start (first - 1) ivs (hg.exists_ge (first - 1) (by omega))
    refine ⟨A, st, V, hsplit, by rw [hsplit]; simp, ?_, ?_, ?_⟩
    · rw [e1, hsplit]
      have := findStart_append A st (V ++ G) (first - 1) 0 hA hst
      simpa using this
    · rw [e1, hsplit]
      have := findStart_append A st V (first - 1) 0 hA hst
      simpa using this
    · intro hlast f0 hf0
      have hbst : Bounded st := hbd st (by rw [hsplit]; simp)
      have hbV : ∀ e ∈ V, Bounded e := fun e he => hbd e (by rw [hsplit]; simp [he])
      have hex : ∃ e ∈ V, last ≤ e.last := by
        obtain ⟨e, he, hel⟩ := hg.exists_ge last hl'
        rw [hsplit] at he
        rcases List.mem_append.1 he with h | h
        · have := hA e h
          omega
        · rcases List.mem_cons.1 h with rfl | h'
          · omega
          · exact ⟨e, h', by omega⟩
      have hbc : Bounded ⟨f0, st.last⟩ := by
        obtain ⟨b1, b2, b3, b4⟩ := hbst
        rcases hf0 with h | h
        · rw [h]
          exact ⟨b1, b2, b3, b4⟩
        · rw [h]
          exact ⟨hf', by show first ≤ 2147483647; omega, b3, b4⟩
      obtain ⟨r, hr1, hr2, hn⟩ := solidWalk_cut last hl' G V ⟨f0, st.last⟩ A.length hlast hbc hbV hex
      refine ⟨r, hr1, hr2, ?_⟩
      rw [hsplit]
      simp only [List.length_append, List.length_cons]
      omega
  · refine ⟨openRanges first last ivs, pass_refines first last hf' (by omega) hl' ivs G hinv newend, ?_⟩
    have := pass_refines first last hf' (by omega) hl' ivs [] hinv newend
    simpa using this
  · obtain ⟨A, st, V, hsplit, hA, hst⟩ := exists_start last ivs (hg.exists_ge last hl')
    refine ⟨A.length, ?_, ?_, by rw [hsplit]; simp⟩
    · rw [hsplit]
      have := findStart_append A st (V ++ G) last 0 hA hst
      simpa using this
    · rw [hsplit]
      have := findStart_append A st V last 0 hA hst
      simpa using this

/-- C18, witness: the intervals `[-0x7fffffff, -1], [5, 9], [320, 0x7fffffff]`
followed by one unused entry, and the range `[2, 12]`. -/
theorem C18_sentinels_bound_witness :
    SegsInv [⟨-0x7fffffff, -1⟩, ⟨5, 9⟩, ⟨320, 0x7fffffff⟩] ∧
    ((∃ A st V, [⟨-0x7fffffff, -1⟩, ⟨5, 9⟩, ⟨320, 0x7fffffff⟩] = A ++ st :: V ∧ A.length < ([⟨-0x7fffffff, -1⟩, ⟨5, 9⟩, ⟨320, 0x7fffffff⟩] : List cliprange).length ∧
      findStart ([⟨-0x7fffffff, -1⟩, ⟨5, 9⟩, ⟨320, 0x7fffffff⟩] ++ [⟨0, 0⟩]) (int32 (2 - 1)) 0 = some A.length ∧
      findStart [⟨-0x7fffffff, -1⟩, ⟨5, 9⟩, ⟨320, 0x7fffffff⟩] (int32 (2 - 1)) 0 = some A.length ∧
      (¬ 12 ≤ st.last → ∀ f0, f0 = st.first ∨ f0 = 2 →
        ∃ r, solidWalk 12 (⟨f0, st.last⟩ :: (V ++ [⟨0, 0⟩])) A.length = some r ∧
          solidWalk 12 (⟨f0, st.last⟩ :: V) A.length = some r ∧
          r.next < ([⟨-0x7fffffff, -1⟩, ⟨5, 9⟩, ⟨320, 0x7fffffff⟩] : List cliprange).length)) ∧
    (∃ out,
      R_ClipPassWallSegment ⟨[⟨-0x7fffffff, -1⟩, ⟨5, 9⟩, ⟨320, 0x7fffffff⟩] ++ [⟨0, 0⟩], 3⟩ 2 12 = some (⟨[⟨-0x7fffffff, -1⟩, ⟨5, 9⟩, ⟨320, 0x7fffffff⟩] ++ [⟨0, 0⟩], 3⟩, out) ∧
      R_ClipPassWallSegment ⟨[⟨-0x7fffffff, -1⟩, ⟨5, 9⟩, ⟨320, 0x7fffffff⟩], 3⟩ 2 12 = some (⟨[⟨-0x7fffffff, -1⟩, ⟨5, 9⟩, ⟨320, 0x7fffffff⟩], 3⟩, out)) ∧
    (∃ start, findStart ([⟨-0x7fffffff, -1⟩, ⟨5, 9⟩, ⟨320, 0x7fffffff⟩] ++ [⟨0, 0⟩]) 12 0 = some start ∧
      findStart [⟨-0x7fffffff, -1⟩, ⟨5, 9⟩, ⟨320, 0x7fffffff⟩] 12 0 = some start ∧ start < ([⟨-0x7fffffff, -1⟩, ⟨5, 9⟩, ⟨320, 0x7fffffff⟩] : List cliprange).length)) :=
  ⟨by simp [SegsInv, apart],
    C18_sentinels_bound [⟨-0x7fffffff, -1⟩, ⟨5, 9⟩, ⟨320, 0x7fffffff⟩] [⟨0, 0⟩] 3 2 12
      (by simp [SegsInv, apart]) (by decide) (by decide) (by decide)⟩

/-! ## `newend` after a call of the solid clipper -/

/-- On a clip list with `newend` equal to the number of intervals, a call of
`R_ClipSolidWallSegment` that removes no interval (insert and extend paths)
keeps `newend` equal to the number of intervals, and a call that removes one
or more (crunch path) leaves `newend` one above it. -/
theorem newend_after_solid (s : ClipState) (f l : Int) (hinv : ClipInv s)
    (hcap : s.newend < s.solidsegs.length) (hcount : s.newend = (intervals s.solidsegs).length)
    (hf : -2147483647 ≤ f) (hfl : f ≤ l) (hl : l ≤ 2147483647) :
    ∃ s1 out, R_ClipSolidWallSegment s f l = some (s1, out) ∧
      s1.newend = (intervals s1.solidsegs).length
        + (if (intervals s1.solidsegs).length < (intervals s.solidsegs).length then 1 else 0) := by
  obtain ⟨s1, h1, _, _, _, h5⟩ := solid_step s f l hinv hcap hf hfl hl
  exact ⟨s1, _, h1, by omega⟩

/-- C19, failing input: the crunch path breaks "newend is one past the last
valid seg". The clip list `[-0x7fffffff, -1], [10, 20], [30, 40],
[320, 0x7fffffff]` with `newend = solidsegs + 4` is what `R_ClearClipSegs`
(`viewwidth = 320`) and the calls `(10, 20)`, `(30, 40)` leave; the entry of
index 4 holds `(77, 88)`. The call `R_ClipSolidWallSegment(15, 35)` merges the
two middle intervals: its crunch loop reads the entry of index 4, the old
`newend`, copies it to index 3, and leaves `newend = 4`, so the entry at
`newend - 1` is `(77, 88)`, not the right sentinel, and `newend` is one more
than the three intervals; on an array of exactly four entries the same call
reads outside the array. -/
theorem C19_crunch_failing_input :
    R_ClearClipSegs 320 ⟨[⟨0, 0⟩, ⟨0, 0⟩, ⟨0, 0⟩, ⟨0, 0⟩, ⟨77, 88⟩], 0⟩
      = some ⟨[⟨-0x7fffffff, -1⟩, ⟨320, 0x7fffffff⟩, ⟨0, 0⟩, ⟨0, 0⟩, ⟨77, 88⟩], 2⟩ ∧
    runSolid ⟨[⟨-0x7fffffff, -1⟩, ⟨320, 0x7fffffff⟩, ⟨0, 0⟩, ⟨0, 0⟩, ⟨77, 88⟩], 2⟩
        [(10, 20), (30, 40)]
      = some (⟨[⟨-0x7fffffff, -1⟩, ⟨10, 20⟩, ⟨30, 40⟩, ⟨320, 0x7fffffff⟩, ⟨77, 88⟩], 4⟩,
          [[(10, 20)], [(30, 40)]]) ∧
    R_ClipSolidWallSegment
        ⟨[⟨-0x7fffffff, -1⟩, ⟨10, 20⟩, ⟨30, 40⟩, ⟨320, 0x7fffffff⟩, ⟨77, 88⟩], 4⟩ 15 35
      = some (⟨[⟨-0x7fffffff, -1⟩, ⟨10, 40⟩, ⟨320, 0x7fffffff⟩, ⟨77, 88⟩, ⟨77, 88⟩], 4⟩,
          [(21, 29)]) ∧
    (intervals [⟨-0x7fffffff, -1⟩, ⟨10, 40⟩, ⟨320, 0x7fffffff⟩, ⟨77, 88⟩, ⟨77, 88⟩]).length = 3 ∧
    R_ClipSolidWallSegment
        ⟨[⟨-0x7fffffff, -1⟩, ⟨10, 20⟩, ⟨30, 40⟩, ⟨320, 0x7fffffff⟩], 4⟩ 15 35 = none := by
  decide

/-! ## The clipped angles of `R_AddLine` -/

theorem u32_lt (x : Int) : u32 x < 4294967296 := by
  unfold u32; omega

theorem u32_cast (x : Int) : ((u32 x : Nat) : Int) = x % 4294967296 := by
  unfold u32; omega

theorem u32_cases (x : Int) (h1 : -4294967296 ≤ x) (h2 : x < 8589934592) :
    (x < 0 ∧ (u32 x : Int) = x + 4294967296) ∨
    (0 ≤ x ∧ x < 4294967296 ∧ (u32 x : Int) = x) ∨
    (4294967296 ≤ x ∧ (u32 x : Int) = x - 4294967296) := by
  unfold u32; omega

theorem int32_cases (a : Nat) (h : a < 4294967296) :
    (a < 2147483648 ∧ int32 a = a) ∨ (2147483648 ≤ a ∧ int32 a = (a : Int) - 4294967296) := by
  unfold int32; omega

theorem u32_sub_sub (x y z : Int) :
    u32 ((u32 (x - z) : Int) - (u32 (y - z) : Int)) = u32 (x - y) := by
  have h : ((u32 (x - z) : Int) - (u32 (y - z) : Int)) % 4294967296 = (x - y) % 4294967296 := by
    rw [u32_cast, u32_cast, ← Int.sub_emod]
    congr 1
    omega
  unfold u32 at h ⊢
  omega

theorem clipAngle1_spec (v : View) (A1 span a1 : Nat) (hc : v.clipangle < 1073741824)
    (hA1 : A1 < 4294967296) (h1 : clipAngle1 v A1 span = some a1) :
    a1 < 4294967296 ∧ -(v.clipangle : Int) ≤ int32 a1 ∧ int32 a1 ≤ v.clipangle ∧
    (a1 = A1 ∨ int32 a1 = v.clipangle) := by
  have f1 := u32_cases ((A1 : Int) + v.clipangle) (by omega) (by omega)
  have f2 := u32_cases (2 * (v.clipangle : Int)) (by omega) (by omega)
  have g1 := int32_cases A1 hA1
  have g3 := int32_cases v.clipangle (by omega)
  unfold clipAngle1 at h1
  simp only at h1
  split_ifs at h1 with hgt hge
  · simp only [Option.some.injEq] at h1
    subst h1
    exact ⟨by omega, by omega, by omega, Or.inr (by omega)⟩
  · simp only [Option.some.injEq] at h1
    subst h1
    refine ⟨hA1, ?_, ?_, Or.inl rfl⟩
    · omega
    · omega

theorem clipAngle2_spec (v : View) (A2 span a2 : Nat) (hc : v.clipangle < 1073741824)
    (hA2 : A2 < 4294967296) (h2 : clipAngle2 v A2 span = some a2) :
    a2 < 4294967296 ∧ -(v.clipangle : Int) ≤ int32 a2 ∧ int32 a2 ≤ v.clipangle ∧
    (a2 = A2 ∨ int32 a2 = -(v.clipangle : Int)) := by
  have f1 := u32_cases ((v.clipangle : Int) - A2) (by omega) (by omega)
  have f2 := u32_cases (2 * (v.clipangle : Int)) (by omega) (by omega)
  have f9 := u32_cases (-(v.clipangle : Int)) (by omega) (by omega)
  have f10 := u32_lt (-(v.clipangle : Int))
  have g2 := int32_cases A2 hA2
  have g4 := int32_cases (u32 (-(v.clipangle : Int))) (u32_lt _)
  unfold clipAngle2 at h2
  simp only at h2
  split_ifs at h2 with hgt hge
  · simp only [Option.some.injEq] at h2
    subst h2
    exact ⟨by omega, by omega, by omega, Or.inr (by omega)⟩
  · simp only [Option.some.injEq] at h2
    subst h2
    refine ⟨hA2, ?_, ?_, Or.inl rfl⟩
    · omega
    · omega

theorem clip_order (c A1 A2 : Nat) (hc : c < 1073741824)
    (hA1 : A1 < 4294967296) (hA2 : A2 < 4294967296)
    (hspan : u32 ((A1 : Int) - A2) < 2147483648)
    (h1 : -(c : Int) ≤ int32 A1 ∧ int32 A1 ≤ c) (h2 : -(c : Int) ≤ int32 A2 ∧ int32 A2 ≤ c) :
    int32 A2 ≤ int32 A1 := by
  have f8 := u32_cases ((A1 : Int) - A2) (by omega) (by omega)
  have g1 := int32_cases A1 hA1
  have g2 := int32_cases A2 hA2
  omega

theorem angleIndex_spec (v : View) (a : Nat) (hA90 : v.ANG90 = 1073741824)
    (hshift : v.ANGLETOFINESHIFT = 19) (hc : v.clipangle < 1073741824) (ha : a < 4294967296)
    (hlo : -(v.clipangle : Int) ≤ int32 a) (hhi : int32 a ≤ v.clipangle) :
    ((angleIndex v a : Nat) : Int) = (int32 a + 1073741824) / 524288 ∧ angleIndex v a < 4096 := by
  have f1 := u32_cases ((a : Int) + 1073741824) (by omega) (by omega)
  have g1 := int32_cases a ha
  have hidx : angleIndex v a = u32 ((a : Int) + 1073741824) / 524288 := by
    unfold angleIndex
    rw [hA90, hshift, Nat.shiftRight_eq_div_pow]
    rfl
  rw [hidx]
  constructor
  · omega
  · omega

theorem index_mono (x y : Int) (k1 k2 : Nat)
    (h1 : (k1 : Int) = (x + 1073741824) / 524288) (h2 : (k2 : Int) = (y + 1073741824) / 524288)
    (h : y ≤ x) : k2 ≤ k1 := by
  omega

theorem range_nowrap (x1 x2 : Int) (hlo : -2147483648 ≤ x1) (hhi : x2 ≤ 2147483647)
    (hle : x1 ≤ x2) (hne : x1 ≠ x2) : x1 ≤ x2 - 1 ∧ int32 (x2 - 1) = x2 - 1 := by
  have hlt : x1 ≤ x2 - 1 := by omega
  exact ⟨hlt, int32_eq _ (by omega) (by omega)⟩

/-- C20: `R_AddLine` hands the clippers a range with `first ≤ last`. With
`ANG90 = 0x40000000`, `ANG180 = 0x80000000`, `ANGLETOFINESHIFT = 19`,
`clipangle < ANG90`, and a table `viewangletox` of 4096 C `int`s that does not
increase with the index: for a segment that passes the back-face test and both
field-of-view checks, the clipped angles satisfy
`-clipangle ≤ angle2 ≤ angle1 ≤ clipangle` as signed 32-bit values, both indices
`(angle + ANG90) >> ANGLETOFINESHIFT` are below 4096, and `x1 ≤ x2`; when
`x1 ≠ x2` the range `(x1, x2 - 1)` that the rest of `R_AddLine` gives to the
clippers has `x1 ≤ x2 - 1`, without wrap-around. -/
theorem C20_clip_precondition (v : View) (rs : RenderState) (line : seg) (a1 a2 : Nat)
    (hA90 : v.ANG90 = 0x40000000) (hA180 : v.ANG180 = 0x80000000)
    (hshift : v.ANGLETOFINESHIFT = 19) (hclip : v.clipangle < v.ANG90)
    (hmono : ∀ i j, i ≤ j → j < 4096 → v.viewangletox j ≤ v.viewangletox i)
    (hint : ∀ i, i < 4096 → -0x80000000 ≤ v.viewangletox i ∧ v.viewangletox i ≤ 0x7fffffff)
    (hspan : lineSpan v line < v.ANG180)
    (h1 : clipAngle1 v (u32 (lineAngle1 v line - v.viewangle)) (lineSpan v line) = some a1)
    (h2 : clipAngle2 v (u32 (lineAngle2 v line - v.viewangle)) (lineSpan v line) = some a2) :
    -(v.clipangle : Int) ≤ int32 a2 ∧ int32 a2 ≤ int32 a1 ∧ int32 a1 ≤ v.clipangle ∧
    angleIndex v a1 < 4096 ∧ angleIndex v a2 < 4096 ∧
    angleColumn v a1 ≤ angleColumn v a2 ∧
    (angleColumn v a1 ≠ angleColumn v a2 →
      angleColumn v a1 ≤ angleColumn v a2 - 1 ∧
      int32 (angleColumn v a2 - 1) = angleColumn v a2 - 1 ∧
      R_AddLine v rs line =
        addLineClip v { rs with curline := some line, rw_angle1 := lineAngle1 v line } line
          (angleColumn v a1) (angleColumn v a2)) := by
  have hA90' : v.ANG90 = 1073741824 := hA90
  have hA180' : v.ANG180 = 2147483648 := hA180
  have hc : v.clipangle < 1073741824 := by omega
  obtain ⟨b1, b2, b3, b4⟩ := clipAngle1_spec v _ _ a1 hc (u32_lt _) h1
  obtain ⟨d1, d2, d3, d4⟩ := clipAngle2_spec v _ _ a2 hc (u32_lt _) h2
  have hord : int32 a2 ≤ int32 a1 := by
    rcases b4 with e1 | e1
    · rcases d4 with e2 | e2
      · rw [e1, e2]
        rw [e1] at b2 b3
        rw [e2] at d2 d3
        refine clip_order v.clipangle _ _ hc (u32_lt _) (u32_lt _) ?_ ⟨b2, b3⟩ ⟨d2, d3⟩
        rw [u32_sub_sub]
        have := hspan
        unfold lineSpan at this
        omega
      · omega
    · omega
  obtain ⟨i1, i1lt⟩ := angleIndex_spec v a1 hA90' hshift hc b1 b2 b3
  obtain ⟨i2, i2lt⟩ := angleIndex_spec v a2 hA90' hshift hc d1 d2 d3
  have hidx : angleIndex v a2 ≤ angleIndex v a1 := index_mono _ _ _ _ i1 i2 hord
  have hcol : angleColumn v a1 ≤ angleColumn v a2 := hmono _ _ hidx i1lt
  refine ⟨d2, hord, b3, i1lt, i2lt, hcol, ?_⟩
  intro hne
  obtain ⟨hlt, h32⟩ :=
    range_nowrap (angleColumn v a1) (angleColumn v a2) (hint _ i1lt).1 (hint _ i2lt).2 hcol hne
  exact ⟨hlt, h32, addLine_survives v rs line a1 a2 hspan h1 h2 hne⟩

/-- C20, witness: the example view (clip angle 45 degrees, table 2 below index
2048 and 1 from there on) and the segment `exLine`: the clipped angles are
`+0x10000000` and `-0x10000000`, the columns 1 and 2. -/
theorem C20_clip_precondition_witness :
    lineSpan exView exLine < exView.ANG180 ∧
    -(exView.clipangle : Int) ≤ int32 (0xF0000000 : Nat) ∧
    int32 (0xF0000000 : Nat) ≤ int32 (0x10000000 : Nat) ∧
    int32 (0x10000000 : Nat) ≤ exView.clipangle ∧
    angleIndex exView 0x10000000 < 4096 ∧ angleIndex exView 0xF0000000 < 4096 ∧
    angleColumn exView 0x10000000 ≤ angleColumn exView 0xF0000000 ∧
    (angleColumn exView 0x10000000 ≠ angleColumn exView 0xF0000000 →
      angleColumn exView 0x10000000 ≤ angleColumn exView 0xF0000000 - 1 ∧
      int32 (angleColumn exView 0xF0000000 - 1) = angleColumn exView 0xF0000000 - 1 ∧
      R_AddLine exView (exRender exClip) exLine =
        addLineClip exView
          { exRender exClip with curline := some exLine, rw_angle1 := lineAngle1 exView exLine }
          exLine (angleColumn exView 0x10000000) (angleColumn exView 0xF0000000)) :=
  ⟨by decide,
    C20_clip_precondition exView (exRender exClip) exLine 0x10000000 0xF0000000 rfl rfl rfl
      (by decide)
      (by
        intro i j hij _
        simp only [exView]
        split_ifs <;> omega)
      (by
        intro i _
        simp only [exView]
        split_ifs <;> decide)
      (by decide) (by decide) (by decide)⟩

end RBsp
